import Mathlib

/-!
# RI: a verification development

Shallow embedding of `src/RI.cpp` (the "infinite monkey" image renderer):
the canvas partition computed by `main`, `Worker::Init`, `Worker::Run`
with its random guesser, and the flag protocol between the orchestrator
loop of `main` and the worker threads.

Conventions.
* `uint32_t` values are natural numbers; every arithmetic operation of the
  source that can wrap is followed by `u32` (reduction modulo `2^32`).
* Bytes (`uint8_t`) are `Fin 256`.
* The global array `g_pFrameBuffer` is a function from flat indices to
  pixels; a `Pixel*` into it is the flat index it points at.
* A random engine is the finite script of the values `dist(gen)` will
  return, in order; a guess loop that exhausts the script has no result.
* `Run` is embedded as a thread taking steps (`WorkerThread.step`)
  interleaved with the control thread of `main` (`Sys.step`); the flags and
  the counter are `std::atomic` with the default sequentially consistent
  order, so interleaving is their semantics. A worker passes the wait of
  line 114 only when the control thread has cleared its flag. The part of
  the loop body between the wait and the posting of the flag, which does not
  block, is also embedded as functions (`channelLoop`, `channelBatch`,
  `turn`) that return the worker and the list of frame-buffer assignments
  made; `turn_steps` relates the two.
-/

namespace RI

/-! ## Machine integers and the data model -/

/-- Reduction of an unsigned 32-bit result. -/
def u32 (n : Nat) : Nat := n % 2 ^ 32

/-- An 8-bit channel value (`uint8_t`). -/
abbrev Byte := Fin 256

/-- The four channels of a pixel, in the order `Run` processes them. -/
inductive Channel where
  | red
  | green
  | blue
  | alpha
  deriving DecidableEq, Repr

/-- Source `struct Pixel`. -/
structure Pixel where
  red : Byte
  green : Byte
  blue : Byte
  alpha : Byte
  deriving DecidableEq, Repr

/-- Read one channel of a pixel. -/
def Pixel.get (p : Pixel) : Channel → Byte
  | .red => p.red
  | .green => p.green
  | .blue => p.blue
  | .alpha => p.alpha

/-- Assign one channel of a pixel (`pixel.red = v` and its siblings). -/
def Pixel.set (p : Pixel) (ch : Channel) (v : Byte) : Pixel :=
  match ch with
  | .red => { p with red := v }
  | .green => { p with green := v }
  | .blue => { p with blue := v }
  | .alpha => { p with alpha := v }

/-- Source `MAX_RENDER_SIZE_X`. -/
def MAX_RENDER_SIZE_X : Nat := 4096

/-- Source `MAX_RENDER_SIZE_Y`. -/
def MAX_RENDER_SIZE_Y : Nat := 4096

/-- Source `struct TargetPixelComponent`: bit-fields `x : 12`, `y : 12`, `c : 8`. -/
structure TargetPixelComponent where
  x : Nat
  y : Nat
  c : Byte
  deriving DecidableEq, Repr

/-- Brace initialisation `{ x, y, c }` of a `TargetPixelComponent`: the
coordinates are truncated to their 12-bit fields. -/
def TargetPixelComponent.init (x y : Nat) (c : Byte) : TargetPixelComponent :=
  { x := x % 2 ^ 12, y := y % 2 ^ 12, c := c }

/-- The global pixel array `g_pFrameBuffer`, by flat index. -/
abbrev FrameBuffer := Nat → Pixel

/-- The all-zero pixel written by `memset`. -/
def Pixel.zero : Pixel := { red := 0, green := 0, blue := 0, alpha := 0 }

/-! ## The partition loop of `main` (lines 407-425) -/

/-- Source `perThreadPixelCount`: `(config.width * config.height) / numWorkers`. -/
def perThreadPixelCount (width height numWorkers : Nat) : Nat :=
  u32 (width * height) / numWorkers

/-- Source `maxPerThreadPixelCount` of loop iteration `i`. -/
def maxPerThreadPixelCount (width height numWorkers i : Nat) : Nat :=
  if i = numWorkers - 1 then
    u32 (perThreadPixelCount width height numWorkers + u32 (width * height) % numWorkers)
  else
    perThreadPixelCount width height numWorkers

/-- The partition loop run for `k` more iterations from loop variable `i`
and running `pixelOffset`: the `(pixelOffset, maxPerThreadPixelCount)`
arguments of the successive `Init` calls. -/
def partitionLoop (width height numWorkers : Nat) : Nat → Nat → Nat → List (Nat × Nat)
  | 0, _, _ => []
  | k + 1, i, pixelOffset =>
    (pixelOffset, maxPerThreadPixelCount width height numWorkers i) ::
      partitionLoop width height numWorkers k (i + 1)
        (u32 (pixelOffset + maxPerThreadPixelCount width height numWorkers i))

/-- The whole loop `for (i = 0; i < numWorkers; i++)` starting at `pixelOffset = 0`. -/
def partition (width height numWorkers : Nat) : List (Nat × Nat) :=
  partitionLoop width height numWorkers numWorkers 0 0

/-! ## `struct Worker` and `Worker::Init` (lines 36-93) -/

/-- Source `struct Worker`. A `Pixel*` is the flat index of
`g_pFrameBuffer` it points at; a `TargetPixelComponent*` is the array it
points at. The last field is the state of the engine `gen` that `Run`
creates for this worker: the script of the values `dist(gen)` still has to
return. -/
structure Worker where
  m_PendingUpdates : Bool
  m_PixelCount : Nat
  m_FbStride : Nat
  m_pFrameBuffer : Nat
  m_RedChIdx : Nat
  m_GreenChIdx : Nat
  m_BlueChIdx : Nat
  m_AlphaChIdx : Nat
  m_pRedList : List TargetPixelComponent
  m_pGreenList : List TargetPixelComponent
  m_pBlueList : List TargetPixelComponent
  m_pAlphaList : List TargetPixelComponent
  gen : List Nat

/-- A default-constructed `Worker` (the member initialisers of the struct)
whose engine will produce the script `gen`. -/
def Worker.fresh (gen : List Nat) : Worker :=
  { m_PendingUpdates := false
    m_PixelCount := 0
    m_FbStride := 2 ^ 32 - 1
    m_pFrameBuffer := 0
    m_RedChIdx := 0
    m_GreenChIdx := 0
    m_BlueChIdx := 0
    m_AlphaChIdx := 0
    m_pRedList := []
    m_pGreenList := []
    m_pBlueList := []
    m_pAlphaList := []
    gen := gen }

/-- The cursor of a channel (`m_RedChIdx`, ...). -/
def Worker.chIdx (w : Worker) : Channel → Nat
  | .red => w.m_RedChIdx
  | .green => w.m_GreenChIdx
  | .blue => w.m_BlueChIdx
  | .alpha => w.m_AlphaChIdx

/-- The list of a channel (`m_pRedList`, ...). -/
def Worker.chList (w : Worker) : Channel → List TargetPixelComponent
  | .red => w.m_pRedList
  | .green => w.m_pGreenList
  | .blue => w.m_pBlueList
  | .alpha => w.m_pAlphaList

/-- Assign the cursor of a channel. -/
def Worker.setChIdx (w : Worker) (ch : Channel) (v : Nat) : Worker :=
  match ch with
  | .red => { w with m_RedChIdx := v }
  | .green => { w with m_GreenChIdx := v }
  | .blue => { w with m_BlueChIdx := v }
  | .alpha => { w with m_AlphaChIdx := v }

/-- The array one channel holds after the `for` loop of `Init` (lines 74-83),
before it is shuffled: entry `i` is `{ x, y, pTargetImage[x + y * m_FbStride].ch }`
with `x = i % m_FbStride`, `y = i / m_FbStride`. `mem` is the content of
`g_pFrameBuffer` when `Init` runs. (With `m_FbStride = 0` and a positive
count the source divides by zero; here `%` and `/` by zero follow `Nat`.) -/
def Worker.targetList (mem : FrameBuffer) (pTargetImage pixelCount fbStride : Nat)
    (ch : Channel) : List TargetPixelComponent :=
  (List.range pixelCount).map fun i =>
    TargetPixelComponent.init (i % fbStride) (i / fbStride)
      ((mem (pTargetImage + u32 (i % fbStride + i / fbStride * fbStride))).get ch)

/-- The effect of one `std::shuffle` call on an array. -/
abbrev Shuffle := List TargetPixelComponent → List TargetPixelComponent

/-- What `std::shuffle` guarantees: the result is a rearrangement of the input. -/
def IsShuffle (σ : Shuffle) : Prop := ∀ l, List.Perm (σ l) l

/-- Source `Worker::Init`. `shuffle ch` is the rearrangement the
`std::shuffle` call on channel `ch` performs. -/
def Worker.Init (w : Worker) (mem : FrameBuffer) (pTargetImage pFrameBuffer pixelCount fbWidth : Nat)
    (shuffle : Channel → Shuffle) : Worker :=
  { w with
    m_pFrameBuffer := pFrameBuffer
    m_PixelCount := pixelCount
    m_FbStride := fbWidth
    m_pRedList := shuffle .red (Worker.targetList mem pTargetImage pixelCount fbWidth .red)
    m_pGreenList := shuffle .green (Worker.targetList mem pTargetImage pixelCount fbWidth .green)
    m_pBlueList := shuffle .blue (Worker.targetList mem pTargetImage pixelCount fbWidth .blue)
    m_pAlphaList := shuffle .alpha (Worker.targetList mem pTargetImage pixelCount fbWidth .alpha) }

/-! ## `Worker::Run` (lines 95-186) -/

/-- Source `lbdRandomGuesser`: `while (dist(gen) != val) {}`. The argument
is the script of the engine; the result is what is left of it when the
loop exits, and there is none when the script never produces `val`. -/
def lbdRandomGuesser (val : Byte) : List Nat → Option (List Nat)
  | [] => none
  | d :: gen => if d ≠ val.val then lbdRandomGuesser val gen else some gen

/-- One assignment `g_pFrameBuffer[addr].ch = val`. -/
structure Write where
  addr : Nat
  ch : Channel
  val : Byte
  deriving DecidableEq, Repr

/-- The frame buffer after one assignment. -/
def FrameBuffer.store (fb : FrameBuffer) (wr : Write) : FrameBuffer :=
  fun p => if p = wr.addr then (fb p).set wr.ch wr.val else fb p

/-- The frame buffer after a sequence of assignments, oldest first. -/
def FrameBuffer.storeAll (fb : FrameBuffer) (wrs : List Write) : FrameBuffer :=
  wrs.foldl FrameBuffer.store fb

/-- The location `m_pFrameBuffer[p.y * m_FbStride + p.x]` as a flat index of
`g_pFrameBuffer`. -/
def Worker.addrOf (w : Worker) (p : TargetPixelComponent) : Nat :=
  w.m_pFrameBuffer + u32 (p.y * w.m_FbStride + p.x)

/-- One iteration of the inner `for` loop of a channel (lines 123-127 for
red): read the entry under the cursor, advance the cursor, guess its byte,
assign it to the frame buffer. No result when the guess loop has none.
(Reading past the end of the list has no result either; `Run` only
reads under `cursor < m_PixelCount`.) -/
def Worker.pixelIter (ch : Channel) (w : Worker) : Option (Worker × Write) :=
  match (w.chList ch)[w.chIdx ch]? with
  | none => none
  | some p =>
    match lbdRandomGuesser p.c w.gen with
    | none => none
    | some gen' =>
      some ({ w.setChIdx ch (u32 (w.chIdx ch + 1)) with gen := gen' },
            { addr := w.addrOf p, ch := ch, val := p.c })

/-- The inner loop `for (pc = 0; pc < numElems; pc++)` of a channel, with
the assignments it performs, oldest first. -/
def Worker.channelLoop (ch : Channel) : Nat → Worker → Option (Worker × List Write)
  | 0, w => some (w, [])
  | numElems + 1, w =>
    match w.pixelIter ch with
    | none => none
    | some (w1, wr) =>
      match Worker.channelLoop ch numElems w1 with
      | none => none
      | some (w2, wrs) => some (w2, wr :: wrs)

/-- The block of one channel (lines 116-129 for red):
`if (idx < m_PixelCount) { numElems = min(m_PixelCount - idx, pixelIterSize); for ... }`. -/
def Worker.channelBatch (ch : Channel) (pixelIterSize : Nat) (w : Worker) :
    Option (Worker × List Write) :=
  if w.chIdx ch < w.m_PixelCount then
    w.channelLoop ch (min (w.m_PixelCount - w.chIdx ch) pixelIterSize)
  else
    some (w, [])

/-- Source `isAnyWorkLeft` as computed at lines 179-182. -/
def Worker.isAnyWorkLeft (w : Worker) : Bool :=
  decide (w.m_RedChIdx < w.m_PixelCount) || decide (w.m_GreenChIdx < w.m_PixelCount) ||
    decide (w.m_BlueChIdx < w.m_PixelCount) || decide (w.m_AlphaChIdx < w.m_PixelCount)

/-- One turn: the body of the outer `while` from after the wait (line 116)
to the posting of the flag (line 176); red, green, blue, alpha in this
order. -/
def Worker.turn (pixelIterSize : Nat) (w : Worker) : Option (Worker × List Write) :=
  match w.channelBatch .red pixelIterSize with
  | none => none
  | some (w1, r) =>
    match w1.channelBatch .green pixelIterSize with
    | none => none
    | some (w2, g) =>
      match w2.channelBatch .blue pixelIterSize with
      | none => none
      | some (w3, b) =>
        match w3.channelBatch .alpha pixelIterSize with
        | none => none
        | some (w4, a) => some ({ w4 with m_PendingUpdates := true }, r ++ g ++ b ++ a)

/-- A script that lets any `n` guesses in a row return, whatever bytes
are asked for. -/
def Feeds : Nat → List Nat → Prop
  | 0, _ => True
  | n + 1, gen => ∀ v : Byte, ∃ rest, lbdRandomGuesser v gen = some rest ∧ Feeds n rest

/-! ## The threads of `main` (lines 404-491) -/

/-- Everything `main` has fixed when it reaches line 404: the canvas, the
target image loaded into `g_pFrameBuffer`, the worker count, the batch
size, and for worker `i` the four rearrangements its `Init` will draw and
the script of its engine in `Run`. -/
structure Setup where
  image : FrameBuffer
  width : Nat
  height : Nat
  numWorkers : Nat
  stepSizeInPixels : Nat
  shuffle : Nat → Channel → Shuffle
  gen : Nat → List Nat

/-- The `Init` calls of the partition loop (lines 412-425): worker `i` is
initialised with `&g_pFrameBuffer[pixelOffset]` as both target image and
frame buffer. -/
def Setup.initWorkers (c : Setup) : List Worker :=
  (partition c.width c.height c.numWorkers).enum.map fun e =>
    (Worker.fresh (c.gen e.1)).Init c.image e.2.1 e.2.1 e.2.2 c.width (c.shuffle e.1)

/-- The frame buffer after `memset(&g_pFrameBuffer[0], 0, sizeof(Pixel) * width * height)`. -/
def Setup.blank (c : Setup) : FrameBuffer :=
  fun p => if p < c.width * c.height then Pixel.zero else c.image p

/-- Where a worker thread stands in `Run`. -/
inductive WorkerPc where
  /-- at `m_PendingUpdates.wait(true)`, line 114 -/
  | awaitingTurn
  /-- at the `if (idx < m_PixelCount)` of a channel -/
  | channelHead (ch : Channel)
  /-- at the loop test of a channel's inner `for`, with `left` iterations to go -/
  | channelBody (ch : Channel) (left : Nat)
  /-- at `m_PendingUpdates = true`, line 176 -/
  | postUpdate
  /-- at the evaluation of `isAnyWorkLeft` and the loop test, lines 179-183 -/
  | loopTest
  /-- at `g_NumFinishedWorkers++`, line 185 -/
  | leaving
  /-- after the return of `Run` -/
  | finished
  deriving DecidableEq, Repr

/-- What follows the block of a channel. -/
def WorkerPc.afterChannel : Channel → WorkerPc
  | .red => .channelHead .green
  | .green => .channelHead .blue
  | .blue => .channelHead .alpha
  | .alpha => .postUpdate

/-- A worker thread: the worker and where it is in `Run`. -/
structure WorkerThread where
  w : Worker
  pc : WorkerPc

/-- One step of a worker thread in `Run`: the thread afterwards, the
frame-buffer assignments made, and the increment of `g_NumFinishedWorkers`.
A step is the passing of the wait, the test at the head of a channel's
block, one iteration of an inner loop (fetch of the entry with the cursor
advanced, guess, assignment: the thread touches shared memory once, by the
assignment), the exit of an inner loop, the posting of the flag, the loop
test, or the increment of the counter. There is no step when the thread is
blocked at the wait (flag still set), when a guess has no result, or when
`Run` has returned. -/
def WorkerThread.step (pixelIterSize : Nat) (t : WorkerThread) :
    Option (WorkerThread × List Write × Nat) :=
  match t.pc with
  | .awaitingTurn =>
    if t.w.m_PendingUpdates then none else some ({ t with pc := .channelHead .red }, [], 0)
  | .channelHead ch =>
    if t.w.chIdx ch < t.w.m_PixelCount then
      some ({ t with pc := .channelBody ch (min (t.w.m_PixelCount - t.w.chIdx ch) pixelIterSize) },
        [], 0)
    else
      some ({ t with pc := WorkerPc.afterChannel ch }, [], 0)
  | .channelBody ch 0 => some ({ t with pc := WorkerPc.afterChannel ch }, [], 0)
  | .channelBody ch (left + 1) =>
    match t.w.pixelIter ch with
    | none => none
    | some (w1, wr) => some ({ w := w1, pc := .channelBody ch left }, [wr], 0)
  | .postUpdate => some ({ w := { t.w with m_PendingUpdates := true }, pc := .loopTest }, [], 0)
  | .loopTest =>
    some ({ t with pc := if t.w.isAnyWorkLeft then .awaitingTurn else .leaving }, [], 0)
  | .leaving => some ({ t with pc := .finished }, [], 1)
  | .finished => none

/-- A worker thread taking `n` steps in a row: the thread afterwards, the
assignments made, oldest first, and the increments of the counter. -/
def WorkerThread.steps (pixelIterSize : Nat) :
    Nat → WorkerThread → Option (WorkerThread × List Write × Nat)
  | 0, t => some (t, [], 0)
  | n + 1, t =>
    match t.step pixelIterSize with
    | none => none
    | some (t1, wrs, inc) =>
      match WorkerThread.steps pixelIterSize n t1 with
      | none => none
      | some (t2, wrs2, inc2) => some (t2, wrs ++ wrs2, inc + inc2)

/-- Where the control thread stands in the `do ... while` loop of `main`. -/
inductive OrchPc where
  /-- at the test `g_NumFinishedWorkers == numWorkers`, line 458 -/
  | loopTop
  /-- in the pause phase, at `pWorkers[i].m_PendingUpdates.wait(false)`, line 473 -/
  | waitFlag (i : Nat)
  /-- at `mfb_update`, line 477 -/
  | present
  /-- in the resume phase, at `pWorkers[i].m_PendingUpdates = false`, line 487 -/
  | resume (i : Nat)
  /-- at `mfb_wait_sync(pWindow) && (!renderExit)`, line 491 -/
  | waitSync
  /-- the loop has been left -/
  | exited
  deriving DecidableEq, Repr

/-- The keys the keyboard callback distinguishes. -/
inductive Key where
  | space
  | escape
  | other
  deriving DecidableEq, Repr

/-- The state of the process once the worker threads are started. -/
structure Sys where
  numWorkers : Nat
  stepSizeInPixels : Nat
  workers : List WorkerThread
  fb : FrameBuffer
  g_NumFinishedWorkers : Nat
  orch : OrchPc
  renderDone : Bool
  renderPaused : Bool
  renderExit : Bool

/-- The state when the threads have been created (line 435) and the control
thread enters its loop. -/
def Setup.start (c : Setup) : Sys :=
  { numWorkers := c.numWorkers
    stepSizeInPixels := c.stepSizeInPixels
    workers := c.initWorkers.map fun w => { w := w, pc := .awaitingTurn }
    fb := c.blank
    g_NumFinishedWorkers := 0
    orch := .loopTop
    renderDone := false
    renderPaused := false
    renderExit := false }

/-- What can happen next: worker thread `i` takes a step, the control
thread takes a step (`ext` is what the display collaborator answers where
it is asked: `mfb_update` returned `state >= 0`, `mfb_wait_sync` returned
true), or the collaborator delivers a key event to `lbdKeyCb`. -/
inductive Action where
  | worker (i : Nat)
  | orch (ext : Bool)
  | key (k : Key) (isPressed : Bool)
  deriving DecidableEq, Repr

/-- First position of the pause phase (`for` loop of line 471). -/
def Sys.pauseFrom (s : Sys) (i : Nat) : OrchPc :=
  if i < s.numWorkers then .waitFlag i else .present

/-- First position of the resume phase (`for` loop of line 485). -/
def Sys.resumeFrom (s : Sys) (i : Nat) : OrchPc :=
  if i < s.numWorkers then .resume i else .waitSync

/-- Clear the flag of worker `i` (line 487). -/
def Sys.clearFlag (s : Sys) (i : Nat) : List WorkerThread :=
  match s.workers[i]? with
  | none => s.workers
  | some t => s.workers.set i { t with w := { t.w with m_PendingUpdates := false } }

/-- One step of the control thread (lines 456-491). There is no step while
it is blocked at `wait(false)` on a flag that is not set, nor once the loop
is left. -/
def Sys.orchStep (ext : Bool) (s : Sys) : Option Sys :=
  match s.orch with
  | .loopTop =>
    if s.g_NumFinishedWorkers = s.numWorkers then
      some { s with renderDone := true, orch := .waitSync }
    else if !s.renderPaused then
      some { s with orch := s.pauseFrom 0 }
    else
      some { s with orch := .waitSync }
  | .waitFlag i =>
    match s.workers[i]? with
    | none => none
    | some t => if t.w.m_PendingUpdates then some { s with orch := s.pauseFrom (i + 1) } else none
  | .present =>
    if ext then some { s with orch := s.resumeFrom 0 } else some { s with orch := .exited }
  | .resume i => some { s with workers := s.clearFlag i, orch := s.resumeFrom (i + 1) }
  | .waitSync =>
    if ext && !s.renderExit then some { s with orch := .loopTop }
    else some { s with orch := .exited }
  | .exited => none

/-- One step of worker thread `i`. -/
def Sys.workerStep (i : Nat) (s : Sys) : Option Sys :=
  match s.workers[i]? with
  | none => none
  | some t =>
    match t.step s.stepSizeInPixels with
    | none => none
    | some (t1, wrs, inc) =>
      some { s with
        workers := s.workers.set i t1
        fb := s.fb.storeAll wrs
        g_NumFinishedWorkers := u32 (s.g_NumFinishedWorkers + inc) }

/-- Source `lbdKeyCb` (lines 441-450); the collaborator calls it on the
control thread, from inside `mfb_update` or `mfb_wait_sync`. -/
def Sys.keyStep (k : Key) (isPressed : Bool) (s : Sys) : Option Sys :=
  if s.orch = .present ∨ s.orch = .waitSync then
    if isPressed then
      if k = .space then some { s with renderPaused := !s.renderPaused }
      else if k = .escape then some { s with renderExit := true }
      else some s
    else some s
  else none

/-- One step of the process; `none` when the action is not possible in `s`. -/
def Sys.step (a : Action) (s : Sys) : Option Sys :=
  match a with
  | .worker i => s.workerStep i
  | .orch ext => s.orchStep ext
  | .key k isPressed => s.keyStep k isPressed

/-- Run a schedule: the actions are attempted in order and one that is not
possible leaves the state as it is. -/
def Sys.exec (s : Sys) : List Action → Sys
  | [] => s
  | a :: as => Sys.exec ((s.step a).getD s) as

/-- The states the process can be in: those some schedule leads to. -/
def Setup.Reachable (c : Setup) (s : Sys) : Prop := ∃ as, c.start.exec as = s

/-! ## Predicates used in the statements -/

/-- The assignment an inner loop makes for list entry `p` of channel `ch`:
`m_pFrameBuffer[p.y * m_FbStride + p.x].ch = p.c`. -/
def Worker.writeOf (w : Worker) (ch : Channel) (p : TargetPixelComponent) : Write :=
  { addr := w.addrOf p, ch := ch, val := p.c }

/-- The assignments of the `k` entries of channel `ch` from its cursor on. -/
def Worker.segment (w : Worker) (ch : Channel) (k : Nat) : List Write :=
  (((w.chList ch).drop (w.chIdx ch)).take k).map (w.writeOf ch)

/-- The shape `Init` gives a worker and `Run` keeps: a 32-bit pixel count,
four arrays of that length, cursors within them. -/
def Worker.WF (w : Worker) : Prop :=
  w.m_PixelCount < 2 ^ 32 ∧ (∀ ch, (w.chList ch).length = w.m_PixelCount) ∧
    ∀ ch, w.chIdx ch ≤ w.m_PixelCount

/-- The parts of a worker that `Run` never assigns. -/
def Worker.SameStatic (w w1 : Worker) : Prop :=
  w1.m_PixelCount = w.m_PixelCount ∧ w1.m_FbStride = w.m_FbStride ∧
    w1.m_pFrameBuffer = w.m_pFrameBuffer ∧ ∀ ch, w1.chList ch = w.chList ch

/-- The `numElems` a channel's block computes: `min(m_PixelCount - idx, pixelIterSize)`
(zero when the block is skipped). -/
def Worker.batchLen (w : Worker) (ch : Channel) (pixelIterSize : Nat) : Nat :=
  min (w.m_PixelCount - w.chIdx ch) pixelIterSize

/-- The assignments that bring channel `ch` of the `n` pixels from flat
index `base` on to the values of `mem`, in index order. -/
def targetWrites (mem : FrameBuffer) (base n : Nat) (ch : Channel) : List Write :=
  (List.range n).map fun i => { addr := base + i, ch := ch, val := (mem (base + i)).get ch }

/-- The script `0, 1, ..., 255` repeated `n` times. -/
def cycles : Nat → List Nat
  | 0 => []
  | n + 1 => List.range 256 ++ cycles n

/-- The target of the scenario: a 2 x 1 image with pixel bytes
(10, 20, 30, 40) and (1, 2, 3, 4). -/
def scenarioImage : FrameBuffer := fun p =>
  if p = 0 then { red := 10, green := 20, blue := 30, alpha := 40 }
  else if p = 1 then { red := 1, green := 2, blue := 3, alpha := 4 }
  else Pixel.zero

/-- The scripted byte stream of the scenario: every byte the worker asks
for, some after mismatching draws. -/
def scenarioScript : List Nat := [7, 1, 2, 9, 9, 3, 4, 10, 0, 20, 30, 255, 40]

/-- The scenario: batch size 1, a 2 x 1 canvas, one worker whose shuffles
reverse the arrays. -/
def scenario : Setup :=
  { image := scenarioImage
    width := 2
    height := 1
    numWorkers := 1
    stepSizeInPixels := 1
    shuffle := fun _ _ => List.reverse
    gen := fun _ => scenarioScript }

/-- The worker of the scenario as `Init` leaves it. -/
def scenarioWorker : Worker :=
  (Worker.fresh scenarioScript).Init scenarioImage 0 0 2 2 (fun _ => List.reverse)

/-- What `main` guarantees of a setup when it reaches line 404: at least
one worker, a 32-bit worker count, a canvas within the maximal render size,
and shuffles that rearrange. -/
def Setup.WF (c : Setup) : Prop :=
  1 ≤ c.numWorkers ∧ c.numWorkers < 2 ^ 32 ∧ c.width ≤ MAX_RENDER_SIZE_X ∧
    c.height ≤ MAX_RENDER_SIZE_Y ∧ ∀ i ch, IsShuffle (c.shuffle i ch)

/-- The invariant of a worker thread in `Run`. -/
def WorkerThread.Inv (t : WorkerThread) : Prop :=
  t.w.WF ∧
  (∀ ch k, t.pc = .channelBody ch k → t.w.chIdx ch + k ≤ t.w.m_PixelCount) ∧
  ((t.pc = .leaving ∨ t.pc = .finished) → ∀ ch, t.w.chIdx ch = t.w.m_PixelCount) ∧
  (t.w.m_PendingUpdates = true →
    t.pc = .awaitingTurn ∨ t.pc = .loopTest ∨ t.pc = .leaving ∨ t.pc = .finished)

/-- The parts of the state that never change after the threads are
started: the constants and, worker by worker, what `Init` set up. -/
def Sys.Static (c : Setup) (s : Sys) : Prop :=
  s.numWorkers = c.numWorkers ∧ s.stepSizeInPixels = c.stepSizeInPixels ∧
  s.workers.length = c.numWorkers ∧
  ∀ (i : Nat) (t : WorkerThread), s.workers[i]? = some t →
    ∃ w0 : Worker, c.initWorkers[i]? = some w0 ∧ w0.SameStatic t.w

/-- What the control thread knows of the flags at each position of its
barrier cycle. -/
def Sys.OrchInv (s : Sys) : Prop :=
  match s.orch with
  | .waitFlag i =>
    i < s.numWorkers ∧
      ∀ (j : Nat) (t : WorkerThread), j < i → s.workers[j]? = some t → t.w.m_PendingUpdates = true
  | .present =>
    ∀ (j : Nat) (t : WorkerThread), s.workers[j]? = some t → t.w.m_PendingUpdates = true
  | .resume i =>
    i < s.numWorkers ∧
      ∀ (j : Nat) (t : WorkerThread), i ≤ j → s.workers[j]? = some t → t.w.m_PendingUpdates = true
  | _ => True

/-- The number of worker threads whose `Run` has returned. -/
def Sys.numReturned (s : Sys) : Nat :=
  s.workers.countP fun t => decide (t.pc = .finished)

/-- The frame buffer holds the target byte wherever a worker has consumed
the list entry of that location. -/
def Sys.Converged (c : Setup) (s : Sys) : Prop :=
  ∀ (i : Nat) (t : WorkerThread), s.workers[i]? = some t → ∀ ch j p, j < t.w.chIdx ch →
    (t.w.chList ch)[j]? = some p →
    (s.fb (t.w.addrOf p)).get ch = (c.image (t.w.addrOf p)).get ch

/-- The invariant of the process: what `Init` set up is unchanged, every
thread satisfies its invariant, the control thread knows the flags it has
seen set, the counter counts the threads that have returned, and the frame
buffer holds the target byte wherever an entry has been consumed. -/
def Sys.Inv (c : Setup) (s : Sys) : Prop :=
  s.Static c ∧ (∀ (j : Nat) (t : WorkerThread), s.workers[j]? = some t → t.Inv) ∧ s.OrchInv ∧
    s.g_NumFinishedWorkers = s.numReturned ∧ s.Converged c

/-- A schedule of the scenario: the worker takes its first turn, the
control thread runs one barrier cycle, the worker takes its second turn
and returns, the control thread sees the counter. -/
def scenarioSchedule : List Action :=
  List.replicate 15 (.worker 0) ++ List.replicate 5 (.orch true) ++
    List.replicate 16 (.worker 0) ++ [.orch true]

/-- A schedule of the scenario: the worker takes its first turn and the
control thread advances to `mfb_update`. -/
def scenarioToPresent : List Action :=
  List.replicate 15 (.worker 0) ++ [.orch true, .orch true]

/-- A schedule of the scenario: the worker takes both turns and leaves its
loop, without executing `g_NumFinishedWorkers++`. -/
def scenarioToLeaving : List Action :=
  List.replicate 15 (.worker 0) ++ List.replicate 5 (.orch true) ++
    List.replicate 15 (.worker 0)

/-- A target image whose bytes are all 5. -/
def stuckImage : FrameBuffer := fun _ => { red := 5, green := 5, blue := 5, alpha := 5 }

/-- The setup of `RI image -n 4 -w 3 -h 1 -p 1`: a 3 x 1 canvas, four
workers (pixel counts 0, 0, 0 and 3), batch size 1, scripts that hit every
guess at once. -/
def stuckSetup : Setup :=
  { image := stuckImage
    width := 3
    height := 1
    numWorkers := 4
    stepSizeInPixels := 1
    shuffle := fun _ _ => id
    gen := fun _ => List.replicate 12 5 }

/-- A schedule of `stuckSetup`: workers 0, 1 and 2 take their only turn and
return, worker 3 takes its first turn, the control thread runs one full
barrier cycle, worker 3 takes its second turn, and the control thread
enters the pause phase again. -/
def stuckSchedule : List Action :=
  List.replicate 8 (.worker 0) ++ List.replicate 8 (.worker 1) ++
    List.replicate 8 (.worker 2) ++ List.replicate 15 (.worker 3) ++
    List.replicate 11 (.orch true) ++ List.replicate 15 (.worker 3) ++ [.orch true]

/-- The state `stuckSchedule` leads to. -/
def stuckState : Sys := stuckSetup.start.exec stuckSchedule

/-- The control thread waits on the flag of worker `i`, which has returned
with its flag clear, while worker `j` waits for its set flag to be cleared. -/
def Sys.Stuck (s : Sys) (i j : Nat) : Prop :=
  s.orch = .waitFlag i ∧
  (∃ t, s.workers[i]? = some t ∧ t.pc = .finished ∧ t.w.m_PendingUpdates = false) ∧
  (∃ t, s.workers[j]? = some t ∧ t.pc = .awaitingTurn ∧ t.w.m_PendingUpdates = true ∧
    t.w.m_RedChIdx < t.w.m_PixelCount)

/-- The control thread is skipping the barrier cycle: `renderPaused` is
set and the thread stands at the head of its loop, at `mfb_wait_sync`, or
has left the loop. -/
def Sys.Paused (s : Sys) : Prop :=
  s.renderPaused = true ∧ (s.orch = .loopTop ∨ s.orch = .waitSync ∨ s.orch = .exited)

/-- A schedule of the scenario: the worker takes its first turn, the
control thread runs a barrier cycle up to `mfb_wait_sync`, SPACE is
pressed there, and the next iteration of the control thread sees
`renderPaused` and skips the cycle. -/
def scenarioToPaused : List Action :=
  List.replicate 15 (.worker 0) ++ List.replicate 4 (.orch true) ++
    [.key .space true, .orch true, .orch true]

/-- The state `scenarioToPaused` leads to. -/
def scenarioPaused : Sys := scenario.start.exec scenarioToPaused

/-- A schedule: as `scenarioToPaused`, then the worker finishes the turn it
was released for (15 steps; in the scenario, where that turn is its last,
a 16th step takes it to returned), the pause still on. -/
def scenarioToParked : List Action :=
  scenarioToPaused ++ List.replicate 16 (.worker 0)

/-- A schedule that does not lift the pause. -/
def pausedSchedule : List Action :=
  [.orch true, .worker 0, .key .other true, .orch true, .worker 0]

/-! ## `Config` and `ParseCommandLine` (lines 189-308) -/

/-- Source `struct Config`. -/
structure Config where
  numThreads : Nat
  width : Nat
  height : Nat
  stepSizeInPixels : Nat
  deriving DecidableEq, Repr

/-- The default member initialisers of `Config` (`Config config = {}`). -/
def Config.default : Config :=
  { numThreads := 0, width := 1280, height := 720, stepSizeInPixels := 512 }

/-- Conversion of an `int` to `uint32_t` (the assignments `config.width = res`
and its siblings). -/
def toU32 (r : Int) : Nat := (r % 2 ^ 32).toNat

/-- The loop `for (int i = 1; i < argc; i++)` of `ParseCommandLine` on the
arguments not yet read, with the `config` it has built so far: the value
returned and the `config` left behind. `atoi` is the C library's, taken as
a parameter: the text of a value goes in, the `int` read comes out. An
option takes the next argument as its value, whatever it is (`++i`). -/
def parseArgs (atoi : String → Int) : List String → Config → Bool × Config
  | [], config => (true, config)
  | arg :: rest, config =>
    if arg = "--help" then (false, config)
    else if arg = "-n" then
      match rest with
      | [] => (false, config)
      | v :: rest1 =>
        if atoi v ≤ 0 then (false, config)
        else parseArgs atoi rest1 { config with numThreads := toU32 (atoi v) }
    else if arg = "-w" then
      match rest with
      | [] => (false, config)
      | v :: rest1 =>
        if atoi v < 0 then (false, config)
        else if atoi v > MAX_RENDER_SIZE_X then (false, config)
        else parseArgs atoi rest1 { config with width := toU32 (atoi v) }
    else if arg = "-h" then
      match rest with
      | [] => (false, config)
      | v :: rest1 =>
        if atoi v < 0 then (false, config)
        else if atoi v > MAX_RENDER_SIZE_Y then (false, config)
        else parseArgs atoi rest1 { config with height := toU32 (atoi v) }
    else if arg = "-p" then
      match rest with
      | [] => (false, config)
      | v :: rest1 =>
        if atoi v ≤ 0 then (false, config)
        else parseArgs atoi rest1 { config with stepSizeInPixels := toU32 (atoi v) }
    else parseArgs atoi rest config

/-- Source `ParseCommandLine`: `ppArgv[0]` is skipped. -/
def ParseCommandLine (atoi : String → Int) (ppArgv : List String) (config : Config) :
    Bool × Config :=
  parseArgs atoi ppArgv.tail config

/-- Source `numWorkers` (line 320); `hardwareConcurrency` is what
`std::thread::hardware_concurrency()` returns. -/
def numWorkers (hardwareConcurrency : Nat) (config : Config) : Nat :=
  if config.numThreads = 0 then hardwareConcurrency else config.numThreads

/-- An `atoi` whose results are `int`s. -/
def IntRange (atoi : String → Int) : Prop := ∀ s, -2 ^ 31 ≤ atoi s ∧ atoi s < 2 ^ 31

/-- C `isspace` in the "C" locale, on the code of a character. -/
def isSpace (c : Char) : Bool :=
  decide (c.toNat = 32) || (decide (9 ≤ c.toNat) && decide (c.toNat ≤ 13))

/-- C `isdigit`, on the code of a character. -/
def isDigit (c : Char) : Bool := decide (48 ≤ c.toNat) && decide (c.toNat ≤ 57)

/-- The decimal value of the leading digits of a text, continuing `acc`. -/
def digitsValue : List Char → Nat → Nat
  | [], acc => acc
  | c :: cs, acc => if isDigit c then digitsValue cs (10 * acc + (c.toNat - 48)) else acc

/-- Reduction of an integer to the range of `int`. -/
def wrapInt (r : Int) : Int := (r + 2 ^ 31) % 2 ^ 32 - 2 ^ 31

/-- A model of the C library's `atoi`, as the standard describes it: leading
white space is skipped, an optional sign is read, then the longest run of
digits; no digits give 0. The standard leaves a value outside `int`
undefined; here it is reduced to the range of `int`. -/
def atoiStd (s : String) : Int :=
  match s.toList.dropWhile isSpace with
  | [] => 0
  | c :: cs =>
    if c.toNat = 45 then wrapInt (-(digitsValue cs 0 : Int))
    else if c.toNat = 43 then wrapInt (digitsValue cs 0)
    else wrapInt (digitsValue (c :: cs) 0)

/-- The command line as `ParseCommandLine` reads it: each of `-n`, `-w`,
`-h`, `-p` with the argument that follows it as its value, in order; an
argument read as a value is not read as an option, and other arguments are
passed over. -/
def readOptions : List String → List (String × String)
  | [] => []
  | arg :: rest =>
    if arg = "-n" ∨ arg = "-w" ∨ arg = "-h" ∨ arg = "-p" then
      match rest with
      | [] => []
      | v :: rest1 => (arg, v) :: readOptions rest1
    else readOptions rest

/-- The value of the last occurrence of option `opt` among the options read. -/
def lastValue (opt : String) : List (String × String) → Option String
  | [] => none
  | e :: rest =>
    match lastValue opt rest with
    | some v => some v
    | none => if e.1 = opt then some e.2 else none

/-- The worker of the scenario with a script of eight full cycles. -/
def cycleWorker : Worker :=
  (Worker.fresh (cycles 8)).Init scenarioImage 0 0 2 2 (fun _ => List.reverse)

/-- The closed form `max(1, ceil(n / b))`. -/
def turnsNeeded (n b : Nat) : Nat := max 1 ((n + b - 1) / b)

/-! ## What a worker does along a schedule -/

/-- The position of a channel in the order `Run` processes the channels. -/
def Channel.rank : Channel → Nat
  | .red => 0
  | .green => 1
  | .blue => 2
  | .alpha => 3

/-- The frame-buffer assignments action `a`, attempted in state `s`, makes
as a step of worker thread `i`: those of the step when `a` is a step of
that thread and the step is possible, none otherwise. -/
def Sys.writesAt (s : Sys) (i : Nat) (a : Action) : List Write :=
  match a with
  | .worker j =>
    if j = i then
      match s.workers[i]? with
      | none => []
      | some t =>
        match t.step s.stepSizeInPixels with
        | none => []
        | some (_, wrs, _) => wrs
    else []
  | _ => []

/-- The frame-buffer assignments worker thread `i` makes along a schedule
run from state `s`, oldest first. -/
def Sys.writesBy (i : Nat) : Sys → List Action → List Write
  | _, [] => []
  | s, a :: as => s.writesAt i a ++ Sys.writesBy i ((s.step a).getD s) as

/-- Whether action `a`, attempted in state `s`, is worker thread `i`
executing `m_PendingUpdates = true` (line 176), the end of a turn: 1 if so,
0 otherwise. -/
def Sys.postsAt (s : Sys) (i : Nat) (a : Action) : Nat :=
  match a with
  | .worker j =>
    if j = i then
      match s.workers[i]? with
      | none => 0
      | some t => if t.pc = .postUpdate then 1 else 0
    else 0
  | _ => 0

/-- The number of turns worker thread `i` completes along a schedule run
from state `s`: the number of times it executes line 176. -/
def Sys.turnsDone (i : Nat) : Sys → List Action → Nat
  | _, [] => 0
  | s, a :: as => s.postsAt i a + Sys.turnsDone i ((s.step a).getD s) as

/-- The closed form of the cursors `idx` of a worker of `n` pixels that has
completed `k` turns with batch size `b`, position by position: between two
turns every cursor is `min(k * b, n)`; inside turn `k + 1` the channels
already processed stand at `min(k * b + b, n)`, the one being processed is
`left` iterations short of it, and the others still stand at
`min(k * b, n)`; a thread that is to take another turn has completed fewer
than `max(1, ceil(n / b))`, and one that has left the loop exactly as many. -/
def lockstepAt (b k n : Nat) (idx : Channel → Nat) : WorkerPc → Prop
  | .awaitingTurn => k < turnsNeeded n b ∧ ∀ ch, idx ch = min (k * b) n
  | .channelHead c =>
    k < turnsNeeded n b ∧
      ∀ ch, idx ch = if ch.rank < c.rank then min (k * b + b) n else min (k * b) n
  | .channelBody c left =>
    k < turnsNeeded n b ∧
      ∀ ch, if ch.rank < c.rank then idx ch = min (k * b + b) n
        else if ch = c then min (k * b) n ≤ idx ch ∧ idx ch + left = min (k * b + b) n
        else idx ch = min (k * b) n
  | .postUpdate => k < turnsNeeded n b ∧ ∀ ch, idx ch = min (k * b + b) n
  | .loopTest => 1 ≤ k ∧ k ≤ turnsNeeded n b ∧ ∀ ch, idx ch = min (k * b) n
  | .leaving => k = turnsNeeded n b ∧ ∀ ch, idx ch = min (k * b) n
  | .finished => k = turnsNeeded n b ∧ ∀ ch, idx ch = min (k * b) n

/-- The closed form holds of a worker thread that has completed `k` turns. -/
def WorkerThread.Lockstep (b k : Nat) (t : WorkerThread) : Prop :=
  lockstepAt b k t.w.m_PixelCount t.w.chIdx t.pc

/-- The number of entries of channel `ch` a thread of `n` pixels with
cursors `idx` can still consume before it next has to pass the wait of line
114 with its flag set: none when the flag is set; a full `numElems` for a
channel still to come in the turn; what is left of the inner loop for the
channel being processed; none for a channel already processed. -/
def budgetAt (b n : Nat) (flag : Bool) (idx : Channel → Nat) (ch : Channel) : WorkerPc → Nat
  | .awaitingTurn => if flag then 0 else min (n - idx ch) b
  | .loopTest => if flag then 0 else min (n - idx ch) b
  | .channelHead c => if ch.rank < c.rank then 0 else min (n - idx ch) b
  | .channelBody c left =>
    if ch.rank < c.rank then 0 else if ch = c then left else min (n - idx ch) b
  | .postUpdate => 0
  | .leaving => 0
  | .finished => 0

/-- The budget of a worker thread for channel `ch`. -/
def WorkerThread.budget (b : Nat) (t : WorkerThread) (ch : Channel) : Nat :=
  budgetAt b t.w.m_PixelCount t.w.m_PendingUpdates t.w.chIdx ch t.pc

/-- Every inner loop in progress has at most `pixelIterSize` iterations to go. -/
def Sys.BodyBound (s : Sys) : Prop :=
  ∀ (j : Nat) (t : WorkerThread), s.workers[j]? = some t →
    ∀ ch k, t.pc = .channelBody ch k → k ≤ s.stepSizeInPixels

/-- A setup with three turns: batch size 1, a 3 x 1 canvas (pixels
(10,20,30,40), (1,2,3,4) and (0,0,0,0)), one worker whose shuffles leave
the arrays in order, and a script that hits every guess at once. -/
def parkSetup : Setup :=
  { image := scenarioImage
    width := 3
    height := 1
    numWorkers := 1
    stepSizeInPixels := 1
    shuffle := fun _ _ => id
    gen := fun _ => [10, 20, 30, 40, 1, 2, 3, 4, 0, 0, 0, 0] }

/-- The state of `parkSetup` after `scenarioToPaused`: the worker has taken
its first turn and been released by the resume phase, SPACE has been
pressed, and the control thread has seen `renderPaused` and skipped the
cycle. -/
def parkObserved : Sys := parkSetup.start.exec scenarioToPaused

/-- The state of `parkSetup` after `scenarioToParked`: as `parkObserved`,
then the worker has taken its second turn and waits in `AwaitingTurn`, its
flag set, with a pixel left. -/
def parkParked : Sys := parkSetup.start.exec scenarioToParked

/-- The turn of a released worker of `parkSetup`, then `pausedSchedule`. -/
def releasedSchedule : List Action := List.replicate 15 (.worker 0) ++ pausedSchedule

/-- The scenario with a batch size of 0. -/
def zeroStepSetup : Setup := { scenario with stepSizeInPixels := 0 }

/-- A schedule of `zeroStepSetup`: the worker takes a turn, the control
thread runs one barrier cycle, the worker takes another turn. -/
def zeroStepSchedule : List Action :=
  List.replicate 11 (.worker 0) ++ List.replicate 5 (.orch true) ++
    List.replicate 11 (.worker 0)

/-! ### Closed form of the partition -/

theorem canvas_lt (W H : Nat) (hW : W ≤ 4096) (hH : H ≤ 4096) : W * H < 2 ^ 32 := by
  have : W * H ≤ 4096 * 4096 := Nat.mul_le_mul hW hH
  omega

theorem u32_of_lt {n : Nat} (h : n < 2 ^ 32) : u32 n = n := Nat.mod_eq_of_lt h

theorem partitionLoop_length (W H N : Nat) :
    ∀ k i off, (partitionLoop W H N k i off).length = k := by
  intro k
  induction k with
  | zero => intro i off; rfl
  | succ k ih => intro i off; simp [partitionLoop, ih]

theorem partitionLoop_at (W H N : Nat) (hN : 1 ≤ N) (hlt : W * H < 2 ^ 32) :
    ∀ k i, i + k ≤ N → ∀ j, j < k →
      (partitionLoop W H N k i (i * (W * H / N)))[j]? =
        some ((i + j) * (W * H / N),
          if i + j = N - 1 then W * H / N + W * H % N else W * H / N) := by
  intro k
  induction k with
  | zero => intro i _ j hj; omega
  | succ k ih =>
    intro i hik j hj
    have hq : perThreadPixelCount W H N = W * H / N := by
      simp [perThreadPixelCount, u32_of_lt hlt]
    have hdm : N * (W * H / N) + W * H % N = W * H := Nat.div_add_mod (W * H) N
    have hiq : i * (W * H / N) + (W * H / N) ≤ N * (W * H / N) := by
      have : (i + 1) * (W * H / N) ≤ N * (W * H / N) := Nat.mul_le_mul_right _ (by omega)
      rw [Nat.add_mul, Nat.one_mul] at this
      exact this
    have hc : maxPerThreadPixelCount W H N i =
        if i = N - 1 then W * H / N + W * H % N else W * H / N := by
      unfold maxPerThreadPixelCount
      rw [hq, u32_of_lt hlt]
      split
      · apply u32_of_lt; omega
      · rfl
    cases j with
    | zero => simp [partitionLoop, hc]
    | succ j =>
      have hi : i ≠ N - 1 := by omega
      have hnext : u32 (i * (W * H / N) + maxPerThreadPixelCount W H N i) =
          (i + 1) * (W * H / N) := by
        rw [hc, if_neg hi, Nat.add_mul, Nat.one_mul]
        apply u32_of_lt; omega
      simp only [partitionLoop, List.getElem?_cons_succ, hnext]
      rw [ih (i + 1) (by omega) j (by omega)]
      have : i + 1 + j = i + (j + 1) := by omega
      rw [this]

/-- Closed form: worker `i` starts at `i * q` and owns `q` pixels, the last
one `q + r`, where `q = W*H / N` and `r = W*H % N`. -/
theorem partition_at (W H N : Nat) (hN : 1 ≤ N) (hW : W ≤ 4096) (hH : H ≤ 4096)
    (i : Nat) (hi : i < N) :
    (partition W H N)[i]? =
      some (i * (W * H / N), if i = N - 1 then W * H / N + W * H % N else W * H / N) := by
  have h := partitionLoop_at W H N hN (canvas_lt W H hW hH) N 0 (by omega) i hi
  simpa [partition] using h

theorem partition_length (W H N : Nat) : (partition W H N).length = N :=
  partitionLoop_length W H N N 0 0

theorem partition_entry (W H N : Nat) (hN : 1 ≤ N) (hW : W ≤ 4096) (hH : H ≤ 4096)
    (i o c : Nat) (h : (partition W H N)[i]? = some (o, c)) :
    i < N ∧ o = i * (W * H / N) ∧
      c = if i = N - 1 then W * H / N + W * H % N else W * H / N := by
  have hi : i < N := by
    by_contra hge
    have : (partition W H N)[i]? = none := by
      apply List.getElem?_eq_none
      rw [partition_length]; omega
    rw [this] at h; cases h
  rw [partition_at W H N hN hW hH i hi] at h
  simp only [Option.some.injEq, Prod.mk.injEq] at h
  exact ⟨hi, h.1.symm, h.2.symm⟩

theorem partition_eq_map (W H N : Nat) (hN : 1 ≤ N) (hW : W ≤ 4096) (hH : H ≤ 4096) :
    partition W H N = (List.range N).map fun i =>
      (i * (W * H / N), if i = N - 1 then W * H / N + W * H % N else W * H / N) := by
  apply List.ext_getElem?
  intro i
  by_cases hi : i < N
  · rw [partition_at W H N hN hW hH i hi]
    simp [List.getElem?_map, List.getElem?_range hi]
  · rw [List.getElem?_eq_none (by rw [partition_length]; omega)]
    rw [List.getElem?_eq_none (by simp; omega)]

theorem partition_sum (W H N : Nat) (hN : 1 ≤ N) (hW : W ≤ 4096) (hH : H ≤ 4096) :
    ((partition W H N).map Prod.snd).sum = W * H := by
  rw [partition_eq_map W H N hN hW hH, List.map_map]
  obtain ⟨M, rfl⟩ : ∃ M, N = M + 1 := ⟨N - 1, by omega⟩
  rw [List.range_succ, List.map_append, List.sum_append]
  have h1 : (List.range M).map (Prod.snd ∘ fun i =>
      (i * (W * H / (M + 1)),
        if i = M + 1 - 1 then W * H / (M + 1) + W * H % (M + 1) else W * H / (M + 1))) =
      (List.range M).map fun _ => W * H / (M + 1) := by
    apply List.map_congr_left
    intro i hi
    have : i ≠ M := by
      have := List.mem_range.mp hi
      omega
    simp [this]
  rw [h1]
  have hdm : (M + 1) * (W * H / (M + 1)) + W * H % (M + 1) = W * H := Nat.div_add_mod _ _
  simp only [List.map_const', List.length_range, List.sum_replicate, smul_eq_mul,
    List.map_cons, List.map_nil, List.sum_cons, List.sum_nil, Function.comp,
    Nat.add_sub_cancel, if_true, Nat.add_zero]
  rw [Nat.add_mul, Nat.one_mul] at hdm
  omega

theorem partition_disjoint_lt (W H N : Nat) (hN : 1 ≤ N) (hW : W ≤ 4096) (hH : H ≤ 4096)
    (i j oi ci oj cj p : Nat) (hij : i < j)
    (hi : (partition W H N)[i]? = some (oi, ci)) (hj : (partition W H N)[j]? = some (oj, cj))
    (h2 : p < oi + ci) (h3 : oj ≤ p) : False := by
  obtain ⟨_, hoi, hci⟩ := partition_entry W H N hN hW hH i oi ci hi
  obtain ⟨hjN, hoj, _⟩ := partition_entry W H N hN hW hH j oj cj hj
  have hne : i ≠ N - 1 := by omega
  rw [if_neg hne] at hci
  have : (i + 1) * (W * H / N) ≤ j * (W * H / N) := Nat.mul_le_mul_right _ (by omega)
  rw [Nat.add_mul, Nat.one_mul] at this
  omega

theorem partition_within (W H N : Nat) (hN : 1 ≤ N) (hW : W ≤ 4096) (hH : H ≤ 4096)
    (i o c : Nat) (h : (partition W H N)[i]? = some (o, c)) : o + c ≤ W * H := by
  obtain ⟨hi, ho, hc⟩ := partition_entry W H N hN hW hH i o c h
  have hdm : N * (W * H / N) + W * H % N = W * H := Nat.div_add_mod _ _
  by_cases hl : i = N - 1
  · rw [if_pos hl] at hc
    have : (i + 1) * (W * H / N) = N * (W * H / N) := by
      have : i + 1 = N := by omega
      rw [this]
    rw [Nat.add_mul, Nat.one_mul] at this
    omega
  · rw [if_neg hl] at hc
    have : (i + 1) * (W * H / N) ≤ N * (W * H / N) := Nat.mul_le_mul_right _ (by omega)
    rw [Nat.add_mul, Nat.one_mul] at this
    omega

theorem partition_owner (W H N : Nat) (hN : 1 ≤ N) (hW : W ≤ 4096) (hH : H ≤ 4096)
    (p : Nat) (hp : p < W * H) :
    ∃ i o c : Nat, (partition W H N)[i]? = some (o, c) ∧ o ≤ p ∧ p < o + c := by
  have hdm : N * (W * H / N) + W * H % N = W * H := Nat.div_add_mod _ _
  by_cases hlast : (N - 1) * (W * H / N) ≤ p
  · refine ⟨N - 1, _, _, partition_at W H N hN hW hH (N - 1) (by omega), hlast, ?_⟩
    rw [if_pos rfl]
    have : (N - 1 + 1) * (W * H / N) = N * (W * H / N) := by
      have : N - 1 + 1 = N := by omega
      rw [this]
    rw [Nat.add_mul, Nat.one_mul] at this
    omega
  · have hlt : p < (N - 1) * (W * H / N) := by omega
    have hq : 0 < W * H / N := by
      rcases Nat.eq_zero_or_pos (W * H / N) with h0 | h0
      · rw [h0] at hlt; simp at hlt
      · exact h0
    have hi : p / (W * H / N) < N - 1 := (Nat.div_lt_iff_lt_mul hq).mpr hlt
    refine ⟨p / (W * H / N), _, _,
      partition_at W H N hN hW hH _ (by omega), ?_, ?_⟩
    · exact Nat.div_mul_le_self p _
    · rw [if_neg (by omega)]
      have := Nat.lt_div_mul_add hq (a := p)
      omega

/-- C1: for every worker count `N >= 1` and every canvas `W x H` with
`W, H <= 4096`, the ranges `[offset_i, offset_i + count_i)` handed to the
`N` `Init` calls of the partition loop start at `offset_0 = 0`, chain as
`offset_(i+1) = offset_i + count_i`, have counts summing to `W * H`, are
pairwise disjoint, and their union is exactly `[0, W * H)`. -/
theorem partition_exact_cover (W H N : Nat) (hN : 1 ≤ N) (hW : W ≤ 4096) (hH : H ≤ 4096) :
    (partition W H N).length = N ∧
    ((partition W H N).map Prod.snd).sum = W * H ∧
    (∀ o c : Nat, (partition W H N)[0]? = some (o, c) → o = 0) ∧
    (∀ i o c o1 c1 : Nat, (partition W H N)[i]? = some (o, c) →
      (partition W H N)[i + 1]? = some (o1, c1) → o1 = o + c) ∧
    (∀ i j oi ci oj cj p : Nat, (partition W H N)[i]? = some (oi, ci) →
      (partition W H N)[j]? = some (oj, cj) →
      oi ≤ p → p < oi + ci → oj ≤ p → p < oj + cj → i = j) ∧
    (∀ p, p < W * H ↔ ∃ i o c : Nat, (partition W H N)[i]? = some (o, c) ∧ o ≤ p ∧ p < o + c) := by
  refine ⟨partition_length W H N, partition_sum W H N hN hW hH, ?_, ?_, ?_, ?_⟩
  · intro o c h
    have := (partition_entry W H N hN hW hH 0 o c h).2.1
    simpa using this
  · intro i o c o1 c1 h h1
    obtain ⟨_, ho, hc⟩ := partition_entry W H N hN hW hH i o c h
    obtain ⟨hi1, ho1, _⟩ := partition_entry W H N hN hW hH (i + 1) o1 c1 h1
    rw [if_neg (by omega)] at hc
    rw [ho1, ho, hc, Nat.add_mul, Nat.one_mul]
  · intro i j oi ci oj cj p hi hj h1 h2 h3 h4
    rcases Nat.lt_trichotomy i j with hlt | heq | hgt
    · exact (partition_disjoint_lt W H N hN hW hH i j oi ci oj cj p hlt hi hj h2 h3).elim
    · exact heq
    · exact (partition_disjoint_lt W H N hN hW hH j i oj cj oi ci p hgt hj hi h4 h1).elim
  · intro p
    constructor
    · exact partition_owner W H N hN hW hH p
    · rintro ⟨i, o, c, h, _, hlt⟩
      have := partition_within W H N hN hW hH i o c h
      omega

/-- The partition of a 5 x 1 canvas among two workers. -/
theorem partition_exact_cover_witness :
    (partition 5 1 2).length = 2 ∧
    ((partition 5 1 2).map Prod.snd).sum = 5 * 1 ∧
    (∀ o c : Nat, (partition 5 1 2)[0]? = some (o, c) → o = 0) ∧
    (∀ i o c o1 c1 : Nat, (partition 5 1 2)[i]? = some (o, c) →
      (partition 5 1 2)[i + 1]? = some (o1, c1) → o1 = o + c) ∧
    (∀ i j oi ci oj cj p : Nat, (partition 5 1 2)[i]? = some (oi, ci) →
      (partition 5 1 2)[j]? = some (oj, cj) →
      oi ≤ p → p < oi + ci → oj ≤ p → p < oj + cj → i = j) ∧
    (∀ p, p < 5 * 1 ↔ ∃ i o c : Nat, (partition 5 1 2)[i]? = some (o, c) ∧ o ≤ p ∧ p < o + c) :=
  partition_exact_cover 5 1 2 (by decide) (by decide) (by decide)

/-! ### The guesser -/

theorem lbdRandomGuesser_some (v : Byte) (gen rest : List Nat)
    (h : lbdRandomGuesser v gen = some rest) :
    ∃ pre, gen = pre ++ v.val :: rest ∧ v.val ∉ pre := by
  induction gen with
  | nil => simp [lbdRandomGuesser] at h
  | cons d gen ih =>
    by_cases hd : d = v.val
    · simp [lbdRandomGuesser, hd] at h
      exact ⟨[], by simp [hd, h], by simp⟩
    · simp [lbdRandomGuesser, hd] at h
      obtain ⟨pre, hgen, hpre⟩ := ih h
      refine ⟨d :: pre, by simp [hgen], ?_⟩
      simp only [List.mem_cons, not_or]
      exact ⟨fun h => hd h.symm, hpre⟩

/-! ### Accessors of a worker -/

theorem chIdx_setChIdx (w : Worker) (ch ch1 : Channel) (v : Nat) (gen : List Nat) :
    ({ w.setChIdx ch v with gen := gen } : Worker).chIdx ch1 =
      if ch1 = ch then v else w.chIdx ch1 := by
  cases ch <;> cases ch1 <;> simp [Worker.chIdx, Worker.setChIdx]

theorem chList_setChIdx (w : Worker) (ch ch1 : Channel) (v : Nat) (gen : List Nat) :
    ({ w.setChIdx ch v with gen := gen } : Worker).chList ch1 = w.chList ch1 := by
  cases ch <;> cases ch1 <;> simp [Worker.chList, Worker.setChIdx]

theorem static_setChIdx (w : Worker) (ch : Channel) (v : Nat) (gen : List Nat) :
    ({ w.setChIdx ch v with gen := gen } : Worker).m_PixelCount = w.m_PixelCount ∧
    ({ w.setChIdx ch v with gen := gen } : Worker).m_FbStride = w.m_FbStride ∧
    ({ w.setChIdx ch v with gen := gen } : Worker).m_pFrameBuffer = w.m_pFrameBuffer ∧
    ({ w.setChIdx ch v with gen := gen } : Worker).m_PendingUpdates = w.m_PendingUpdates := by
  cases ch <;> simp [Worker.setChIdx]

/-- What one iteration of an inner loop does, when it has a result. -/
theorem pixelIter_spec {ch : Channel} {w w1 : Worker} {wr : Write}
    (h : w.pixelIter ch = some (w1, wr)) :
    ∃ p gen1, (w.chList ch)[w.chIdx ch]? = some p ∧ lbdRandomGuesser p.c w.gen = some gen1 ∧
      w1 = { w.setChIdx ch (u32 (w.chIdx ch + 1)) with gen := gen1 } ∧
      wr = { addr := w.addrOf p, ch := ch, val := p.c } := by
  unfold Worker.pixelIter at h
  split at h
  · cases h
  · rename_i p hp
    split at h
    · cases h
    · rename_i gen1 hg
      simp only [Option.some.injEq, Prod.mk.injEq] at h
      exact ⟨p, gen1, hp, hg, h.1.symm, h.2.symm⟩

/-! ### The inner loops -/

theorem Worker.SameStatic.refl (w : Worker) : w.SameStatic w := ⟨rfl, rfl, rfl, fun _ => rfl⟩

theorem Worker.SameStatic.trans {w w1 w2 : Worker} (h1 : w.SameStatic w1) (h2 : w1.SameStatic w2) :
    w.SameStatic w2 :=
  ⟨h2.1.trans h1.1, h2.2.1.trans h1.2.1, h2.2.2.1.trans h1.2.2.1,
    fun ch => (h2.2.2.2 ch).trans (h1.2.2.2 ch)⟩

theorem Worker.SameStatic.writeOf {w w1 : Worker} (h : w.SameStatic w1) (ch : Channel)
    (p : TargetPixelComponent) : w1.writeOf ch p = w.writeOf ch p := by
  simp [Worker.writeOf, Worker.addrOf, h.2.1, h.2.2.1]

theorem Worker.SameStatic.segment {w w1 : Worker} (h : w.SameStatic w1) (ch : Channel) (k : Nat)
    (hidx : w1.chIdx ch = w.chIdx ch) : w1.segment ch k = w.segment ch k := by
  unfold Worker.segment
  rw [h.2.2.2 ch, hidx]
  apply List.map_congr_left
  intro p _
  exact h.writeOf ch p

theorem pixelIter_props {ch : Channel} {w w1 : Worker} {wr : Write}
    (h : w.pixelIter ch = some (w1, wr)) :
    w1.chIdx ch = u32 (w.chIdx ch + 1) ∧ (∀ ch1, ch1 ≠ ch → w1.chIdx ch1 = w.chIdx ch1) ∧
      w.SameStatic w1 ∧ w1.m_PendingUpdates = w.m_PendingUpdates ∧
      ∃ p, (w.chList ch)[w.chIdx ch]? = some p ∧ wr = w.writeOf ch p ∧
        lbdRandomGuesser p.c w.gen = some w1.gen := by
  obtain ⟨p, gen1, hp, hg, rfl, rfl⟩ := pixelIter_spec h
  have hs := static_setChIdx w ch (u32 (w.chIdx ch + 1)) gen1
  refine ⟨by simp [chIdx_setChIdx], ?_, ⟨hs.1, hs.2.1, hs.2.2.1, ?_⟩, hs.2.2.2, p, hp, rfl, ?_⟩
  · intro ch1 h1
    simp [chIdx_setChIdx, h1]
  · intro ch1
    exact chList_setChIdx w ch ch1 _ gen1
  · cases ch <;> simpa [Worker.setChIdx] using hg

/-- C8: for every target byte `v` and every script of draws that contains
`v`, the guesser returns, and what it has consumed is exactly the draws up
to and including the first one equal to `v`: the script splits as
`pre ++ v :: post` with no `v` in `pre`, and `post` is what is left.
Conversely a call that returns has consumed exactly such a part of the
script. The guesser acts on the engine only: in the loop iteration that
calls it, the engine afterwards is what the guesser left, and the one
assignment to the frame buffer is the caller's, of the byte of the list
entry at the address of the list entry. -/
theorem lbdRandomGuesser_first_match (v : Byte) (gen : List Nat) (h : v.val ∈ gen) :
    (∃ pre post, gen = pre ++ v.val :: post ∧ v.val ∉ pre ∧
      lbdRandomGuesser v gen = some post) ∧
    (∀ rest, lbdRandomGuesser v gen = some rest →
      ∃ pre, gen = pre ++ v.val :: rest ∧ v.val ∉ pre) ∧
    (∀ (ch : Channel) (w w1 : Worker) (wr : Write), w.pixelIter ch = some (w1, wr) →
      ∃ p, (w.chList ch)[w.chIdx ch]? = some p ∧
        lbdRandomGuesser p.c w.gen = some w1.gen ∧ wr = w.writeOf ch p) := by
  refine ⟨?_, fun rest hrest => lbdRandomGuesser_some v gen rest hrest, ?_⟩
  · induction gen with
    | nil => simp at h
    | cons d gen ih =>
      by_cases hd : d = v.val
      · exact ⟨[], gen, by simp [hd], by simp, by simp [lbdRandomGuesser, hd]⟩
      · have hmem : v.val ∈ gen := by
          rcases List.mem_cons.mp h with h1 | h1
          · exact absurd h1.symm hd
          · exact h1
        obtain ⟨pre, post, hgen, hpre, hres⟩ := ih hmem
        refine ⟨d :: pre, post, by simp [hgen], ?_, by simp [lbdRandomGuesser, hd, hres]⟩
        simp only [List.mem_cons, not_or]
        exact ⟨fun h => hd h.symm, hpre⟩
  · intro ch w w1 wr hpi
    obtain ⟨_, _, _, _, p, hp, hwr, hg⟩ := pixelIter_props hpi
    exact ⟨p, hp, hg, hwr⟩

/-- The guess of byte 7 on the script 3, 7, 9, 7. -/
theorem lbdRandomGuesser_first_match_witness :
    (∃ pre post, [3, 7, 9, 7] = pre ++ (7 : Byte).val :: post ∧ (7 : Byte).val ∉ pre ∧
      lbdRandomGuesser 7 [3, 7, 9, 7] = some post) ∧
    (∀ rest, lbdRandomGuesser 7 [3, 7, 9, 7] = some rest →
      ∃ pre, [3, 7, 9, 7] = pre ++ (7 : Byte).val :: rest ∧ (7 : Byte).val ∉ pre) ∧
    (∀ (ch : Channel) (w w1 : Worker) (wr : Write), w.pixelIter ch = some (w1, wr) →
      ∃ p, (w.chList ch)[w.chIdx ch]? = some p ∧
        lbdRandomGuesser p.c w.gen = some w1.gen ∧ wr = w.writeOf ch p) :=
  lbdRandomGuesser_first_match 7 [3, 7, 9, 7] (by decide)

theorem Worker.WF.of_static {w w1 : Worker} (hw : w.WF) (hs : w.SameStatic w1)
    (hidx : ∀ ch, w1.chIdx ch ≤ w.m_PixelCount) : w1.WF := by
  refine ⟨by rw [hs.1]; exact hw.1, fun ch => by rw [hs.2.2.2 ch, hs.1]; exact hw.2.1 ch, ?_⟩
  intro ch
  rw [hs.1]
  exact hidx ch

/-- The inner loop of a channel with `k` iterations, started with at least
`k` entries left: the cursor advances by `k`, nothing else of the worker
changes but the engine, and the assignments are those of the `k` entries
from the cursor on, in list order. -/
theorem channelLoop_spec (ch : Channel) :
    ∀ (k : Nat) (w w1 : Worker) (wrs : List Write), w.WF →
      w.chIdx ch + k ≤ w.m_PixelCount → Worker.channelLoop ch k w = some (w1, wrs) →
      w1.chIdx ch = w.chIdx ch + k ∧ (∀ ch1, ch1 ≠ ch → w1.chIdx ch1 = w.chIdx ch1) ∧
        w.SameStatic w1 ∧ w1.m_PendingUpdates = w.m_PendingUpdates ∧
        wrs = w.segment ch k := by
  intro k
  induction k with
  | zero =>
    intro w w1 wrs _ _ h
    simp only [Worker.channelLoop, Option.some.injEq, Prod.mk.injEq] at h
    obtain ⟨rfl, rfl⟩ := h
    exact ⟨rfl, fun _ _ => rfl, Worker.SameStatic.refl _, rfl, by simp [Worker.segment]⟩
  | succ k ih =>
    intro w w1 wrs hw hk h
    unfold Worker.channelLoop at h
    split at h
    · cases h
    · rename_i wa wr hpi
      split at h
      · cases h
      · rename_i wb wrsb hloop
        simp only [Option.some.injEq, Prod.mk.injEq] at h
        obtain ⟨rfl, rfl⟩ := h
        obtain ⟨hi, ho, hs, hf, p, hp, hwr, _⟩ := pixelIter_props hpi
        have hlt : w.chIdx ch + 1 < 2 ^ 32 := by have := hw.1; omega
        rw [u32_of_lt hlt] at hi
        have hwa : wa.WF := by
          apply Worker.WF.of_static hw hs
          intro ch1
          by_cases h1 : ch1 = ch
          · rw [h1, hi]; omega
          · rw [ho ch1 h1]; exact hw.2.2 ch1
        obtain ⟨hi2, ho2, hs2, hf2, hwrs⟩ :=
          ih wa wb wrsb hwa (by rw [hi, hs.1]; omega) hloop
        refine ⟨by rw [hi2, hi]; omega, fun ch1 h1 => by rw [ho2 ch1 h1, ho ch1 h1],
          hs.trans hs2, hf2.trans hf, ?_⟩
        rw [hwrs, hwr]
        have hlen : w.chIdx ch < (w.chList ch).length := by rw [hw.2.1 ch]; omega
        have hpe : (w.chList ch)[w.chIdx ch] = p := by
          rw [List.getElem?_eq_getElem hlen] at hp
          exact Option.some.inj hp
        unfold Worker.segment
        rw [hs.2.2.2 ch, hi, List.drop_eq_getElem_cons hlen, List.take_succ_cons, List.map_cons,
          hpe]
        congr 1
        apply List.map_congr_left
        intro q _
        exact hs.writeOf ch q

theorem channelBatch_spec (ch : Channel) (b : Nat) (w w1 : Worker) (wrs : List Write)
    (hw : w.WF) (h : w.channelBatch ch b = some (w1, wrs)) :
    w1.chIdx ch = w.chIdx ch + w.batchLen ch b ∧
      (∀ ch1, ch1 ≠ ch → w1.chIdx ch1 = w.chIdx ch1) ∧
      w.SameStatic w1 ∧ w1.m_PendingUpdates = w.m_PendingUpdates ∧
      wrs = w.segment ch (w.batchLen ch b) ∧ w1.WF := by
  unfold Worker.channelBatch at h
  split at h
  · rename_i hlt
    have hk : w.chIdx ch + min (w.m_PixelCount - w.chIdx ch) b ≤ w.m_PixelCount := by omega
    obtain ⟨hi, ho, hs, hf, hwrs⟩ := channelLoop_spec ch _ w w1 wrs hw hk h
    refine ⟨hi, ho, hs, hf, hwrs, ?_⟩
    apply Worker.WF.of_static hw hs
    intro ch1
    by_cases h1 : ch1 = ch
    · rw [h1, hi]; exact hk
    · rw [ho ch1 h1]; exact hw.2.2 ch1
  · rename_i hge
    simp only [Option.some.injEq, Prod.mk.injEq] at h
    obtain ⟨rfl, rfl⟩ := h
    have h0 : w.batchLen ch b = 0 := by
      unfold Worker.batchLen
      omega
    refine ⟨by rw [h0]; rfl, fun _ _ => rfl, Worker.SameStatic.refl _, rfl, ?_, hw⟩
    rw [h0]
    simp [Worker.segment]

theorem chIdx_setFlag (w : Worker) (f : Bool) (ch : Channel) :
    ({ w with m_PendingUpdates := f } : Worker).chIdx ch = w.chIdx ch := by
  cases ch <;> rfl

theorem chList_setFlag (w : Worker) (f : Bool) (ch : Channel) :
    ({ w with m_PendingUpdates := f } : Worker).chList ch = w.chList ch := by
  cases ch <;> rfl

theorem static_setFlag (w : Worker) (f : Bool) :
    w.SameStatic { w with m_PendingUpdates := f } :=
  ⟨rfl, rfl, rfl, fun ch => chList_setFlag w f ch⟩

theorem WF_setFlag (w : Worker) (f : Bool) (hw : w.WF) :
    ({ w with m_PendingUpdates := f } : Worker).WF :=
  Worker.WF.of_static hw (static_setFlag w f) (fun ch => by rw [chIdx_setFlag]; exact hw.2.2 ch)

theorem batchLen_congr {w w1 : Worker} (hs : w.SameStatic w1) (ch : Channel) (b : Nat)
    (hidx : w1.chIdx ch = w.chIdx ch) : w1.batchLen ch b = w.batchLen ch b := by
  simp [Worker.batchLen, hs.1, hidx]

/-- One turn that returns: every cursor has advanced by its `numElems`, the
flag is set, nothing else changed but the engine, and the assignments are
the red batch, then the green, the blue and the alpha one. -/
theorem turn_spec (b : Nat) (w w1 : Worker) (wrs : List Write) (hw : w.WF)
    (h : w.turn b = some (w1, wrs)) :
    (∀ ch, w1.chIdx ch = w.chIdx ch + w.batchLen ch b) ∧ w.SameStatic w1 ∧
      w1.m_PendingUpdates = true ∧
      wrs = w.segment .red (w.batchLen .red b) ++ w.segment .green (w.batchLen .green b) ++
        w.segment .blue (w.batchLen .blue b) ++ w.segment .alpha (w.batchLen .alpha b) ∧
      w1.WF := by
  unfold Worker.turn at h
  split at h
  · cases h
  · rename_i wr r hr
    split at h
    · cases h
    · rename_i wg g hg
      split at h
      · cases h
      · rename_i wb bl hb
        split at h
        · cases h
        · rename_i wa a ha
          simp only [Option.some.injEq, Prod.mk.injEq] at h
          obtain ⟨rfl, rfl⟩ := h
          obtain ⟨ri, ro, rs, _, rw_, rwf⟩ := channelBatch_spec .red b w wr r hw hr
          obtain ⟨gi, go, gs, _, gw_, gwf⟩ := channelBatch_spec .green b wr wg g rwf hg
          obtain ⟨bi, bo, bs, _, bw_, bwf⟩ := channelBatch_spec .blue b wg wb bl gwf hb
          obtain ⟨ai, ao, as_, _, aw_, awf⟩ := channelBatch_spec .alpha b wb wa a bwf ha
          have hsg : w.SameStatic wg := rs.trans gs
          have hsb : w.SameStatic wb := hsg.trans bs
          have hsa : w.SameStatic wa := hsb.trans as_
          have g0 : wr.chIdx .green = w.chIdx .green := ro _ (by decide)
          have b0 : wg.chIdx .blue = w.chIdx .blue := by
            rw [go _ (by decide), ro _ (by decide)]
          have a0 : wb.chIdx .alpha = w.chIdx .alpha := by
            rw [bo _ (by decide), go _ (by decide), ro _ (by decide)]
          have gl : wr.batchLen .green b = w.batchLen .green b := batchLen_congr rs _ b g0
          have bl_ : wg.batchLen .blue b = w.batchLen .blue b := batchLen_congr hsg _ b b0
          have al : wb.batchLen .alpha b = w.batchLen .alpha b := batchLen_congr hsb _ b a0
          refine ⟨?_, hsa.trans (static_setFlag wa true), rfl, ?_, WF_setFlag wa true awf⟩
          · intro ch
            rw [chIdx_setFlag]
            cases ch
            · rw [ao _ (by decide), bo _ (by decide), go _ (by decide), ri]
            · rw [ao _ (by decide), bo _ (by decide), gi, gl, g0]
            · rw [ao _ (by decide), bi, bl_, b0]
            · rw [ai, al, a0]
          · rw [rw_, gw_, bw_, aw_, gl, bl_, al, rs.segment _ _ g0, hsg.segment _ _ b0,
              hsb.segment _ _ a0]

/-! ### Scripts that feed the guesses -/

theorem Feeds.mono : ∀ (m n : Nat) (gen : List Nat), m ≤ n → Feeds n gen → Feeds m gen := by
  intro m
  induction m with
  | zero => intro _ _ _ _; trivial
  | succ m ih =>
    intro n gen hmn h
    obtain ⟨n1, rfl⟩ : ∃ n1, n = n1 + 1 := ⟨n - 1, by omega⟩
    intro v
    obtain ⟨rest, hg, hf⟩ := h v
    exact ⟨rest, hg, ih n1 rest (by omega) hf⟩

theorem channelLoop_total (ch : Channel) :
    ∀ (k : Nat) (w : Worker) (n : Nat), w.WF → w.chIdx ch + k ≤ w.m_PixelCount →
      Feeds (k + n) w.gen →
      ∃ w1 wrs, Worker.channelLoop ch k w = some (w1, wrs) ∧ Feeds n w1.gen := by
  intro k
  induction k with
  | zero =>
    intro w n _ _ hf
    exact ⟨w, [], rfl, by simpa using hf⟩
  | succ k ih =>
    intro w n hw hk hf
    have hlen : w.chIdx ch < (w.chList ch).length := by rw [hw.2.1 ch]; omega
    have hp := List.getElem?_eq_getElem hlen
    have hf1 : Feeds ((k + n) + 1) w.gen := by
      have : k + 1 + n = (k + n) + 1 := by omega
      rw [this] at hf
      exact hf
    obtain ⟨rest, hg, hrest⟩ := hf1 ((w.chList ch)[w.chIdx ch]).c
    obtain ⟨wa, wr, hpi, hgen⟩ : ∃ wa wr, w.pixelIter ch = some (wa, wr) ∧ wa.gen = rest :=
      ⟨{ w.setChIdx ch (u32 (w.chIdx ch + 1)) with gen := rest },
        { addr := w.addrOf (w.chList ch)[w.chIdx ch], ch := ch,
          val := ((w.chList ch)[w.chIdx ch]).c },
        by simp [Worker.pixelIter, hp, hg], by cases ch <;> rfl⟩
    obtain ⟨hi, ho, hs, _, _⟩ := pixelIter_props hpi
    have hlt : w.chIdx ch + 1 < 2 ^ 32 := by have := hw.1; omega
    rw [u32_of_lt hlt] at hi
    have hwa : wa.WF := by
      apply Worker.WF.of_static hw hs
      intro ch1
      by_cases h1 : ch1 = ch
      · rw [h1, hi]; omega
      · rw [ho ch1 h1]; exact hw.2.2 ch1
    obtain ⟨w2, wrs, hloop, hf2⟩ := ih wa n hwa (by rw [hi, hs.1]; omega) (by rw [hgen]; exact hrest)
    refine ⟨w2, wr :: wrs, ?_, hf2⟩
    simp [Worker.channelLoop, hpi, hloop]

theorem channelBatch_total (ch : Channel) (b n : Nat) (w : Worker) (hw : w.WF)
    (hf : Feeds (w.batchLen ch b + n) w.gen) :
    ∃ w1 wrs, w.channelBatch ch b = some (w1, wrs) ∧ Feeds n w1.gen := by
  unfold Worker.channelBatch
  split
  · exact channelLoop_total ch _ w n hw (by omega) hf
  · exact ⟨w, [], rfl, Feeds.mono _ _ _ (by omega) hf⟩

theorem Feeds.cast {m n : Nat} {gen : List Nat} (h : m = n) (hf : Feeds n gen) : Feeds m gen := by
  subst h
  exact hf

/-- A turn returns when the script feeds the guesses of its four batches. -/
theorem turn_total (b n : Nat) (w : Worker) (hw : w.WF)
    (hf : Feeds (w.batchLen .red b + w.batchLen .green b + w.batchLen .blue b +
      w.batchLen .alpha b + n) w.gen) :
    ∃ w1 wrs, w.turn b = some (w1, wrs) ∧ Feeds n w1.gen := by
  obtain ⟨wr, r, hr, fr⟩ := channelBatch_total .red b
    (w.batchLen .green b + w.batchLen .blue b + w.batchLen .alpha b + n) w hw
    (Feeds.cast (by omega) hf)
  obtain ⟨_, ro, rs, _, _, rwf⟩ := channelBatch_spec .red b w wr r hw hr
  have g0 : wr.chIdx .green = w.chIdx .green := ro _ (by decide)
  have gl : wr.batchLen .green b = w.batchLen .green b := batchLen_congr rs _ b g0
  obtain ⟨wg, g, hg, fg⟩ := channelBatch_total .green b
    (w.batchLen .blue b + w.batchLen .alpha b + n) wr rwf
    (Feeds.cast (by rw [gl]; omega) fr)
  obtain ⟨_, go, gs, _, _, gwf⟩ := channelBatch_spec .green b wr wg g rwf hg
  have hsg : w.SameStatic wg := rs.trans gs
  have b0 : wg.chIdx .blue = w.chIdx .blue := by rw [go _ (by decide), ro _ (by decide)]
  have bl_ : wg.batchLen .blue b = w.batchLen .blue b := batchLen_congr hsg _ b b0
  obtain ⟨wb, bl, hb, fb⟩ := channelBatch_total .blue b (w.batchLen .alpha b + n) wg gwf
    (Feeds.cast (by rw [bl_]; omega) fg)
  obtain ⟨_, bo, bs, _, _, bwf⟩ := channelBatch_spec .blue b wg wb bl gwf hb
  have hsb : w.SameStatic wb := hsg.trans bs
  have a0 : wb.chIdx .alpha = w.chIdx .alpha := by
    rw [bo _ (by decide), go _ (by decide), ro _ (by decide)]
  have al : wb.batchLen .alpha b = w.batchLen .alpha b := batchLen_congr hsb _ b a0
  obtain ⟨wa, a, ha, fa⟩ := channelBatch_total .alpha b n wb bwf
    (Feeds.cast (by rw [al]) fb)
  refine ⟨{ wa with m_PendingUpdates := true }, r ++ g ++ bl ++ a, ?_, fa⟩
  simp [Worker.turn, hr, hg, hb, ha]

theorem batchLen_le (w : Worker) (ch : Channel) (b : Nat) : w.batchLen ch b ≤ b := by
  unfold Worker.batchLen
  omega

/-! ### `Init` -/

theorem Init_chList (gen : List Nat) (mem : FrameBuffer) (pt pf n W : Nat)
    (sh : Channel → Shuffle) (ch : Channel) :
    ((Worker.fresh gen).Init mem pt pf n W sh).chList ch =
      sh ch (Worker.targetList mem pt n W ch) := by
  cases ch <;> rfl

theorem Init_chIdx (gen : List Nat) (mem : FrameBuffer) (pt pf n W : Nat)
    (sh : Channel → Shuffle) (ch : Channel) :
    ((Worker.fresh gen).Init mem pt pf n W sh).chIdx ch = 0 := by
  cases ch <;> rfl

theorem targetList_length (mem : FrameBuffer) (pt n W : Nat) (ch : Channel) :
    (Worker.targetList mem pt n W ch).length = n := by
  simp [Worker.targetList]

theorem Init_WF (gen : List Nat) (mem : FrameBuffer) (pt pf n W : Nat)
    (sh : Channel → Shuffle) (hn : n < 2 ^ 32) (hsh : ∀ ch, IsShuffle (sh ch)) :
    ((Worker.fresh gen).Init mem pt pf n W sh).WF := by
  refine ⟨hn, fun ch => ?_, fun ch => ?_⟩
  · rw [Init_chList, (hsh ch _).length_eq, targetList_length]
    rfl
  · rw [Init_chIdx]
    exact Nat.zero_le _

/-- The 12-bit fields lose nothing: entry `i` of a worker with at most
`W * H` pixels addresses pixel `i` of its region. -/
theorem entry_addr (W H i : Nat) (hW : W ≤ 4096) (hH : H ≤ 4096) (hi : i < W * H) :
    u32 (i / W % 2 ^ 12 * W + i % W % 2 ^ 12) = i ∧ u32 (i % W + i / W * W) = i := by
  have hWpos : 0 < W := by
    rcases Nat.eq_zero_or_pos W with h0 | h0
    · rw [h0] at hi; simp at hi
    · exact h0
  have hy : i / W < H := (Nat.div_lt_iff_lt_mul hWpos).mpr (by rw [Nat.mul_comm]; exact hi)
  have hx : i % W < W := Nat.mod_lt _ hWpos
  have hdm : i / W * W + i % W = i := Nat.div_add_mod' i W
  have hlt := canvas_lt W H hW hH
  have h1 : i / W % 2 ^ 12 = i / W := Nat.mod_eq_of_lt (by omega)
  have h2 : i % W % 2 ^ 12 = i % W := Nat.mod_eq_of_lt (by omega)
  rw [h1, h2]
  constructor
  · rw [hdm]; exact u32_of_lt (by omega)
  · rw [Nat.add_comm, hdm]; exact u32_of_lt (by omega)

/-- The assignments of the entries of an initialised worker, channel by
channel: a rearrangement of the assignments of the target bytes to the
`n` pixels of its region. -/
theorem Init_writes_perm (gen : List Nat) (mem : FrameBuffer) (base n W H : Nat)
    (sh : Channel → Shuffle) (hW : W ≤ 4096) (hH : H ≤ 4096) (hn : n ≤ W * H)
    (hsh : ∀ ch, IsShuffle (sh ch)) (ch : Channel) :
    List.Perm
      ((((Worker.fresh gen).Init mem base base n W sh).chList ch).map
        (((Worker.fresh gen).Init mem base base n W sh).writeOf ch))
      (targetWrites mem base n ch) := by
  rw [Init_chList]
  refine ((hsh ch _).map _).trans ?_
  have : (Worker.targetList mem base n W ch).map
      (((Worker.fresh gen).Init mem base base n W sh).writeOf ch) = targetWrites mem base n ch := by
    unfold Worker.targetList targetWrites
    rw [List.map_map]
    apply List.map_congr_left
    intro i hi
    have hi' : i < W * H := by
      have := List.mem_range.mp hi
      omega
    obtain ⟨h1, h2⟩ := entry_addr W H i hW hH hi'
    simp only [Function.comp, Worker.writeOf, Worker.addrOf, TargetPixelComponent.init,
      Worker.Init, h2]
    rw [h1]
  rw [this]

/-! ### Scripts made of full cycles -/

theorem lbdRandomGuesser_of_mem (v : Byte) (gen : List Nat) (h : v.val ∈ gen) :
    ∃ rest, lbdRandomGuesser v gen = some rest := by
  induction gen with
  | nil => simp at h
  | cons d gen ih =>
    by_cases hd : d = v.val
    · exact ⟨gen, by simp [lbdRandomGuesser, hd]⟩
    · have hmem : v.val ∈ gen := by
        rcases List.mem_cons.mp h with h1 | h1
        · exact absurd h1.symm hd
        · exact h1
      obtain ⟨rest, hrest⟩ := ih hmem
      exact ⟨rest, by simp [lbdRandomGuesser, hd, hrest]⟩

theorem lbdRandomGuesser_append_right (v : Byte) (a b rest : List Nat)
    (h : lbdRandomGuesser v a = some rest) :
    lbdRandomGuesser v (a ++ b) = some (rest ++ b) := by
  induction a with
  | nil => simp [lbdRandomGuesser] at h
  | cons d a ih =>
    by_cases hd : d = v.val
    · simp [lbdRandomGuesser, hd] at h ⊢
      exact h
    · simp [lbdRandomGuesser, hd] at h ⊢
      exact ih h

/-- A script of `n` full cycles feeds `n` guesses, after any leftover. -/
theorem feeds_cycles : ∀ (n : Nat) (post : List Nat), Feeds n (post ++ cycles n) := by
  intro n
  induction n with
  | zero => intro _; trivial
  | succ n ih =>
    intro post v
    have hmem : v.val ∈ post ++ List.range 256 :=
      List.mem_append_right _ (List.mem_range.mpr v.isLt)
    obtain ⟨rest, hrest⟩ := lbdRandomGuesser_of_mem v _ hmem
    refine ⟨rest ++ cycles n, ?_, ih rest⟩
    have := lbdRandomGuesser_append_right v _ (cycles n) rest hrest
    simpa [cycles, List.append_assoc] using this

/-! ### The assignments of a turn, channel by channel -/

theorem segment_filter (w : Worker) (ch1 ch : Channel) (k : Nat) :
    (w.segment ch1 k).filter (fun wr => decide (wr.ch = ch)) =
      if ch1 = ch then w.segment ch1 k else [] := by
  split
  · rename_i h
    apply List.filter_eq_self.mpr
    intro wr hwr
    unfold Worker.segment at hwr
    obtain ⟨p, _, rfl⟩ := List.mem_map.mp hwr
    simp [Worker.writeOf, h]
  · rename_i h
    apply List.filter_eq_nil_iff.mpr
    intro wr hwr
    unfold Worker.segment at hwr
    obtain ⟨p, _, rfl⟩ := List.mem_map.mp hwr
    simp [Worker.writeOf, h]

theorem segment_add {w w1 : Worker} (hs : w.SameStatic w1) (ch : Channel) (k m : Nat)
    (hidx : w1.chIdx ch = w.chIdx ch + k) :
    w.segment ch k ++ w1.segment ch m = w.segment ch (k + m) := by
  have hw : w1.writeOf ch = w.writeOf ch := funext (hs.writeOf ch)
  unfold Worker.segment
  rw [hs.2.2.2 ch, hidx, hw, ← List.map_append, List.take_add, List.drop_drop]

theorem isAnyWorkLeft_false (w : Worker) (h : w.isAnyWorkLeft = false) (ch : Channel) :
    w.m_PixelCount ≤ w.chIdx ch := by
  simp only [Worker.isAnyWorkLeft, Bool.or_eq_false_iff, decide_eq_false_iff_not, Nat.not_lt]
    at h
  cases ch
  · exact h.1.1.1
  · exact h.1.1.2
  · exact h.1.2
  · exact h.2

theorem isAnyWorkLeft_true (w : Worker) (h : w.isAnyWorkLeft = true) :
    ∃ ch, w.chIdx ch < w.m_PixelCount := by
  simp only [Worker.isAnyWorkLeft, Bool.or_eq_true, decide_eq_true_eq] at h
  rcases h with ((h | h) | h) | h
  · exact ⟨.red, h⟩
  · exact ⟨.green, h⟩
  · exact ⟨.blue, h⟩
  · exact ⟨.alpha, h⟩

theorem turn_filter (b : Nat) (w w1 : Worker) (wrs : List Write) (hw : w.WF)
    (h : w.turn b = some (w1, wrs)) (ch : Channel) :
    wrs.filter (fun wr => decide (wr.ch = ch)) = w.segment ch (w.batchLen ch b) := by
  obtain ⟨_, _, _, hwrs, _⟩ := turn_spec b w w1 wrs hw h
  rw [hwrs]
  simp only [List.filter_append, segment_filter]
  cases ch <;> simp

theorem filter_range_eq (n j : Nat) (hj : j < n) :
    (List.range n).filter (fun i => decide (i = j)) = [j] := by
  induction n with
  | zero => omega
  | succ n ih =>
    rw [List.range_succ, List.filter_append]
    by_cases h : j < n
    · rw [ih h]
      have : n ≠ j := by omega
      simp [this]
    · have hjn : j = n := by omega
      subst hjn
      have : (List.range j).filter (fun i => decide (i = j)) = [] := by
        apply List.filter_eq_nil_iff.mpr
        intro i hi
        have := List.mem_range.mp hi
        simp only [decide_eq_true_eq]
        omega
      rw [this]
      simp

/-- The cases of a step of a worker thread. -/
theorem WorkerThread.step_cases {b : Nat} {t t1 : WorkerThread} {wrs : List Write} {inc : Nat}
    (h : t.step b = some (t1, wrs, inc)) :
    (t1.w = t.w ∧ wrs = [] ∧ inc = 0 ∧
      ((t.pc = .awaitingTurn ∧ t.w.m_PendingUpdates = false ∧ t1.pc = .channelHead .red) ∨
       (∃ ch, t.pc = .channelHead ch ∧ t.w.chIdx ch < t.w.m_PixelCount ∧
          t1.pc = .channelBody ch (min (t.w.m_PixelCount - t.w.chIdx ch) b)) ∨
       (∃ ch, t.pc = .channelHead ch ∧ ¬ t.w.chIdx ch < t.w.m_PixelCount ∧
          t1.pc = WorkerPc.afterChannel ch) ∨
       (∃ ch, t.pc = .channelBody ch 0 ∧ t1.pc = WorkerPc.afterChannel ch) ∨
       (t.pc = .loopTest ∧ t.w.isAnyWorkLeft = true ∧ t1.pc = .awaitingTurn) ∨
       (t.pc = .loopTest ∧ t.w.isAnyWorkLeft = false ∧ t1.pc = .leaving))) ∨
    (∃ ch k wr, t.pc = .channelBody ch (k + 1) ∧ t.w.pixelIter ch = some (t1.w, wr) ∧
      t1.pc = .channelBody ch k ∧ wrs = [wr] ∧ inc = 0) ∨
    (t.pc = .postUpdate ∧ t1.w = { t.w with m_PendingUpdates := true } ∧ t1.pc = .loopTest ∧
      wrs = [] ∧ inc = 0) ∨
    (t.pc = .leaving ∧ t1.w = t.w ∧ t1.pc = .finished ∧ wrs = [] ∧ inc = 1) := by
  unfold WorkerThread.step at h
  split at h
  · rename_i hpc
    split at h
    · cases h
    · rename_i hflag
      simp only [Option.some.injEq, Prod.mk.injEq] at h
      obtain ⟨rfl, rfl, rfl⟩ := h
      exact Or.inl ⟨rfl, rfl, rfl, Or.inl ⟨hpc, by simpa using hflag, rfl⟩⟩
  · rename_i ch hpc
    split at h
    · rename_i hlt
      simp only [Option.some.injEq, Prod.mk.injEq] at h
      obtain ⟨rfl, rfl, rfl⟩ := h
      exact Or.inl ⟨rfl, rfl, rfl, Or.inr (Or.inl ⟨ch, hpc, hlt, rfl⟩)⟩
    · rename_i hge
      simp only [Option.some.injEq, Prod.mk.injEq] at h
      obtain ⟨rfl, rfl, rfl⟩ := h
      exact Or.inl ⟨rfl, rfl, rfl, Or.inr (Or.inr (Or.inl ⟨ch, hpc, hge, rfl⟩))⟩
  · rename_i ch hpc
    simp only [Option.some.injEq, Prod.mk.injEq] at h
    obtain ⟨rfl, rfl, rfl⟩ := h
    exact Or.inl ⟨rfl, rfl, rfl, Or.inr (Or.inr (Or.inr (Or.inl ⟨ch, hpc, rfl⟩)))⟩
  · rename_i ch k hpc
    split at h
    · cases h
    · rename_i w1 wr hpi
      simp only [Option.some.injEq, Prod.mk.injEq] at h
      obtain ⟨rfl, rfl, rfl⟩ := h
      exact Or.inr (Or.inl ⟨ch, k, wr, hpc, hpi, rfl, rfl, rfl⟩)
  · rename_i hpc
    simp only [Option.some.injEq, Prod.mk.injEq] at h
    obtain ⟨rfl, rfl, rfl⟩ := h
    exact Or.inr (Or.inr (Or.inl ⟨hpc, rfl, rfl, rfl, rfl⟩))
  · rename_i hpc
    simp only [Option.some.injEq, Prod.mk.injEq] at h
    obtain ⟨rfl, rfl, rfl⟩ := h
    by_cases hany : t.w.isAnyWorkLeft = true
    · exact Or.inl ⟨rfl, rfl, rfl,
        Or.inr (Or.inr (Or.inr (Or.inr (Or.inl ⟨hpc, hany, by simp [hany]⟩))))⟩
    · have hno : t.w.isAnyWorkLeft = false := by simpa using hany
      exact Or.inl ⟨rfl, rfl, rfl,
        Or.inr (Or.inr (Or.inr (Or.inr (Or.inr ⟨hpc, hno, by simp [hno]⟩))))⟩
  · rename_i hpc
    simp only [Option.some.injEq, Prod.mk.injEq] at h
    obtain ⟨rfl, rfl, rfl⟩ := h
    exact Or.inr (Or.inr (Or.inr ⟨hpc, rfl, rfl, rfl, rfl⟩))
  · cases h

theorem afterChannel_ne (ch : Channel) :
    (∀ ch1 k, WorkerPc.afterChannel ch ≠ .channelBody ch1 k) ∧
    WorkerPc.afterChannel ch ≠ .leaving ∧ WorkerPc.afterChannel ch ≠ .finished ∧
    WorkerPc.afterChannel ch ≠ .awaitingTurn ∧ WorkerPc.afterChannel ch ≠ .loopTest := by
  cases ch <;> simp [WorkerPc.afterChannel]

/-- A step of a worker thread keeps the invariant of the thread. -/
theorem WorkerThread.step_inv {b : Nat} {t t1 : WorkerThread} {wrs : List Write} {inc : Nat}
    (hinv : t.Inv) (h : t.step b = some (t1, wrs, inc)) : t1.Inv := by
  obtain ⟨hwf, hbody, hfin, hflag⟩ := hinv
  rcases WorkerThread.step_cases h with
    ⟨hw, _, _, hc⟩ | ⟨ch, k, wr, hpc, hpi, hpc1, _, _⟩ | ⟨hpc, hw, hpc1, _, _⟩ |
    ⟨hpc, hw, hpc1, _, _⟩
  · have hwf1 : t1.w.WF := by rw [hw]; exact hwf
    rcases hc with ⟨hpc, hf, hpc1⟩ | ⟨ch, hpc, hlt, hpc1⟩ | ⟨ch, hpc, hge, hpc1⟩ |
      ⟨ch, hpc, hpc1⟩ | ⟨hpc, hany, hpc1⟩ | ⟨hpc, hany, hpc1⟩
    · refine ⟨hwf1, ?_, ?_, ?_⟩
      · intro ch k hk; rw [hpc1] at hk; cases hk
      · intro hk; rw [hpc1] at hk; rcases hk with hk | hk <;> cases hk
      · intro hk; rw [hw, hf] at hk; cases hk
    · refine ⟨hwf1, ?_, ?_, ?_⟩
      · intro ch1 k hk
        rw [hpc1] at hk
        injection hk with h1 h2
        subst h1 h2
        rw [hw]; omega
      · intro hk; rw [hpc1] at hk; rcases hk with hk | hk <;> cases hk
      · intro hk
        rw [hw] at hk
        rcases hflag hk with h1 | h1 | h1 | h1 <;> rw [hpc] at h1 <;> cases h1
    · have hne := afterChannel_ne ch
      refine ⟨hwf1, ?_, ?_, ?_⟩
      · intro ch1 k hk; rw [hpc1] at hk; exact (hne.1 ch1 k hk).elim
      · intro hk
        rw [hpc1] at hk
        rcases hk with hk | hk
        · exact (hne.2.1 hk).elim
        · exact (hne.2.2.1 hk).elim
      · intro hk
        rw [hw] at hk
        rcases hflag hk with h1 | h1 | h1 | h1 <;> rw [hpc] at h1 <;> cases h1
    · have hne := afterChannel_ne ch
      refine ⟨hwf1, ?_, ?_, ?_⟩
      · intro ch1 k hk; rw [hpc1] at hk; exact (hne.1 ch1 k hk).elim
      · intro hk
        rw [hpc1] at hk
        rcases hk with hk | hk
        · exact (hne.2.1 hk).elim
        · exact (hne.2.2.1 hk).elim
      · intro hk
        rw [hw] at hk
        rcases hflag hk with h1 | h1 | h1 | h1 <;> rw [hpc] at h1 <;> cases h1
    · refine ⟨hwf1, ?_, ?_, ?_⟩
      · intro ch k hk; rw [hpc1] at hk; cases hk
      · intro hk; rw [hpc1] at hk; rcases hk with hk | hk <;> cases hk
      · intro _; exact Or.inl hpc1
    · refine ⟨hwf1, ?_, ?_, ?_⟩
      · intro ch k hk; rw [hpc1] at hk; cases hk
      · intro _ ch
        rw [hw]
        have h1 := isAnyWorkLeft_false t.w hany ch
        have h2 := hwf.2.2 ch
        omega
      · intro _; exact Or.inr (Or.inr (Or.inl hpc1))
  · obtain ⟨hi, ho, hs, hf, _⟩ := pixelIter_props hpi
    have hk := hbody ch (k + 1) hpc
    have hlt : t.w.chIdx ch + 1 < 2 ^ 32 := by have := hwf.1; omega
    rw [u32_of_lt hlt] at hi
    refine ⟨?_, ?_, ?_, ?_⟩
    · apply Worker.WF.of_static hwf hs
      intro ch1
      by_cases h1 : ch1 = ch
      · rw [h1, hi]; omega
      · rw [ho ch1 h1]; exact hwf.2.2 ch1
    · intro ch1 k1 hk1
      rw [hpc1] at hk1
      injection hk1 with h1 h2
      subst h1 h2
      rw [hi, hs.1]; omega
    · intro hk1; rw [hpc1] at hk1; rcases hk1 with hk1 | hk1 <;> cases hk1
    · intro hk1
      rw [hf] at hk1
      rcases hflag hk1 with h1 | h1 | h1 | h1 <;> rw [hpc] at h1 <;> cases h1
  · refine ⟨by rw [hw]; exact WF_setFlag t.w true hwf, ?_, ?_, ?_⟩
    · intro ch k hk; rw [hpc1] at hk; cases hk
    · intro hk; rw [hpc1] at hk; rcases hk with hk | hk <;> cases hk
    · intro _; exact Or.inr (Or.inl hpc1)
  · refine ⟨by rw [hw]; exact hwf, ?_, ?_, ?_⟩
    · intro ch k hk; rw [hpc1] at hk; cases hk
    · intro _ ch; rw [hw]; exact hfin (Or.inl hpc) ch
    · intro _; exact Or.inr (Or.inr (Or.inr hpc1))

/-- A step of a worker thread changes nothing of what `Init` set up. -/
theorem WorkerThread.step_static {b : Nat} {t t1 : WorkerThread} {wrs : List Write} {inc : Nat}
    (h : t.step b = some (t1, wrs, inc)) : t.w.SameStatic t1.w := by
  rcases WorkerThread.step_cases h with
    ⟨hw, _⟩ | ⟨ch, k, wr, _, hpi, _⟩ | ⟨_, hw, _⟩ | ⟨_, hw, _⟩
  · rw [hw]; exact Worker.SameStatic.refl _
  · exact (pixelIter_props hpi).2.2.1
  · rw [hw]; exact static_setFlag t.w true
  · rw [hw]; exact Worker.SameStatic.refl _

/-- A step of a worker thread decreases no cursor. -/
theorem WorkerThread.step_mono {b : Nat} {t t1 : WorkerThread} {wrs : List Write} {inc : Nat}
    (hinv : t.Inv) (h : t.step b = some (t1, wrs, inc)) (ch : Channel) :
    t.w.chIdx ch ≤ t1.w.chIdx ch := by
  rcases WorkerThread.step_cases h with
    ⟨hw, _⟩ | ⟨ch1, k, wr, hpc, hpi, _⟩ | ⟨_, hw, _⟩ | ⟨_, hw, _⟩
  · rw [hw]
  · obtain ⟨hi, ho, _⟩ := pixelIter_props hpi
    have hk := hinv.2.1 ch1 (k + 1) hpc
    have hlt : t.w.chIdx ch1 + 1 < 2 ^ 32 := by have := hinv.1.1; omega
    rw [u32_of_lt hlt] at hi
    by_cases h1 : ch = ch1
    · rw [h1, hi]; omega
    · rw [ho ch h1]
  · rw [hw]
    exact Nat.le_of_eq (chIdx_setFlag t.w true ch).symm
  · rw [hw]

/-- A worker thread never clears its flag, and while its flag is set it
assigns nothing to the frame buffer. -/
theorem WorkerThread.step_flag {b : Nat} {t t1 : WorkerThread} {wrs : List Write} {inc : Nat}
    (hinv : t.Inv) (h : t.step b = some (t1, wrs, inc)) (hf : t.w.m_PendingUpdates = true) :
    t1.w.m_PendingUpdates = true ∧ wrs = [] := by
  rcases WorkerThread.step_cases h with
    ⟨hw, hwrs, _⟩ | ⟨ch1, k, wr, hpc, _⟩ | ⟨_, hw, _, hwrs, _⟩ | ⟨_, hw, _, hwrs, _⟩
  · exact ⟨by rw [hw]; exact hf, hwrs⟩
  · rcases hinv.2.2.2 hf with h1 | h1 | h1 | h1 <;> rw [hpc] at h1 <;> cases h1
  · exact ⟨by rw [hw], hwrs⟩
  · exact ⟨by rw [hw]; exact hf, hwrs⟩

/-- The counter is incremented by the step from `leaving` to `finished`
and by no other. -/
theorem WorkerThread.step_inc {b : Nat} {t t1 : WorkerThread} {wrs : List Write} {inc : Nat}
    (h : t.step b = some (t1, wrs, inc)) :
    t.pc ≠ .finished ∧
      ((t.pc = .leaving ∧ t1.pc = .finished ∧ inc = 1) ∨ (t1.pc ≠ .finished ∧ inc = 0)) := by
  rcases WorkerThread.step_cases h with
    ⟨_, _, hinc, hc⟩ | ⟨ch1, k, wr, hpc, _, hpc1, _, hinc⟩ | ⟨hpc, _, hpc1, _, hinc⟩ |
    ⟨hpc, _, hpc1, _, hinc⟩
  · rcases hc with ⟨hpc, _, hpc1⟩ | ⟨ch, hpc, _, hpc1⟩ | ⟨ch, hpc, _, hpc1⟩ |
      ⟨ch, hpc, hpc1⟩ | ⟨hpc, _, hpc1⟩ | ⟨hpc, _, hpc1⟩
    all_goals
      refine ⟨by rw [hpc]; simp, Or.inr ⟨?_, hinc⟩⟩
      rw [hpc1]
      first
        | exact (afterChannel_ne _).2.2.1
        | simp
  · exact ⟨by rw [hpc]; simp, Or.inr ⟨by rw [hpc1]; simp, hinc⟩⟩
  · exact ⟨by rw [hpc]; simp, Or.inr ⟨by rw [hpc1]; simp, hinc⟩⟩
  · exact ⟨by rw [hpc]; simp, Or.inl ⟨hpc, hpc1, hinc⟩⟩

/-- The assignments of a step: none, with the cursors unchanged, or the
one of the entry under a cursor, which advances by one. -/
theorem WorkerThread.step_writes {b : Nat} {t t1 : WorkerThread} {wrs : List Write} {inc : Nat}
    (h : t.step b = some (t1, wrs, inc)) :
    (wrs = [] ∧ ∀ ch, t1.w.chIdx ch = t.w.chIdx ch) ∨
    (∃ ch p, (t.w.chList ch)[t.w.chIdx ch]? = some p ∧ wrs = [t.w.writeOf ch p] ∧
      t1.w.chIdx ch = u32 (t.w.chIdx ch + 1) ∧ (∀ ch1, ch1 ≠ ch → t1.w.chIdx ch1 = t.w.chIdx ch1) ∧
      ∃ k, t.pc = .channelBody ch (k + 1)) := by
  rcases WorkerThread.step_cases h with
    ⟨hw, hwrs, _⟩ | ⟨ch1, k, wr, hpc, hpi, _, hwrs, _⟩ | ⟨_, hw, _, hwrs, _⟩ |
    ⟨_, hw, _, hwrs, _⟩
  · exact Or.inl ⟨hwrs, fun ch => by rw [hw]⟩
  · obtain ⟨hi, ho, _, _, p, hp, hwr, _⟩ := pixelIter_props hpi
    exact Or.inr ⟨ch1, p, hp, by rw [hwrs, hwr], hi, ho, k, hpc⟩
  · exact Or.inl ⟨hwrs, fun ch => by rw [hw, chIdx_setFlag]⟩
  · exact Or.inl ⟨hwrs, fun ch => by rw [hw]⟩

/-! ### A turn, step by step -/

theorem steps_trans (b : Nat) :
    ∀ (m n : Nat) (t t1 t2 : WorkerThread) (w1 w2 : List Write) (i1 i2 : Nat),
      WorkerThread.steps b m t = some (t1, w1, i1) →
      WorkerThread.steps b n t1 = some (t2, w2, i2) →
      WorkerThread.steps b (m + n) t = some (t2, w1 ++ w2, i1 + i2) := by
  intro m
  induction m with
  | zero =>
    intro n t t1 t2 w1 w2 i1 i2 h1 h2
    simp only [WorkerThread.steps, Option.some.injEq, Prod.mk.injEq] at h1
    obtain ⟨rfl, rfl, rfl⟩ := h1
    simpa using h2
  | succ m ih =>
    intro n t t1 t2 w1 w2 i1 i2 h1 h2
    unfold WorkerThread.steps at h1
    split at h1
    · cases h1
    · rename_i ta wa ia hstep
      split at h1
      · cases h1
      · rename_i tb wb ib hrest
        simp only [Option.some.injEq, Prod.mk.injEq] at h1
        obtain ⟨rfl, rfl, rfl⟩ := h1
        have := ih n ta tb t2 wb w2 ib i2 hrest h2
        have hmn : m + 1 + n = (m + n) + 1 := by omega
        rw [hmn]
        unfold WorkerThread.steps
        rw [hstep]
        simp only [this, List.append_assoc, Nat.add_assoc]

theorem steps_one (b : Nat) (t t1 : WorkerThread) (wrs : List Write) (inc : Nat)
    (h : t.step b = some (t1, wrs, inc)) : WorkerThread.steps b 1 t = some (t1, wrs, inc) := by
  simp [WorkerThread.steps, h]

/-- The inner loop of a channel is the thread taking one step per iteration. -/
theorem channelLoop_steps (b : Nat) (ch : Channel) :
    ∀ (k : Nat) (w w1 : Worker) (wrs : List Write),
      Worker.channelLoop ch k w = some (w1, wrs) →
      WorkerThread.steps b k { w := w, pc := .channelBody ch k } =
        some ({ w := w1, pc := .channelBody ch 0 }, wrs, 0) := by
  intro k
  induction k with
  | zero =>
    intro w w1 wrs h
    simp only [Worker.channelLoop, Option.some.injEq, Prod.mk.injEq] at h
    obtain ⟨rfl, rfl⟩ := h
    rfl
  | succ k ih =>
    intro w w1 wrs h
    unfold Worker.channelLoop at h
    split at h
    · cases h
    · rename_i wa wr hpi
      split at h
      · cases h
      · rename_i wb wrsb hloop
        simp only [Option.some.injEq, Prod.mk.injEq] at h
        obtain ⟨rfl, rfl⟩ := h
        have hstep : ({ w := w, pc := .channelBody ch (k + 1) } : WorkerThread).step b =
            some ({ w := wa, pc := .channelBody ch k }, [wr], 0) := by
          simp [WorkerThread.step, hpi]
        unfold WorkerThread.steps
        rw [hstep]
        simp [ih wa wb wrsb hloop]

/-- The block of a channel is the thread going from the head of the block
to what follows it. -/
theorem channelBatch_steps (b : Nat) (ch : Channel) (w w1 : Worker) (wrs : List Write)
    (h : w.channelBatch ch b = some (w1, wrs)) :
    ∃ n, WorkerThread.steps b n { w := w, pc := .channelHead ch } =
      some ({ w := w1, pc := WorkerPc.afterChannel ch }, wrs, 0) := by
  unfold Worker.channelBatch at h
  split at h
  · rename_i hlt
    have h1 : WorkerThread.steps b 1 { w := w, pc := .channelHead ch } =
        some ({ w := w, pc := .channelBody ch (min (w.m_PixelCount - w.chIdx ch) b) }, [], 0) :=
      steps_one b _ _ _ _ (by simp [WorkerThread.step, hlt])
    have h2 := channelLoop_steps b ch _ w w1 wrs h
    have h3 : WorkerThread.steps b 1 { w := w1, pc := .channelBody ch 0 } =
        some ({ w := w1, pc := WorkerPc.afterChannel ch }, [], 0) :=
      steps_one b _ _ _ _ (by simp [WorkerThread.step])
    have h12 := steps_trans b _ _ _ _ _ _ _ _ _ h1 h2
    have h123 := steps_trans b _ _ _ _ _ _ _ _ _ h12 h3
    exact ⟨_, by simpa using h123⟩
  · rename_i hge
    simp only [Option.some.injEq, Prod.mk.injEq] at h
    obtain ⟨rfl, rfl⟩ := h
    exact ⟨1, steps_one b _ _ _ _ (by simp [WorkerThread.step, hge])⟩

/-- One turn is the thread going from `AwaitingTurn`, its flag clear, to
the loop test after the posting of the flag, with the same worker and the
same assignments in the same order. -/
theorem turn_steps (b : Nat) (w w1 : Worker) (wrs : List Write)
    (hflag : w.m_PendingUpdates = false) (h : w.turn b = some (w1, wrs)) :
    ∃ n, WorkerThread.steps b n { w := w, pc := .awaitingTurn } =
      some ({ w := w1, pc := .loopTest }, wrs, 0) := by
  unfold Worker.turn at h
  split at h
  · cases h
  · rename_i wr r hr
    split at h
    · cases h
    · rename_i wg g hg
      split at h
      · cases h
      · rename_i wb bl hb
        split at h
        · cases h
        · rename_i wa a ha
          simp only [Option.some.injEq, Prod.mk.injEq] at h
          obtain ⟨rfl, rfl⟩ := h
          have h0 : WorkerThread.steps b 1 { w := w, pc := .awaitingTurn } =
              some ({ w := w, pc := .channelHead .red }, [], 0) :=
            steps_one b _ _ _ _ (by simp [WorkerThread.step, hflag])
          obtain ⟨n1, h1⟩ := channelBatch_steps b .red w wr r hr
          obtain ⟨n2, h2⟩ := channelBatch_steps b .green wr wg g hg
          obtain ⟨n3, h3⟩ := channelBatch_steps b .blue wg wb bl hb
          obtain ⟨n4, h4⟩ := channelBatch_steps b .alpha wb wa a ha
          have h5 : WorkerThread.steps b 1 { w := wa, pc := .postUpdate } =
              some ({ w := { wa with m_PendingUpdates := true }, pc := .loopTest }, [], 0) :=
            steps_one b _ _ _ _ (by simp [WorkerThread.step])
          have s1 := steps_trans b _ _ _ _ _ _ _ _ _ h0 h1
          have s2 := steps_trans b _ _ _ _ _ _ _ _ _ s1 h2
          have s3 := steps_trans b _ _ _ _ _ _ _ _ _ s2 h3
          have s4 := steps_trans b _ _ _ _ _ _ _ _ _ s3 h4
          have s5 := steps_trans b _ _ _ _ _ _ _ _ _ s4 h5
          exact ⟨_, by simpa [WorkerPc.afterChannel, List.append_assoc] using s5⟩

/-- C7: one turn of `Run` (one iteration of its outer loop, ended by the
posting of the flag) returns when the script feeds `4 * pixelIterSize`
guesses; a turn that returns has advanced each of the four cursors by
exactly `min(pixelIterSize, m_PixelCount - cursor)`, hence by at most
`pixelIterSize`; and such a turn is what the worker thread does, step by
step, from `AwaitingTurn` with its flag clear to the loop test that
follows the posting of its flag. -/
theorem turn_batch_bound (b : Nat) (w : Worker) (hw : w.WF) :
    (Feeds (4 * b) w.gen → ∃ w1 wrs, w.turn b = some (w1, wrs)) ∧
    (∀ w1 wrs, w.turn b = some (w1, wrs) →
      (∀ ch, w1.chIdx ch = w.chIdx ch + min b (w.m_PixelCount - w.chIdx ch) ∧
        w1.chIdx ch ≤ w.chIdx ch + b) ∧
      (w.m_PendingUpdates = false →
        ∃ n, WorkerThread.steps b n { w := w, pc := .awaitingTurn } =
          some ({ w := w1, pc := .loopTest }, wrs, 0))) := by
  constructor
  · intro hf
    have h1 := batchLen_le w .red b
    have h2 := batchLen_le w .green b
    have h3 := batchLen_le w .blue b
    have h4 := batchLen_le w .alpha b
    obtain ⟨w1, wrs, h, _⟩ := turn_total b 0 w hw (Feeds.mono _ _ _ (by omega) hf)
    exact ⟨w1, wrs, h⟩
  · intro w1 wrs h
    refine ⟨fun ch => ?_, fun hflag => turn_steps b w w1 wrs hflag h⟩
    obtain ⟨hi, _⟩ := turn_spec b w w1 wrs hw h
    have := batchLen_le w ch b
    rw [hi ch]
    constructor
    · unfold Worker.batchLen
      rw [Nat.min_comm]
    · omega

/-- The first turn of the worker of the scenario, on a script of eight
full cycles (which feeds the four guesses of the turn). -/
theorem turn_batch_bound_witness :
    Feeds (4 * 1) (cycles 8) ∧
    (Feeds (4 * 1) (cycles 8) → ∃ w1 wrs,
      ((Worker.fresh (cycles 8)).Init scenarioImage 0 0 2 2 (fun _ => List.reverse)).turn 1 =
        some (w1, wrs)) ∧
    (∀ w1 wrs,
      ((Worker.fresh (cycles 8)).Init scenarioImage 0 0 2 2 (fun _ => List.reverse)).turn 1 =
        some (w1, wrs) →
      (∀ ch,
        w1.chIdx ch =
          ((Worker.fresh (cycles 8)).Init scenarioImage 0 0 2 2
            (fun _ => List.reverse)).chIdx ch +
            min 1 (2 - ((Worker.fresh (cycles 8)).Init scenarioImage 0 0 2 2
              (fun _ => List.reverse)).chIdx ch) ∧
        w1.chIdx ch ≤
          ((Worker.fresh (cycles 8)).Init scenarioImage 0 0 2 2
            (fun _ => List.reverse)).chIdx ch + 1) ∧
      (((Worker.fresh (cycles 8)).Init scenarioImage 0 0 2 2
          (fun _ => List.reverse)).m_PendingUpdates = false →
        ∃ n, WorkerThread.steps 1 n
            { w := (Worker.fresh (cycles 8)).Init scenarioImage 0 0 2 2 (fun _ => List.reverse),
              pc := .awaitingTurn } =
          some ({ w := w1, pc := .loopTest }, wrs, 0))) :=
  ⟨Feeds.mono 4 8 _ (by decide) (feeds_cycles 8 []),
    turn_batch_bound 1
      ((Worker.fresh (cycles 8)).Init scenarioImage 0 0 2 2 (fun _ => List.reverse))
      (Init_WF (cycles 8) scenarioImage 0 0 2 2 (fun _ => List.reverse) (by decide)
        (fun _ l => List.reverse_perm l))⟩

/-! ### Steps of the process -/

theorem Sys.workerStep_spec {i : Nat} {s s1 : Sys} (h : s.workerStep i = some s1) :
    ∃ t t1 wrs inc, s.workers[i]? = some t ∧
      t.step s.stepSizeInPixels = some (t1, wrs, inc) ∧
      s1 = { s with
        workers := s.workers.set i t1
        fb := s.fb.storeAll wrs
        g_NumFinishedWorkers := u32 (s.g_NumFinishedWorkers + inc) } := by
  unfold Sys.workerStep at h
  split at h
  · cases h
  · rename_i t ht
    split at h
    · cases h
    · rename_i t1 wrs inc hstep
      simp only [Option.some.injEq] at h
      exact ⟨t, t1, wrs, inc, ht, hstep, h.symm⟩

theorem Sys.keyStep_spec {k : Key} {p : Bool} {s s1 : Sys} (h : s.keyStep k p = some s1) :
    s1.workers = s.workers ∧ s1.fb = s.fb ∧ s1.g_NumFinishedWorkers = s.g_NumFinishedWorkers ∧
      s1.orch = s.orch ∧ s1.numWorkers = s.numWorkers ∧
      s1.stepSizeInPixels = s.stepSizeInPixels := by
  unfold Sys.keyStep at h
  split at h
  · split at h
    · split at h
      · simp only [Option.some.injEq] at h
        subst h
        exact ⟨rfl, rfl, rfl, rfl, rfl, rfl⟩
      · split at h
        · simp only [Option.some.injEq] at h
          subst h
          exact ⟨rfl, rfl, rfl, rfl, rfl, rfl⟩
        · simp only [Option.some.injEq] at h
          subst h
          exact ⟨rfl, rfl, rfl, rfl, rfl, rfl⟩
    · simp only [Option.some.injEq] at h
      subst h
      exact ⟨rfl, rfl, rfl, rfl, rfl, rfl⟩
  · cases h

/-- The cases of a step of the control thread. -/
theorem Sys.orchStep_spec {ext : Bool} {s s1 : Sys} (h : s.orchStep ext = some s1) :
    s1.fb = s.fb ∧ s1.g_NumFinishedWorkers = s.g_NumFinishedWorkers ∧
      s1.numWorkers = s.numWorkers ∧ s1.stepSizeInPixels = s.stepSizeInPixels ∧
      ((s.orch = .loopTop ∧ s1.workers = s.workers ∧
          (s1.orch = .waitSync ∨ s1.orch = s.pauseFrom 0)) ∨
       (∃ i t, s.orch = .waitFlag i ∧ s.workers[i]? = some t ∧ t.w.m_PendingUpdates = true ∧
          s1.workers = s.workers ∧ s1.orch = s.pauseFrom (i + 1)) ∨
       (s.orch = .present ∧ s1.workers = s.workers ∧
          (s1.orch = s.resumeFrom 0 ∨ s1.orch = .exited)) ∨
       (∃ i, s.orch = .resume i ∧ s1.workers = s.clearFlag i ∧
          s1.orch = s.resumeFrom (i + 1)) ∨
       (s.orch = .waitSync ∧ s1.workers = s.workers ∧
          (s1.orch = .loopTop ∨ s1.orch = .exited))) := by
  unfold Sys.orchStep at h
  split at h
  · rename_i hpc
    split at h
    · simp only [Option.some.injEq] at h
      subst h
      exact ⟨rfl, rfl, rfl, rfl, Or.inl ⟨hpc, rfl, Or.inl rfl⟩⟩
    · split at h
      · simp only [Option.some.injEq] at h
        subst h
        exact ⟨rfl, rfl, rfl, rfl, Or.inl ⟨hpc, rfl, Or.inr rfl⟩⟩
      · simp only [Option.some.injEq] at h
        subst h
        exact ⟨rfl, rfl, rfl, rfl, Or.inl ⟨hpc, rfl, Or.inl rfl⟩⟩
  · rename_i i hpc
    split at h
    · cases h
    · rename_i t ht
      split at h
      · rename_i hf
        simp only [Option.some.injEq] at h
        subst h
        exact ⟨rfl, rfl, rfl, rfl, Or.inr (Or.inl ⟨i, t, hpc, ht, hf, rfl, rfl⟩)⟩
      · cases h
  · rename_i hpc
    split at h
    · simp only [Option.some.injEq] at h
      subst h
      exact ⟨rfl, rfl, rfl, rfl, Or.inr (Or.inr (Or.inl ⟨hpc, rfl, Or.inl rfl⟩))⟩
    · simp only [Option.some.injEq] at h
      subst h
      exact ⟨rfl, rfl, rfl, rfl, Or.inr (Or.inr (Or.inl ⟨hpc, rfl, Or.inr rfl⟩))⟩
  · rename_i i hpc
    simp only [Option.some.injEq] at h
    subst h
    exact ⟨rfl, rfl, rfl, rfl, Or.inr (Or.inr (Or.inr (Or.inl ⟨i, hpc, rfl, rfl⟩)))⟩
  · rename_i hpc
    split at h
    · simp only [Option.some.injEq] at h
      subst h
      exact ⟨rfl, rfl, rfl, rfl, Or.inr (Or.inr (Or.inr (Or.inr ⟨hpc, rfl, Or.inl rfl⟩)))⟩
    · simp only [Option.some.injEq] at h
      subst h
      exact ⟨rfl, rfl, rfl, rfl, Or.inr (Or.inr (Or.inr (Or.inr ⟨hpc, rfl, Or.inr rfl⟩)))⟩
  · cases h

theorem Sys.clearFlag_length (s : Sys) (i : Nat) : (s.clearFlag i).length = s.workers.length := by
  unfold Sys.clearFlag
  split
  · rfl
  · simp

theorem Sys.clearFlag_at (s : Sys) (i j : Nat) (t1 : WorkerThread)
    (h : (s.clearFlag i)[j]? = some t1) :
    ∃ t, s.workers[j]? = some t ∧
      (t1 = t ∨ (j = i ∧ t1 = { t with w := { t.w with m_PendingUpdates := false } })) := by
  unfold Sys.clearFlag at h
  split at h
  · exact ⟨t1, h, Or.inl rfl⟩
  · rename_i t ht
    rw [List.getElem?_set] at h
    split at h
    · rename_i hij
      subst hij
      split at h
      · simp only [Option.some.injEq] at h
        exact ⟨t, ht, Or.inr ⟨rfl, h.symm⟩⟩
      · cases h
    · exact ⟨t1, h, Or.inl rfl⟩

/-- How a step changes the worker threads: each thread of the new state is
the thread at the same index of the old one, unchanged, or after a step of
its own, or with its flag cleared by the resume phase. -/
theorem Sys.step_workers {a : Action} {s s1 : Sys} (h : s.step a = some s1) :
    s1.workers.length = s.workers.length ∧ s1.numWorkers = s.numWorkers ∧
    s1.stepSizeInPixels = s.stepSizeInPixels ∧
    ∀ j t1, s1.workers[j]? = some t1 → ∃ t, s.workers[j]? = some t ∧
      (t1 = t ∨
       (∃ wrs inc, a = .worker j ∧ t.step s.stepSizeInPixels = some (t1, wrs, inc)) ∨
       ((∃ ext, a = .orch ext) ∧ s.orch = .resume j ∧
          t1 = { t with w := { t.w with m_PendingUpdates := false } })) := by
  cases a with
  | worker i =>
    obtain ⟨t, t1, wrs, inc, ht, hstep, rfl⟩ := Sys.workerStep_spec h
    refine ⟨by simp, rfl, rfl, ?_⟩
    intro j tj hj
    simp only [List.getElem?_set] at hj
    split at hj
    · rename_i hij
      subst hij
      split at hj
      · simp only [Option.some.injEq] at hj
        subst hj
        exact ⟨t, ht, Or.inr (Or.inl ⟨wrs, inc, rfl, hstep⟩)⟩
      · cases hj
    · exact ⟨tj, hj, Or.inl rfl⟩
  | orch ext =>
    obtain ⟨_, _, hN, hb, hc⟩ := Sys.orchStep_spec h
    rcases hc with ⟨_, hw, _⟩ | ⟨i, t, _, _, _, hw, _⟩ | ⟨_, hw, _⟩ | ⟨i, hpc, hw, _⟩ |
      ⟨_, hw, _⟩
    · rw [hw]; exact ⟨rfl, hN, hb, fun j t1 hj => ⟨t1, hj, Or.inl rfl⟩⟩
    · rw [hw]; exact ⟨rfl, hN, hb, fun j t1 hj => ⟨t1, hj, Or.inl rfl⟩⟩
    · rw [hw]; exact ⟨rfl, hN, hb, fun j t1 hj => ⟨t1, hj, Or.inl rfl⟩⟩
    · rw [hw]
      refine ⟨Sys.clearFlag_length s i, hN, hb, ?_⟩
      intro j t1 hj
      obtain ⟨t, ht, hcase⟩ := Sys.clearFlag_at s i j t1 hj
      rcases hcase with rfl | ⟨rfl, rfl⟩
      · exact ⟨t1, ht, Or.inl rfl⟩
      · exact ⟨t, ht, Or.inr (Or.inr ⟨⟨ext, rfl⟩, hpc, rfl⟩)⟩
    · rw [hw]; exact ⟨rfl, hN, hb, fun j t1 hj => ⟨t1, hj, Or.inl rfl⟩⟩
  | key k p =>
    obtain ⟨hw, _, _, _, hN, hb⟩ := Sys.keyStep_spec h
    rw [hw]
    exact ⟨rfl, hN, hb, fun j t1 hj => ⟨t1, hj, Or.inl rfl⟩⟩

/-! ### The invariant of the process -/

theorem initWorkers_at (c : Setup) (i : Nat) (w0 : Worker) (h : c.initWorkers[i]? = some w0) :
    ∃ o n, (partition c.width c.height c.numWorkers)[i]? = some (o, n) ∧
      w0 = (Worker.fresh (c.gen i)).Init c.image o o n c.width (c.shuffle i) := by
  unfold Setup.initWorkers at h
  rw [List.getElem?_map, List.getElem?_enum] at h
  cases hp : (partition c.width c.height c.numWorkers)[i]? with
  | none => rw [hp] at h; cases h
  | some e =>
    rw [hp] at h
    simp only [Option.map_some', Option.some.injEq] at h
    exact ⟨e.1, e.2, rfl, h.symm⟩

theorem initWorkers_length (c : Setup) : c.initWorkers.length = c.numWorkers := by
  simp [Setup.initWorkers, partition_length]

theorem initWorkers_WF (c : Setup) (hc : c.WF) (i : Nat) (w0 : Worker)
    (h : c.initWorkers[i]? = some w0) : w0.WF := by
  obtain ⟨o, n, hp, rfl⟩ := initWorkers_at c i w0 h
  have hwithin := partition_within c.width c.height c.numWorkers hc.1 hc.2.2.1 hc.2.2.2.1 i o n hp
  have hlt := canvas_lt c.width c.height hc.2.2.1 hc.2.2.2.1
  exact Init_WF _ _ _ _ _ _ _ (by omega) (hc.2.2.2.2 i)

theorem initWorkers_chIdx (c : Setup) (i : Nat) (w0 : Worker)
    (h : c.initWorkers[i]? = some w0) (ch : Channel) : w0.chIdx ch = 0 := by
  obtain ⟨o, n, _, rfl⟩ := initWorkers_at c i w0 h
  exact Init_chIdx ..

theorem start_workers_at (c : Setup) (i : Nat) (t : WorkerThread)
    (h : c.start.workers[i]? = some t) :
    t.pc = .awaitingTurn ∧ c.initWorkers[i]? = some t.w := by
  unfold Setup.start at h
  simp only [List.getElem?_map] at h
  cases hw : c.initWorkers[i]? with
  | none => rw [hw] at h; cases h
  | some w0 =>
    rw [hw] at h
    simp only [Option.map_some', Option.some.injEq] at h
    subst h
    exact ⟨rfl, rfl⟩

theorem countP_eq_zero_of {α : Type} (p : α → Bool) (l : List α)
    (h : ∀ a ∈ l, p a = false) : l.countP p = 0 := by
  induction l with
  | nil => rfl
  | cons a l ih =>
    have ha := h a (List.mem_cons_self a l)
    rw [List.countP_cons_of_neg _ _ (by simp [ha])]
    exact ih (fun b hb => h b (List.mem_cons_of_mem a hb))

/-- The invariant holds when the threads are started. -/
theorem Inv_start (c : Setup) (hc : c.WF) : c.start.Inv c := by
  refine ⟨⟨rfl, rfl, ?_, ?_⟩, ?_, ?_, ?_, ?_⟩
  · simp [Setup.start, initWorkers_length]
  · intro i t ht
    obtain ⟨_, hw⟩ := start_workers_at c i t ht
    exact ⟨t.w, hw, Worker.SameStatic.refl _⟩
  · intro i t ht
    obtain ⟨hpc, hw⟩ := start_workers_at c i t ht
    refine ⟨initWorkers_WF c hc i t.w hw, ?_, ?_, ?_⟩
    · intro ch k hk; rw [hpc] at hk; cases hk
    · intro hk; rw [hpc] at hk; rcases hk with hk | hk <;> cases hk
    · intro _; exact Or.inl hpc
  · trivial
  · show 0 = c.start.numReturned
    unfold Sys.numReturned
    rw [countP_eq_zero_of]
    intro t ht
    obtain ⟨i, hi⟩ := List.mem_iff_getElem?.mp ht
    rw [(start_workers_at c i t hi).1]
    rfl
  · intro i t ht ch j p hj
    rw [initWorkers_chIdx c i t.w (start_workers_at c i t ht).2 ch] at hj
    omega

theorem Static_step (c : Setup) {a : Action} {s s1 : Sys} (hs : s.Static c)
    (h : s.step a = some s1) : s1.Static c := by
  obtain ⟨hlen, hN, hb, hw⟩ := Sys.step_workers h
  refine ⟨hN.trans hs.1, hb.trans hs.2.1, hlen.trans hs.2.2.1, ?_⟩
  intro j t1 hj
  obtain ⟨t, ht, hcase⟩ := hw j t1 hj
  obtain ⟨w0, hw0, hst⟩ := hs.2.2.2 j t ht
  refine ⟨w0, hw0, ?_⟩
  rcases hcase with rfl | ⟨wrs, inc, _, hstep⟩ | ⟨_, _, rfl⟩
  · exact hst
  · exact hst.trans (WorkerThread.step_static hstep)
  · exact hst.trans (static_setFlag t.w false)

theorem Inv_clearFlag (t : WorkerThread) (h : t.Inv) :
    ({ t with w := { t.w with m_PendingUpdates := false } } : WorkerThread).Inv := by
  refine ⟨WF_setFlag t.w false h.1, ?_, ?_, ?_⟩
  · intro ch k hk
    have := h.2.1 ch k hk
    rw [chIdx_setFlag]
    exact this
  · intro hk ch
    have := h.2.2.1 hk ch
    rw [chIdx_setFlag]
    exact this
  · intro hk
    cases hk

theorem threads_step {a : Action} {s s1 : Sys}
    (hs : ∀ (j : Nat) (t : WorkerThread), s.workers[j]? = some t → t.Inv)
    (h : s.step a = some s1) :
    ∀ (j : Nat) (t : WorkerThread), s1.workers[j]? = some t → t.Inv := by
  obtain ⟨_, _, _, hw⟩ := Sys.step_workers h
  intro j t1 hj
  obtain ⟨t, ht, hcase⟩ := hw j t1 hj
  have hinv := hs j t ht
  rcases hcase with rfl | ⟨wrs, inc, _, hstep⟩ | ⟨_, _, rfl⟩
  · exact hinv
  · exact WorkerThread.step_inv hinv hstep
  · exact Inv_clearFlag t hinv

theorem OrchInv_of_flags {s s1 : Sys} (horch : s1.orch = s.orch)
    (hN : s1.numWorkers = s.numWorkers)
    (hfl : ∀ (j : Nat) (t1 : WorkerThread), s1.workers[j]? = some t1 →
      ∃ t, s.workers[j]? = some t ∧ (t.w.m_PendingUpdates = true → t1.w.m_PendingUpdates = true))
    (ho : s.OrchInv) : s1.OrchInv := by
  unfold Sys.OrchInv at ho ⊢
  rw [horch, hN]
  cases hpc : s.orch with
  | waitFlag i =>
    simp only [hpc] at ho ⊢
    refine ⟨ho.1, fun j t1 hj ht1 => ?_⟩
    obtain ⟨t, ht, himp⟩ := hfl j t1 ht1
    exact himp (ho.2 j t hj ht)
  | present =>
    simp only [hpc] at ho ⊢
    intro j t1 ht1
    obtain ⟨t, ht, himp⟩ := hfl j t1 ht1
    exact himp (ho j t ht)
  | resume i =>
    simp only [hpc] at ho ⊢
    refine ⟨ho.1, fun j t1 hj ht1 => ?_⟩
    obtain ⟨t, ht, himp⟩ := hfl j t1 ht1
    exact himp (ho.2 j t hj ht)
  | loopTop => trivial
  | waitSync => trivial
  | exited => trivial

theorem getElem?_lt_length {α : Type} {l : List α} {j : Nat} {a : α} (h : l[j]? = some a) :
    j < l.length := by
  by_contra hge
  rw [List.getElem?_eq_none (by omega)] at h
  cases h

theorem pauseFrom_cases (s : Sys) (i : Nat) :
    (i < s.numWorkers ∧ s.pauseFrom i = .waitFlag i) ∨
      (¬ i < s.numWorkers ∧ s.pauseFrom i = .present) := by
  unfold Sys.pauseFrom
  by_cases h : i < s.numWorkers
  · exact Or.inl ⟨h, if_pos h⟩
  · exact Or.inr ⟨h, if_neg h⟩

theorem resumeFrom_cases (s : Sys) (i : Nat) :
    (i < s.numWorkers ∧ s.resumeFrom i = .resume i) ∨
      (¬ i < s.numWorkers ∧ s.resumeFrom i = .waitSync) := by
  unfold Sys.resumeFrom
  by_cases h : i < s.numWorkers
  · exact Or.inl ⟨h, if_pos h⟩
  · exact Or.inr ⟨h, if_neg h⟩

theorem OrchInv_waitFlag {s : Sys} {i : Nat} (h : s.orch = .waitFlag i) :
    s.OrchInv ↔ (i < s.numWorkers ∧
      ∀ (j : Nat) (t : WorkerThread), j < i → s.workers[j]? = some t →
        t.w.m_PendingUpdates = true) := by
  unfold Sys.OrchInv
  rw [h]

theorem OrchInv_present {s : Sys} (h : s.orch = .present) :
    s.OrchInv ↔
      ∀ (j : Nat) (t : WorkerThread), s.workers[j]? = some t → t.w.m_PendingUpdates = true := by
  unfold Sys.OrchInv
  rw [h]

theorem OrchInv_resume {s : Sys} {i : Nat} (h : s.orch = .resume i) :
    s.OrchInv ↔ (i < s.numWorkers ∧
      ∀ (j : Nat) (t : WorkerThread), i ≤ j → s.workers[j]? = some t →
        t.w.m_PendingUpdates = true) := by
  unfold Sys.OrchInv
  rw [h]

theorem OrchInv_other {s : Sys}
    (h : s.orch = .loopTop ∨ s.orch = .waitSync ∨ s.orch = .exited) : s.OrchInv := by
  unfold Sys.OrchInv
  rcases h with h | h | h <;> rw [h] <;> trivial

/-- Every step keeps what the control thread knows of the flags. -/
theorem OrchInv_step {a : Action} {s s1 : Sys} (hlen : s.workers.length = s.numWorkers)
    (hth : ∀ (j : Nat) (t : WorkerThread), s.workers[j]? = some t → t.Inv)
    (ho : s.OrchInv) (h : s.step a = some s1) : s1.OrchInv := by
  cases a with
  | worker i =>
    obtain ⟨_, hN, _, hw⟩ := Sys.step_workers h
    obtain ⟨t, t1, wrs, inc, _, _, hs1⟩ := Sys.workerStep_spec h
    have horch : s1.orch = s.orch := by rw [hs1]
    apply OrchInv_of_flags horch hN _ ho
    intro j tj hj
    obtain ⟨t0, ht0, hcase⟩ := hw j tj hj
    refine ⟨t0, ht0, fun hf => ?_⟩
    rcases hcase with rfl | ⟨wrs1, inc1, _, hstep⟩ | ⟨⟨ext, hext⟩, _⟩
    · exact hf
    · exact (WorkerThread.step_flag (hth j t0 ht0) hstep hf).1
    · cases hext
  | key k p =>
    obtain ⟨hw, _, _, horch, hN, _⟩ := Sys.keyStep_spec h
    apply OrchInv_of_flags horch hN _ ho
    intro j tj hj
    rw [hw] at hj
    exact ⟨tj, hj, id⟩
  | orch ext =>
    obtain ⟨_, _, hN, _, hc⟩ := Sys.orchStep_spec h
    rcases hc with ⟨hpc, hw, hpc1 | hpc1⟩ | ⟨i, t, hpc, ht, hf, hw, hpc1⟩ |
      ⟨hpc, hw, hpc1 | hpc1⟩ | ⟨i, hpc, hw, hpc1⟩ | ⟨hpc, hw, hpc1 | hpc1⟩
    · exact OrchInv_other (Or.inr (Or.inl hpc1))
    · rcases pauseFrom_cases s 0 with ⟨h0, hp⟩ | ⟨h0, hp⟩
      · rw [hp] at hpc1
        exact (OrchInv_waitFlag hpc1).mpr ⟨by rw [hN]; exact h0, fun j t hj _ => by omega⟩
      · rw [hp] at hpc1
        refine (OrchInv_present hpc1).mpr ?_
        intro j t hj
        rw [hw] at hj
        have := getElem?_lt_length hj
        omega
    · have ho' := (OrchInv_waitFlag hpc).mp ho
      have hflags : ∀ (j : Nat) (tj : WorkerThread), j < i + 1 → s1.workers[j]? = some tj →
          tj.w.m_PendingUpdates = true := by
        intro j tj hj htj
        rw [hw] at htj
        by_cases hji : j = i
        · subst hji
          rw [ht] at htj
          simp only [Option.some.injEq] at htj
          subst htj
          exact hf
        · exact ho'.2 j tj (by omega) htj
      rcases pauseFrom_cases s (i + 1) with ⟨h0, hp⟩ | ⟨h0, hp⟩
      · rw [hp] at hpc1
        exact (OrchInv_waitFlag hpc1).mpr ⟨by rw [hN]; exact h0, hflags⟩
      · rw [hp] at hpc1
        refine (OrchInv_present hpc1).mpr ?_
        intro j tj htj
        have hjl : j < s.workers.length := by
          rw [hw] at htj
          exact getElem?_lt_length htj
        exact hflags j tj (by omega) htj
    · have ho' := (OrchInv_present hpc).mp ho
      rcases resumeFrom_cases s 0 with ⟨h0, hp⟩ | ⟨h0, hp⟩
      · rw [hp] at hpc1
        refine (OrchInv_resume hpc1).mpr ⟨by rw [hN]; exact h0, fun j tj _ htj => ?_⟩
        rw [hw] at htj
        exact ho' j tj htj
      · rw [hp] at hpc1
        exact OrchInv_other (Or.inr (Or.inl hpc1))
    · exact OrchInv_other (Or.inr (Or.inr hpc1))
    · have ho' := (OrchInv_resume hpc).mp ho
      rcases resumeFrom_cases s (i + 1) with ⟨h0, hp⟩ | ⟨h0, hp⟩
      · rw [hp] at hpc1
        refine (OrchInv_resume hpc1).mpr ⟨by rw [hN]; exact h0, fun j tj hj htj => ?_⟩
        rw [hw] at htj
        obtain ⟨t0, ht0, hcase⟩ := Sys.clearFlag_at s i j tj htj
        rcases hcase with rfl | ⟨hji, _⟩
        · exact ho'.2 j tj (by omega) ht0
        · omega
      · rw [hp] at hpc1
        exact OrchInv_other (Or.inr (Or.inl hpc1))
    · exact OrchInv_other (Or.inl hpc1)
    · exact OrchInv_other (Or.inr (Or.inr hpc1))

theorem countP_set {α : Type} (p : α → Bool) (l : List α) (i : Nat) (a b : α)
    (h : l[i]? = some a) :
    (l.set i b).countP p + (if p a then 1 else 0) = l.countP p + (if p b then 1 else 0) := by
  induction l generalizing i with
  | nil => simp at h
  | cons x l ih =>
    cases i with
    | zero =>
      simp only [List.getElem?_cons_zero, Option.some.injEq] at h
      subst h
      simp only [List.set_cons_zero, List.countP_cons]
      omega
    | succ i =>
      simp only [List.getElem?_cons_succ] at h
      have := ih i h
      simp only [List.set_cons_succ, List.countP_cons]
      omega

/-- Every step keeps the counter equal to the number of threads that have
returned. -/
theorem counter_step {a : Action} {s s1 : Sys} (hlen : s.workers.length = s.numWorkers)
    (hN : s.numWorkers < 2 ^ 32) (hcnt : s.g_NumFinishedWorkers = s.numReturned)
    (h : s.step a = some s1) : s1.g_NumFinishedWorkers = s1.numReturned := by
  cases a with
  | worker i =>
    obtain ⟨t, t1, wrs, inc, ht, hstep, rfl⟩ := Sys.workerStep_spec h
    obtain ⟨hne, hcase⟩ := WorkerThread.step_inc hstep
    have hset := countP_set (fun t : WorkerThread => decide (t.pc = .finished)) s.workers i t t1 ht
    have hle : (s.workers.set i t1).countP (fun t : WorkerThread => decide (t.pc = .finished)) ≤
        (s.workers.set i t1).length := List.countP_le_length _
    rw [List.length_set] at hle
    have hp : decide (t.pc = .finished) = false := by simp [hne]
    simp only [hp] at hset
    show u32 (s.g_NumFinishedWorkers + inc) = _
    unfold Sys.numReturned at hcnt ⊢
    simp only
    rcases hcase with ⟨_, hfin, hinc⟩ | ⟨hnf, hinc⟩
    · have hp1 : decide (t1.pc = .finished) = true := by simp [hfin]
      simp only [hp1] at hset
      rw [u32_of_lt (by simp at hset; omega)]
      simp at hset
      omega
    · have hp1 : decide (t1.pc = .finished) = false := by simp [hnf]
      simp only [hp1] at hset
      rw [u32_of_lt (by simp at hset; omega)]
      simp at hset
      omega
  | key k p =>
    obtain ⟨hw, _, hc, _⟩ := Sys.keyStep_spec h
    unfold Sys.numReturned at hcnt ⊢
    rw [hw, hc, hcnt]
  | orch ext =>
    obtain ⟨_, hc, _, _, hcase⟩ := Sys.orchStep_spec h
    unfold Sys.numReturned at hcnt ⊢
    rw [hc, hcnt]
    rcases hcase with ⟨_, hw, _⟩ | ⟨i, t, _, _, _, hw, _⟩ | ⟨_, hw, _⟩ | ⟨i, hpc, hw, _⟩ |
      ⟨_, hw, _⟩
    · rw [hw]
    · rw [hw]
    · rw [hw]
    · rw [hw]
      unfold Sys.clearFlag
      split
      · rfl
      · rename_i t ht
        have hset := countP_set (fun t : WorkerThread => decide (t.pc = .finished)) s.workers i t
          { t with w := { t.w with m_PendingUpdates := false } } ht
        exact (Nat.add_right_cancel hset).symm
    · rw [hw]

/-! ### The entries of a worker and the target image -/

theorem Pixel.get_set (p : Pixel) (ch ch1 : Channel) (v : Byte) :
    (p.set ch v).get ch1 = if ch1 = ch then v else p.get ch1 := by
  cases ch <;> cases ch1 <;> simp [Pixel.set, Pixel.get]

theorem Pixel.ext_get (p q : Pixel) (h : ∀ ch, p.get ch = q.get ch) : p = q := by
  have h1 := h .red
  have h2 := h .green
  have h3 := h .blue
  have h4 := h .alpha
  cases p
  cases q
  simp only [Pixel.get] at h1 h2 h3 h4
  simp [h1, h2, h3, h4]

/-- What the unchanged part of worker thread `i` says: its region is the
`i`-th range of the partition, every entry of each of its lists addresses a
pixel of the region and carries the target byte of that pixel, and every
pixel of the region is addressed by an entry of each list. -/
theorem thread_facts (c : Setup) (hc : c.WF) (s : Sys) (hs : s.Static c) (i : Nat)
    (t : WorkerThread) (ht : s.workers[i]? = some t) :
    ∃ o n, (partition c.width c.height c.numWorkers)[i]? = some (o, n) ∧
      t.w.m_PixelCount = n ∧ t.w.m_pFrameBuffer = o ∧
      (∀ ch p, p ∈ t.w.chList ch →
        ∃ k, k < n ∧ t.w.addrOf p = o + k ∧ p.c = (c.image (o + k)).get ch) ∧
      (∀ ch k, k < n → ∃ p, p ∈ t.w.chList ch ∧ t.w.addrOf p = o + k) := by
  obtain ⟨w0, hw0, hst⟩ := hs.2.2.2 i t ht
  obtain ⟨o, n, hp, rfl⟩ := initWorkers_at c i w0 hw0
  have hwithin := partition_within c.width c.height c.numWorkers hc.1 hc.2.2.1 hc.2.2.2.1 i o n hp
  have hperm := fun ch => Init_writes_perm (c.gen i) c.image o n c.width c.height (c.shuffle i)
    hc.2.2.1 hc.2.2.2.1 (by omega) (hc.2.2.2.2 i) ch
  refine ⟨o, n, hp, hst.1, hst.2.2.1, ?_, ?_⟩
  · intro ch p hmem
    rw [hst.2.2.2 ch] at hmem
    have h1 : t.w.writeOf ch p ∈ targetWrites c.image o n ch := by
      rw [hst.writeOf ch p]
      exact (hperm ch).mem_iff.mp (List.mem_map_of_mem _ hmem)
    unfold targetWrites at h1
    obtain ⟨k, hk, hkeq⟩ := List.mem_map.mp h1
    have hk' := List.mem_range.mp hk
    simp only [Worker.writeOf, Write.mk.injEq] at hkeq
    exact ⟨k, hk', hkeq.1.symm, hkeq.2.2.symm⟩
  · intro ch k hk
    have h1 : ({ addr := o + k, ch := ch, val := (c.image (o + k)).get ch } : Write) ∈
        targetWrites c.image o n ch := by
      unfold targetWrites
      exact List.mem_map.mpr ⟨k, List.mem_range.mpr hk, rfl⟩
    have h2 := (hperm ch).mem_iff.mpr h1
    obtain ⟨p, hp1, hp2⟩ := List.mem_map.mp h2
    refine ⟨p, by rw [hst.2.2.2 ch]; exact hp1, ?_⟩
    have h3 : t.w.writeOf ch p = _ := (hst.writeOf ch p).trans hp2
    simp only [Worker.writeOf, Write.mk.injEq] at h3
    exact h3.1

theorem store_agree (image fb : FrameBuffer) (wr : Write)
    (htrue : wr.val = (image wr.addr).get wr.ch) (A : Nat) (ch : Channel)
    (h : (fb A).get ch = (image A).get ch ∨ (A = wr.addr ∧ ch = wr.ch)) :
    ((fb.store wr) A).get ch = (image A).get ch := by
  unfold FrameBuffer.store
  by_cases hA : A = wr.addr
  · rw [if_pos hA, Pixel.get_set]
    by_cases hch : ch = wr.ch
    · rw [if_pos hch, htrue, hA, hch]
    · rw [if_neg hch]
      rcases h with h | ⟨_, h⟩
      · exact h
      · exact (hch h).elim
  · rw [if_neg hA]
    rcases h with h | ⟨h, _⟩
    · exact h
    · exact (hA h).elim

theorem addrOf_static {w w1 : Worker} (hs : w.SameStatic w1) (p : TargetPixelComponent) :
    w1.addrOf p = w.addrOf p := by
  simp [Worker.addrOf, hs.2.1, hs.2.2.1]

theorem u32_le (n : Nat) : u32 n ≤ n := Nat.mod_le _ _

/-- Every step keeps the frame buffer equal to the target wherever an
entry has been consumed. -/
theorem Converged_step (c : Setup) (hc : c.WF) {a : Action} {s s1 : Sys} (hs : s.Static c)
    (hconv : s.Converged c) (h : s.step a = some s1) : s1.Converged c := by
  cases a with
  | worker i =>
    obtain ⟨t, t1, wrs, inc, ht, hstep, rfl⟩ := Sys.workerStep_spec h
    have hst := WorkerThread.step_static hstep
    obtain ⟨o, n, _, _, _, htruth, _⟩ := thread_facts c hc s hs i t ht
    intro j tj htj ch k p hk hp
    simp only [List.getElem?_set] at htj
    rcases WorkerThread.step_writes hstep with ⟨hwrs, hidx⟩ | ⟨chw, pw, hpw, hwrs, hi, ho, _⟩
    · subst hwrs
      show (s.fb (tj.w.addrOf p)).get ch = _
      split at htj
      · split at htj
        · simp only [Option.some.injEq] at htj
          subst htj
          rw [addrOf_static hst]
          rw [hidx ch] at hk
          rw [hst.2.2.2 ch] at hp
          exact hconv i t ht ch k p hk hp
        · cases htj
      · exact hconv j tj htj ch k p hk hp
    · subst hwrs
      have hpwmem : pw ∈ t.w.chList chw := List.mem_iff_getElem?.mpr ⟨_, hpw⟩
      obtain ⟨kw, _, haddr, hval⟩ := htruth chw pw hpwmem
      have htrue : (t.w.writeOf chw pw).val =
          (c.image (t.w.writeOf chw pw).addr).get (t.w.writeOf chw pw).ch := by
        show pw.c = (c.image (t.w.addrOf pw)).get chw
        rw [haddr, hval]
      show ((s.fb.store (t.w.writeOf chw pw)) (tj.w.addrOf p)).get ch = _
      apply store_agree c.image s.fb _ htrue
      split at htj
      · split at htj
        · simp only [Option.some.injEq] at htj
          subst htj
          rw [addrOf_static hst]
          rw [hst.2.2.2 ch] at hp
          by_cases hch : ch = chw
          · subst hch
            rw [hi] at hk
            have := u32_le (t.w.chIdx ch + 1)
            by_cases hkk : k < t.w.chIdx ch
            · exact Or.inl (hconv i t ht ch k p hkk hp)
            · have hkeq : k = t.w.chIdx ch := by omega
              subst hkeq
              rw [hpw] at hp
              simp only [Option.some.injEq] at hp
              subst hp
              exact Or.inr ⟨rfl, rfl⟩
          · rw [ho ch hch] at hk
            exact Or.inl (hconv i t ht ch k p hk hp)
        · cases htj
      · exact Or.inl (hconv j tj htj ch k p hk hp)
  | orch ext =>
    obtain ⟨hfb, _⟩ := Sys.orchStep_spec h
    obtain ⟨_, _, _, hw⟩ := Sys.step_workers h
    intro j tj htj ch k p hk hp
    rw [hfb]
    obtain ⟨t, ht, hcase⟩ := hw j tj htj
    rcases hcase with rfl | ⟨_, _, habs, _⟩ | ⟨_, _, rfl⟩
    · exact hconv j tj ht ch k p hk hp
    · cases habs
    · have hst := static_setFlag t.w false
      rw [chIdx_setFlag] at hk
      rw [chList_setFlag] at hp
      have := hconv j t ht ch k p hk hp
      rw [addrOf_static hst]
      exact this
  | key k0 p0 =>
    obtain ⟨hw, hfb, _⟩ := Sys.keyStep_spec h
    intro j tj htj ch k p hk hp
    rw [hfb]
    rw [hw] at htj
    exact hconv j tj htj ch k p hk hp

/-- Every step keeps the invariant of the process. -/
theorem Inv_step (c : Setup) (hc : c.WF) {a : Action} {s s1 : Sys} (hinv : s.Inv c)
    (h : s.step a = some s1) : s1.Inv c := by
  obtain ⟨hs, hth, ho, hcnt, hconv⟩ := hinv
  have hlen : s.workers.length = s.numWorkers := by rw [hs.1, hs.2.2.1]
  exact ⟨Static_step c hs h, threads_step hth h, OrchInv_step hlen hth ho h,
    counter_step hlen (by rw [hs.1]; exact hc.2.1) hcnt h, Converged_step c hc hs hconv h⟩

theorem exec_induct (P : Sys → Prop) (hstep : ∀ s a s1, P s → s.step a = some s1 → P s1) :
    ∀ (as : List Action) (s : Sys), P s → P (s.exec as) := by
  intro as
  induction as with
  | nil => intro s hs; exact hs
  | cons a as ih =>
    intro s hs
    unfold Sys.exec
    apply ih
    cases hst : s.step a with
    | none => simpa using hs
    | some s1 => simpa using hstep s a s1 hs hst

/-- The invariant holds in every reachable state. -/
theorem Inv_reachable (c : Setup) (hc : c.WF) (s : Sys) (hr : c.Reachable s) : s.Inv c := by
  obtain ⟨as, rfl⟩ := hr
  exact exec_induct (fun s => s.Inv c) (fun _ _ _ hinv h => Inv_step c hc hinv h) as c.start
    (Inv_start c hc)

/-! ### The scenario -/

theorem scenario_WF : scenario.WF :=
  ⟨by decide, by decide, by decide, by decide, fun _ _ l => List.reverse_perm l⟩

/-! ### Completion -/

theorem all_finished_counter (s : Sys) (hlen : s.workers.length = s.numWorkers)
    (hcnt : s.g_NumFinishedWorkers = s.numReturned) :
    s.g_NumFinishedWorkers = s.numWorkers ↔ ∀ t ∈ s.workers, t.pc = .finished := by
  rw [hcnt, ← hlen]
  unfold Sys.numReturned
  rw [List.countP_eq_length]
  constructor
  · intro h t ht
    simpa using h t ht
  · intro h t ht
    simpa using h t ht

/-- C2: for every setup `main` can reach line 404 with (at least one
worker, a canvas of at most 4096 x 4096, any target image, batch size,
shuffles and scripts) and every reachable state of the process in which
every worker's `Run` has returned, the frame buffer equals the target image
in all four channels of every pixel of the canvas, and the finished-worker
counter equals the worker count. -/
theorem completion_frame_buffer (c : Setup) (hc : c.WF) (s : Sys) (hr : c.Reachable s)
    (hfin : ∀ t ∈ s.workers, t.pc = .finished) :
    (∀ p, p < c.width * c.height → s.fb p = c.image p) ∧
      s.g_NumFinishedWorkers = s.numWorkers := by
  obtain ⟨hs, hth, _, hcnt, hconv⟩ := Inv_reachable c hc s hr
  have hlen : s.workers.length = s.numWorkers := by rw [hs.1, hs.2.2.1]
  refine ⟨?_, (all_finished_counter s hlen hcnt).mpr hfin⟩
  intro p hp
  obtain ⟨i, o, n, hpart, hop, hpn⟩ :=
    partition_owner c.width c.height c.numWorkers hc.1 hc.2.2.1 hc.2.2.2.1 p hp
  have hi : i < s.workers.length := by
    rw [hs.2.2.1]
    exact (partition_entry c.width c.height c.numWorkers hc.1 hc.2.2.1 hc.2.2.2.1 i o n hpart).1
  have ht := List.getElem?_eq_getElem hi
  obtain ⟨o1, n1, hpart1, hcount, _, _, hcover⟩ := thread_facts c hc s hs i _ ht
  rw [hpart] at hpart1
  simp only [Option.some.injEq, Prod.mk.injEq] at hpart1
  obtain ⟨rfl, rfl⟩ := hpart1
  apply Pixel.ext_get
  intro ch
  obtain ⟨q, hq, haddr⟩ := hcover ch (p - o) (by omega)
  obtain ⟨m, hm⟩ := List.mem_iff_getElem?.mp hq
  have hmlt := getElem?_lt_length hm
  have hinv := hth i _ ht
  have hidx := hinv.2.2.1 (Or.inr (hfin _ (List.getElem?_mem ht))) ch
  have hlenl := hinv.1.2.1 ch
  have := hconv i _ ht ch m q (by omega) hm
  rw [haddr] at this
  have hpo : o + (p - o) = p := by omega
  rw [hpo] at this
  exact this

set_option maxRecDepth 100000 in
/-- The scenario (batch size 1, 2 x 1 canvas, pixels (10,20,30,40) and
(1,2,3,4), the scripted byte stream) after its schedule. -/
theorem completion_frame_buffer_witness :
    (∀ t ∈ (scenario.start.exec scenarioSchedule).workers, t.pc = .finished) ∧
    (∀ p, p < scenario.width * scenario.height →
      (scenario.start.exec scenarioSchedule).fb p = scenario.image p) ∧
    (scenario.start.exec scenarioSchedule).g_NumFinishedWorkers =
      (scenario.start.exec scenarioSchedule).numWorkers :=
  ⟨by decide,
    completion_frame_buffer scenario scenario_WF (scenario.start.exec scenarioSchedule)
      ⟨scenarioSchedule, rfl⟩ (by decide)⟩

/-! ### The finished-worker counter -/

set_option maxRecDepth 100000 in
/-- C5 as stated fails: in the scenario, when the worker has left its loop
after its second turn and stands before `g_NumFinishedWorkers++`, all four
cursors equal `m_PixelCount` while the counter is 0 and the worker count 1. -/
theorem counter_iff_cursors_fails :
    ¬ ((scenario.start.exec scenarioToLeaving).g_NumFinishedWorkers =
        (scenario.start.exec scenarioToLeaving).numWorkers ↔
      ∀ t ∈ (scenario.start.exec scenarioToLeaving).workers,
        t.w.m_RedChIdx = t.w.m_PixelCount ∧ t.w.m_GreenChIdx = t.w.m_PixelCount ∧
          t.w.m_BlueChIdx = t.w.m_PixelCount ∧ t.w.m_AlphaChIdx = t.w.m_PixelCount) := by
  decide

/-- C5, amended: in every reachable state the finished-worker counter is
the number of workers whose `Run` has returned; it equals the worker count
exactly when every worker has returned, and then all four cursors of every
worker equal its `m_PixelCount`; a step changes the counter only by the
increment of a worker passing from the end of its loop to returned. -/
theorem counter_counts_returned (c : Setup) (hc : c.WF) (s : Sys) (hr : c.Reachable s) :
    s.g_NumFinishedWorkers = s.numReturned ∧
    (s.g_NumFinishedWorkers = s.numWorkers ↔ ∀ t ∈ s.workers, t.pc = .finished) ∧
    (s.g_NumFinishedWorkers = s.numWorkers →
      ∀ t ∈ s.workers, ∀ ch, t.w.chIdx ch = t.w.m_PixelCount) ∧
    (∀ a s1, s.step a = some s1 →
      s1.g_NumFinishedWorkers = s.g_NumFinishedWorkers ∨
      (s1.g_NumFinishedWorkers = s.g_NumFinishedWorkers + 1 ∧
        ∃ i t t1, a = .worker i ∧ s.workers[i]? = some t ∧ s1.workers[i]? = some t1 ∧
          t.pc = .leaving ∧ t1.pc = .finished)) := by
  obtain ⟨hs, hth, _, hcnt, _⟩ := Inv_reachable c hc s hr
  have hlen : s.workers.length = s.numWorkers := by rw [hs.1, hs.2.2.1]
  have hiff := all_finished_counter s hlen hcnt
  refine ⟨hcnt, hiff, ?_, ?_⟩
  · intro h t ht ch
    obtain ⟨i, hi⟩ := List.mem_iff_getElem?.mp ht
    exact (hth i t hi).2.2.1 (Or.inr (hiff.mp h t ht)) ch
  · intro a s1 hstep
    cases a with
    | worker i =>
      obtain ⟨t, t1, wrs, inc, ht, hst, hs1⟩ := Sys.workerStep_spec hstep
      obtain ⟨_, hcase⟩ := WorkerThread.step_inc hst
      have hcnt1 := counter_step hlen (by rw [hs.1]; exact hc.2.1) hcnt hstep
      have ht1 : s1.workers[i]? = some t1 := by
        rw [hs1]
        simp [List.getElem?_set, getElem?_lt_length ht]
      have hset := countP_set (fun t : WorkerThread => decide (t.pc = .finished))
        s.workers i t t1 ht
      have hw1 : s1.workers = s.workers.set i t1 := by rw [hs1]
      rw [hcnt1, hcnt]
      unfold Sys.numReturned
      rw [hw1]
      rcases hcase with ⟨hl, hf, _⟩ | ⟨hnf, _⟩
      · right
        have hp : decide (t.pc = .finished) = false := by simp [hl]
        have hp1 : decide (t1.pc = .finished) = true := by simp [hf]
        simp only [hp, hp1] at hset
        simp at hset
        exact ⟨hset, i, t, t1, rfl, ht, by rw [← hw1]; exact ht1, hl, hf⟩
      · left
        have hne := (WorkerThread.step_inc hst).1
        have hp : decide (t.pc = .finished) = false := by simp [hne]
        have hp1 : decide (t1.pc = .finished) = false := by simp [hnf]
        simp only [hp, hp1] at hset
        simpa using hset
    | orch ext =>
      exact Or.inl (Sys.orchStep_spec hstep).2.1
    | key k p =>
      exact Or.inl (Sys.keyStep_spec hstep).2.2.1

set_option maxRecDepth 100000 in
/-- The scenario after its schedule: the counter is 1, the worker has returned. -/
theorem counter_counts_returned_witness :
    (scenario.start.exec scenarioSchedule).g_NumFinishedWorkers = 1 ∧
    ((scenario.start.exec scenarioSchedule).g_NumFinishedWorkers =
        (scenario.start.exec scenarioSchedule).numReturned ∧
      ((scenario.start.exec scenarioSchedule).g_NumFinishedWorkers =
          (scenario.start.exec scenarioSchedule).numWorkers ↔
        ∀ t ∈ (scenario.start.exec scenarioSchedule).workers, t.pc = .finished) ∧
      ((scenario.start.exec scenarioSchedule).g_NumFinishedWorkers =
          (scenario.start.exec scenarioSchedule).numWorkers →
        ∀ t ∈ (scenario.start.exec scenarioSchedule).workers, ∀ ch,
          t.w.chIdx ch = t.w.m_PixelCount) ∧
      (∀ a s1, (scenario.start.exec scenarioSchedule).step a = some s1 →
        s1.g_NumFinishedWorkers = (scenario.start.exec scenarioSchedule).g_NumFinishedWorkers ∨
        (s1.g_NumFinishedWorkers =
            (scenario.start.exec scenarioSchedule).g_NumFinishedWorkers + 1 ∧
          ∃ i t t1, a = .worker i ∧
            (scenario.start.exec scenarioSchedule).workers[i]? = some t ∧
            s1.workers[i]? = some t1 ∧ t.pc = .leaving ∧ t1.pc = .finished))) :=
  ⟨by decide,
    counter_counts_returned scenario scenario_WF (scenario.start.exec scenarioSchedule)
      ⟨scenarioSchedule, rfl⟩⟩

/-! ### Cursors -/

/-- C6: in every reachable state of the process (the threads started on
`Init`-ed workers and advanced by steps of `Run`), each of the four cursors
of each worker is at most `m_PixelCount`; the cursors start at 0, and no
step decreases a cursor or changes `m_PixelCount`. -/
theorem cursor_monotone (c : Setup) (hc : c.WF) (s : Sys) (hr : c.Reachable s) :
    (∀ t ∈ c.start.workers, ∀ ch, t.w.chIdx ch = 0) ∧
    (∀ t ∈ s.workers, ∀ ch, t.w.chIdx ch ≤ t.w.m_PixelCount) ∧
    (∀ a s1, s.step a = some s1 → ∀ (i : Nat) (t t1 : WorkerThread), s.workers[i]? = some t →
      s1.workers[i]? = some t1 →
      (∀ ch, t.w.chIdx ch ≤ t1.w.chIdx ch) ∧ t1.w.m_PixelCount = t.w.m_PixelCount) := by
  obtain ⟨_, hth, _, _, _⟩ := Inv_reachable c hc s hr
  refine ⟨?_, ?_, ?_⟩
  · intro t ht ch
    obtain ⟨i, hi⟩ := List.mem_iff_getElem?.mp ht
    exact initWorkers_chIdx c i t.w (start_workers_at c i t hi).2 ch
  · intro t ht ch
    obtain ⟨i, hi⟩ := List.mem_iff_getElem?.mp ht
    exact (hth i t hi).1.2.2 ch
  · intro a s1 hstep i t t1 ht ht1
    obtain ⟨_, _, _, hw⟩ := Sys.step_workers hstep
    obtain ⟨t0, ht0, hcase⟩ := hw i t1 ht1
    rw [ht] at ht0
    simp only [Option.some.injEq] at ht0
    subst ht0
    rcases hcase with rfl | ⟨wrs, inc, _, hst⟩ | ⟨_, _, rfl⟩
    · exact ⟨fun _ => Nat.le_refl _, rfl⟩
    · exact ⟨fun ch => WorkerThread.step_mono (hth i t ht) hst ch,
        (WorkerThread.step_static hst).1⟩
    · exact ⟨fun ch => Nat.le_of_eq (chIdx_setFlag t.w false ch).symm, rfl⟩

/-- The scenario in the middle of the first turn of its worker. -/
theorem cursor_monotone_witness :
    (∀ t ∈ scenario.start.workers, ∀ ch, t.w.chIdx ch = 0) ∧
    (∀ t ∈ (scenario.start.exec [.worker 0, .worker 0, .worker 0]).workers, ∀ ch,
      t.w.chIdx ch ≤ t.w.m_PixelCount) ∧
    (∀ a s1, (scenario.start.exec [.worker 0, .worker 0, .worker 0]).step a = some s1 →
      ∀ (i : Nat) (t t1 : WorkerThread),
      (scenario.start.exec [.worker 0, .worker 0, .worker 0]).workers[i]? = some t →
      s1.workers[i]? = some t1 →
      (∀ ch, t.w.chIdx ch ≤ t1.w.chIdx ch) ∧ t1.w.m_PixelCount = t.w.m_PixelCount) :=
  cursor_monotone scenario scenario_WF (scenario.start.exec [.worker 0, .worker 0, .worker 0])
    ⟨[.worker 0, .worker 0, .worker 0], rfl⟩

/-! ### The barrier -/

/-- C9: in every reachable state of the process, (1) when the control
thread stands at `mfb_update` every worker's flag is set, no worker is
inside the converging part of a turn, and no step possible there changes
the frame buffer; (2) a step of a worker whose flag is set assigns nothing
to the frame buffer and leaves the flag set; (3) a set flag is cleared only
by the control thread, in its resume phase, at that worker's index. -/
theorem barrier_safety (c : Setup) (hc : c.WF) (s : Sys) (hr : c.Reachable s) :
    (s.orch = .present →
      (∀ t ∈ s.workers, t.w.m_PendingUpdates = true ∧
        (t.pc = .awaitingTurn ∨ t.pc = .loopTest ∨ t.pc = .leaving ∨ t.pc = .finished)) ∧
      ∀ a s1, s.step a = some s1 → s1.fb = s.fb) ∧
    (∀ i t s1, s.workers[i]? = some t → t.w.m_PendingUpdates = true →
      s.step (.worker i) = some s1 →
      s1.fb = s.fb ∧ ∃ t1, s1.workers[i]? = some t1 ∧ t1.w.m_PendingUpdates = true) ∧
    (∀ a s1 i t t1, s.step a = some s1 → s.workers[i]? = some t → s1.workers[i]? = some t1 →
      t.w.m_PendingUpdates = true → t1.w.m_PendingUpdates = false →
      (∃ ext, a = .orch ext) ∧ s.orch = .resume i) := by
  obtain ⟨_, hth, ho, _, _⟩ := Inv_reachable c hc s hr
  have hworker : ∀ i t s1, s.workers[i]? = some t → t.w.m_PendingUpdates = true →
      s.step (.worker i) = some s1 →
      s1.fb = s.fb ∧ ∃ t1, s1.workers[i]? = some t1 ∧ t1.w.m_PendingUpdates = true := by
    intro i t s1 ht hf hstep
    obtain ⟨t0, t1, wrs, inc, ht0, hst, rfl⟩ := Sys.workerStep_spec hstep
    rw [ht] at ht0
    simp only [Option.some.injEq] at ht0
    subst ht0
    obtain ⟨hf1, hwrs⟩ := WorkerThread.step_flag (hth i t ht) hst hf
    subst hwrs
    exact ⟨rfl, t1, by simp [List.getElem?_set, getElem?_lt_length ht], hf1⟩
  refine ⟨?_, hworker, ?_⟩
  · intro hpc
    have hall := (OrchInv_present hpc).mp ho
    refine ⟨?_, ?_⟩
    · intro t ht
      obtain ⟨i, hi⟩ := List.mem_iff_getElem?.mp ht
      have hf := hall i t hi
      exact ⟨hf, (hth i t hi).2.2.2 hf⟩
    · intro a s1 hstep
      cases a with
      | worker i =>
        obtain ⟨t, _, _, _, ht, _, _⟩ := Sys.workerStep_spec hstep
        exact (hworker i t s1 ht (hall i t ht) hstep).1
      | orch ext => exact (Sys.orchStep_spec hstep).1
      | key k p => exact (Sys.keyStep_spec hstep).2.1
  · intro a s1 i t t1 hstep ht ht1 hf hf1
    obtain ⟨_, _, _, hw⟩ := Sys.step_workers hstep
    obtain ⟨t0, ht0, hcase⟩ := hw i t1 ht1
    rw [ht] at ht0
    simp only [Option.some.injEq] at ht0
    subst ht0
    rcases hcase with rfl | ⟨wrs, inc, _, hst⟩ | ⟨hext, hpc, _⟩
    · rw [hf] at hf1; cases hf1
    · have := (WorkerThread.step_flag (hth i t ht) hst hf).1
      rw [this] at hf1; cases hf1
    · exact ⟨hext, hpc⟩

set_option maxRecDepth 100000 in
/-- The scenario when the control thread stands at `mfb_update` after the
first turn of the worker. -/
theorem barrier_safety_witness :
    (scenario.start.exec scenarioToPresent).orch =
      .present ∧
    (((scenario.start.exec scenarioToPresent).orch =
        .present →
      (∀ t ∈ (scenario.start.exec scenarioToPresent).workers,
        t.w.m_PendingUpdates = true ∧
        (t.pc = .awaitingTurn ∨ t.pc = .loopTest ∨ t.pc = .leaving ∨ t.pc = .finished)) ∧
      ∀ a s1, (scenario.start.exec scenarioToPresent).step a = some s1 →
        s1.fb = (scenario.start.exec scenarioToPresent).fb) ∧
    (∀ i t s1, (scenario.start.exec scenarioToPresent).workers[i]? = some t →
      t.w.m_PendingUpdates = true →
      (scenario.start.exec scenarioToPresent).step (.worker i) =
        some s1 →
      s1.fb = (scenario.start.exec scenarioToPresent).fb ∧
      ∃ t1, s1.workers[i]? = some t1 ∧ t1.w.m_PendingUpdates = true) ∧
    (∀ a s1 i t t1, (scenario.start.exec scenarioToPresent).step a = some s1 →
      (scenario.start.exec scenarioToPresent).workers[i]? = some t →
      s1.workers[i]? = some t1 →
      t.w.m_PendingUpdates = true → t1.w.m_PendingUpdates = false →
      (∃ ext, a = .orch ext) ∧
      (scenario.start.exec scenarioToPresent).orch = .resume i)) :=
  ⟨rfl,
    barrier_safety scenario scenario_WF
      (scenario.start.exec scenarioToPresent)
      ⟨scenarioToPresent, rfl⟩⟩

/-! ### Frame-buffer writes stay in the worker's range -/

/-- The assignment of a step of worker thread `i` is that of an entry
`p` of one of its lists, at offset `p.y * m_FbStride + p.x` of its region,
and the offset is below its pixel count. -/
theorem step_write_range (c : Setup) (hc : c.WF) (s : Sys) (hr : c.Reachable s) (i : Nat)
    (t t1 : WorkerThread) (wrs : List Write) (inc : Nat) (wr : Write)
    (ht : s.workers[i]? = some t) (hstep : t.step s.stepSizeInPixels = some (t1, wrs, inc))
    (hwr : wr ∈ wrs) :
    ∃ o n k, (partition c.width c.height c.numWorkers)[i]? = some (o, n) ∧
      t.w.m_pFrameBuffer = o ∧ t.w.m_PixelCount = n ∧ k < n ∧ wr.addr = o + k ∧
      ∃ p : TargetPixelComponent, u32 (p.y * t.w.m_FbStride + p.x) = k ∧
        wr.addr = t.w.m_pFrameBuffer + u32 (p.y * t.w.m_FbStride + p.x) := by
  obtain ⟨hs, _, _, _, _⟩ := Inv_reachable c hc s hr
  obtain ⟨o, n, hpart, hcount, hbase, hentries, _⟩ := thread_facts c hc s hs i t ht
  rcases WorkerThread.step_writes hstep with ⟨hwrs, _⟩ | ⟨ch, p, hp, hwrs, _⟩
  · rw [hwrs] at hwr; cases hwr
  · rw [hwrs] at hwr
    simp only [List.mem_singleton] at hwr
    subst hwr
    obtain ⟨k, hk, haddr, _⟩ := hentries ch p (List.getElem?_mem hp)
    refine ⟨o, n, k, hpart, hbase, hcount, hk, haddr, p, ?_, rfl⟩
    have h1 : t.w.m_pFrameBuffer + u32 (p.y * t.w.m_FbStride + p.x) = o + k := haddr
    omega

/-- C4: in every reachable state, an assignment to the frame buffer made
by a step of worker `i` is at offset `y * m_FbStride + x < m_PixelCount`
from the worker's base, that is inside the `i`-th range
`[offset_i, offset_i + count_i)` of the partition and inside the canvas
`[0, W * H)`; and it never hits a location that a step of another worker
assigns in any reachable state. -/
theorem writes_in_own_range (c : Setup) (hc : c.WF) (s : Sys) (hr : c.Reachable s) (i : Nat)
    (t t1 : WorkerThread) (wrs : List Write) (inc : Nat) (wr : Write)
    (ht : s.workers[i]? = some t) (hstep : t.step s.stepSizeInPixels = some (t1, wrs, inc))
    (hwr : wr ∈ wrs) :
    (∃ o n, (partition c.width c.height c.numWorkers)[i]? = some (o, n) ∧
      t.w.m_pFrameBuffer = o ∧ t.w.m_PixelCount = n ∧
      (∃ p : TargetPixelComponent,
        wr.addr = t.w.m_pFrameBuffer + u32 (p.y * t.w.m_FbStride + p.x) ∧
        u32 (p.y * t.w.m_FbStride + p.x) < t.w.m_PixelCount) ∧
      o ≤ wr.addr ∧ wr.addr < o + n ∧ wr.addr < c.width * c.height) ∧
    (∀ (s2 : Sys) (j : Nat) (tj tj1 : WorkerThread) (wrs2 : List Write) (inc2 : Nat)
      (wr2 : Write), c.Reachable s2 → j ≠ i → s2.workers[j]? = some tj →
      tj.step s2.stepSizeInPixels = some (tj1, wrs2, inc2) → wr2 ∈ wrs2 →
      wr2.addr ≠ wr.addr) := by
  obtain ⟨o, n, k, hpart, hbase, hcount, hk, haddr, p, hpk, hpaddr⟩ :=
    step_write_range c hc s hr i t t1 wrs inc wr ht hstep hwr
  have hwithin := partition_within c.width c.height c.numWorkers hc.1 hc.2.2.1 hc.2.2.2.1
    i o n hpart
  refine ⟨⟨o, n, hpart, hbase, hcount, ⟨p, hpaddr, by rw [hpk, hcount]; exact hk⟩,
    by omega, by omega, by omega⟩, ?_⟩
  intro s2 j tj tj1 wrs2 inc2 wr2 hr2 hji htj hstep2 hwr2 heq
  obtain ⟨o2, n2, k2, hpart2, _, _, hk2, haddr2, _⟩ :=
    step_write_range c hc s2 hr2 j tj tj1 wrs2 inc2 wr2 htj hstep2 hwr2
  rcases Nat.lt_or_gt_of_ne hji with hlt | hgt
  · exact partition_disjoint_lt c.width c.height c.numWorkers hc.1 hc.2.2.1 hc.2.2.2.1
      j i o2 n2 o n wr.addr hlt hpart2 hpart (by omega) (by omega)
  · exact partition_disjoint_lt c.width c.height c.numWorkers hc.1 hc.2.2.1 hc.2.2.2.1
      i j o n o2 n2 wr.addr hgt hpart hpart2 (by omega) (by omega)

set_option maxRecDepth 100000 in
/-- The first assignment of the scenario: the worker, at the red loop with
one iteration to go, assigns red byte 1 to pixel 1. -/
theorem writes_in_own_range_witness :
    (∃ o n, (partition scenario.width scenario.height scenario.numWorkers)[0]? = some (o, n) ∧
      scenarioWorker.m_pFrameBuffer = o ∧ scenarioWorker.m_PixelCount = n ∧
      (∃ p : TargetPixelComponent,
        (1 : Nat) = scenarioWorker.m_pFrameBuffer + u32 (p.y * scenarioWorker.m_FbStride + p.x) ∧
        u32 (p.y * scenarioWorker.m_FbStride + p.x) < scenarioWorker.m_PixelCount) ∧
      o ≤ 1 ∧ 1 < o + n ∧ 1 < scenario.width * scenario.height) ∧
    (∀ (s2 : Sys) (j : Nat) (tj tj1 : WorkerThread) (wrs2 : List Write) (inc2 : Nat)
      (wr2 : Write), scenario.Reachable s2 → j ≠ 0 → s2.workers[j]? = some tj →
      tj.step s2.stepSizeInPixels = some (tj1, wrs2, inc2) → wr2 ∈ wrs2 →
      wr2.addr ≠ 1) :=
  writes_in_own_range scenario scenario_WF (scenario.start.exec [.worker 0, .worker 0])
    ⟨[.worker 0, .worker 0], rfl⟩ 0
    { w := scenarioWorker, pc := .channelBody .red 1 }
    { w := { scenarioWorker with m_RedChIdx := 1, gen := [2, 9, 9, 3, 4, 10, 0, 20, 30, 255, 40] },
      pc := .channelBody .red 0 }
    [{ addr := 1, ch := .red, val := 1 }] 0 { addr := 1, ch := .red, val := 1 }
    rfl rfl (List.mem_singleton.mpr rfl)

/-! ### A blocked control thread -/

theorem exec_append (s : Sys) (as bs : List Action) :
    s.exec (as ++ bs) = (s.exec as).exec bs := by
  induction as generalizing s with
  | nil => rfl
  | cons a as ih =>
    simp only [List.cons_append, Sys.exec]
    exact ih _

theorem Reachable_exec (c : Setup) (s : Sys) (hr : c.Reachable s) (as : List Action) :
    c.Reachable (s.exec as) := by
  obtain ⟨bs, rfl⟩ := hr
  exact ⟨bs ++ as, exec_append _ _ _⟩

/-- No step leads out of a stuck state: the control thread is blocked at
`wait(false)` on a flag nobody will set, the returned worker takes no step,
and the waiting worker is blocked at `wait(true)` on a flag only the
control thread clears. -/
theorem Stuck_step {a : Action} {s s1 : Sys} {i j : Nat} (hst : s.Stuck i j)
    (h : s.step a = some s1) : s1.Stuck i j := by
  obtain ⟨horch, ⟨ti, hti, hpci, hfi⟩, ⟨tj, htj, hpcj, hfj, hwork⟩⟩ := hst
  cases a with
  | worker k =>
    obtain ⟨t, t1, wrs, inc, ht, hstep, rfl⟩ := Sys.workerStep_spec h
    have hki : k ≠ i := by
      intro hk
      subst hk
      rw [hti] at ht
      simp only [Option.some.injEq] at ht
      subst ht
      exact (WorkerThread.step_inc hstep).1 hpci
    have hkj : k ≠ j := by
      intro hk
      subst hk
      rw [htj] at ht
      simp only [Option.some.injEq] at ht
      subst ht
      unfold WorkerThread.step at hstep
      rw [hpcj] at hstep
      simp [hfj] at hstep
    refine ⟨horch, ⟨ti, ?_, hpci, hfi⟩, ⟨tj, ?_, hpcj, hfj, hwork⟩⟩
    · show (s.workers.set k t1)[i]? = some ti
      rw [List.getElem?_set, if_neg hki]
      exact hti
    · show (s.workers.set k t1)[j]? = some tj
      rw [List.getElem?_set, if_neg hkj]
      exact htj
  | orch ext =>
    obtain ⟨_, _, _, _, hc⟩ := Sys.orchStep_spec h
    rcases hc with ⟨hpc, _⟩ | ⟨i1, t, hpc, ht, hf, _⟩ | ⟨hpc, _⟩ | ⟨i1, hpc, _⟩ | ⟨hpc, _⟩
    · rw [horch] at hpc; cases hpc
    · rw [horch] at hpc
      injection hpc with hii
      subst hii
      rw [hti] at ht
      simp only [Option.some.injEq] at ht
      subst ht
      rw [hfi] at hf
      cases hf
    · rw [horch] at hpc; cases hpc
    · rw [horch] at hpc; cases hpc
    · rw [horch] at hpc; cases hpc
  | key k p =>
    unfold Sys.step Sys.keyStep at h
    simp [horch] at h

theorem Stuck_forever (s : Sys) (i j : Nat) (hst : s.Stuck i j) (as : List Action) :
    (s.exec as).Stuck i j :=
  exec_induct (fun s => s.Stuck i j) (fun _ _ _ hs h => Stuck_step hs h) as s hst

theorem stuckSetup_WF : stuckSetup.WF :=
  ⟨by decide, by decide, by decide, by decide, fun _ _ l => List.Perm.refl l⟩

set_option maxRecDepth 100000 in
theorem stuckState_Stuck : stuckState.Stuck 0 3 :=
  ⟨rfl, ⟨_, rfl, rfl, rfl⟩, ⟨_, rfl, rfl, rfl, by decide⟩⟩

set_option maxRecDepth 100000 in
/-- C10 fails on the code: on `RI image -n 4 -w 3 -h 1 -p 1` (pixel counts
0, 0, 0, 3) the process reaches, neither paused nor exiting, a state in
which the control thread waits in its pause phase on the flag of worker 0,
which has returned with its flag clear, while worker 3 waits in
`AwaitingTurn` with a pixel left; and whatever is scheduled from there,
the control thread stays at that wait, worker 3 stays in `AwaitingTurn`,
and the finished-worker counter never reaches the worker count. -/
theorem orchestrator_blocked_forever :
    stuckState.Stuck 0 3 ∧ stuckState.renderPaused = false ∧ stuckState.renderExit = false ∧
    ∀ as, (stuckState.exec as).Stuck 0 3 ∧
      (stuckState.exec as).g_NumFinishedWorkers ≠ (stuckState.exec as).numWorkers := by
  refine ⟨stuckState_Stuck, rfl, rfl, fun as => ?_⟩
  have hst := Stuck_forever stuckState 0 3 stuckState_Stuck as
  refine ⟨hst, fun hcnt => ?_⟩
  have hr : stuckSetup.Reachable (stuckState.exec as) :=
    Reachable_exec stuckSetup stuckState ⟨stuckSchedule, rfl⟩ as
  obtain ⟨hs, _, _, hc, _⟩ := Inv_reachable stuckSetup stuckSetup_WF _ hr
  have hlen : (stuckState.exec as).workers.length = (stuckState.exec as).numWorkers := by
    rw [hs.1, hs.2.2.1]
  obtain ⟨_, _, ⟨tj, htj, hpcj, _⟩⟩ := hst
  have := (all_finished_counter _ hlen hc).mp hcnt tj (List.getElem?_mem htj)
  rw [hpcj] at this
  cases this

/-! ### Pause -/

theorem orchStep_paused {ext : Bool} {s s1 : Sys} (hq : s.Paused)
    (h : s.orchStep ext = some s1) :
    s1.Paused ∧ s1.workers = s.workers ∧ s1.fb = s.fb := by
  obtain ⟨hp, ho⟩ := hq
  unfold Sys.orchStep at h
  rcases ho with ho | ho | ho
  · rw [ho] at h
    simp only [hp, Bool.not_true, Bool.false_eq_true, if_false] at h
    split at h
    · simp only [Option.some.injEq] at h
      subst h
      exact ⟨⟨rfl, Or.inr (Or.inl rfl)⟩, rfl, rfl⟩
    · simp only [Option.some.injEq] at h
      subst h
      exact ⟨⟨rfl, Or.inr (Or.inl rfl)⟩, rfl, rfl⟩
  · rw [ho] at h
    simp only at h
    split at h
    · simp only [Option.some.injEq] at h
      subst h
      exact ⟨⟨hp, Or.inl rfl⟩, rfl, rfl⟩
    · simp only [Option.some.injEq] at h
      subst h
      exact ⟨⟨hp, Or.inr (Or.inr rfl)⟩, rfl, rfl⟩
  · rw [ho] at h
    cases h

theorem keyStep_paused {k : Key} {p : Bool} {s s1 : Sys} (hq : s.Paused)
    (hk : Action.key k p ≠ Action.key .space true) (h : s.keyStep k p = some s1) :
    s1.Paused ∧ s1.workers = s.workers ∧ s1.fb = s.fb := by
  obtain ⟨hw, hfb, _, horch, _, _⟩ := Sys.keyStep_spec h
  refine ⟨⟨?_, by rw [horch]; exact hq.2⟩, hw, hfb⟩
  unfold Sys.keyStep at h
  split at h
  · split at h
    · rename_i hpress
      split at h
      · rename_i hspace
        exact (hk (by rw [hspace, hpress])).elim
      · split at h
        · simp only [Option.some.injEq] at h
          subst h
          exact hq.1
        · simp only [Option.some.injEq] at h
          subst h
          exact hq.1
    · simp only [Option.some.injEq] at h
      subst h
      exact hq.1
  · cases h

/-- One step while the barrier cycle is skipped and the pause is not
lifted: the cycle stays skipped, a worker whose flag is set keeps its flag
and its cursors, and when every flag is set the frame buffer is unchanged. -/
theorem paused_step {a : Action} {s s1 : Sys}
    (hth : ∀ (j : Nat) (t : WorkerThread), s.workers[j]? = some t → t.Inv) (hq : s.Paused)
    (ha : a ≠ .key .space true) (h : s.step a = some s1) :
    s1.Paused ∧
    (∀ (i : Nat) (t : WorkerThread), s.workers[i]? = some t → t.w.m_PendingUpdates = true →
      ∃ t1, s1.workers[i]? = some t1 ∧ t1.w.m_PendingUpdates = true ∧
        ∀ ch, t1.w.chIdx ch = t.w.chIdx ch) ∧
    ((∀ (j : Nat) (t : WorkerThread), s.workers[j]? = some t → t.w.m_PendingUpdates = true) →
      s1.fb = s.fb) := by
  cases a with
  | worker k =>
    obtain ⟨t, t1, wrs, inc, ht, hstep, rfl⟩ := Sys.workerStep_spec h
    refine ⟨hq, ?_, ?_⟩
    · intro i ti hti hf
      by_cases hik : k = i
      · subst hik
        rw [ht] at hti
        simp only [Option.some.injEq] at hti
        subst hti
        obtain ⟨hf1, hwrs⟩ := WorkerThread.step_flag (hth k t ht) hstep hf
        refine ⟨t1, by simp [List.getElem?_set, getElem?_lt_length ht], hf1, ?_⟩
        rcases WorkerThread.step_writes hstep with ⟨_, hidx⟩ | ⟨ch, p, _, hw, _⟩
        · exact hidx
        · rw [hwrs] at hw; cases hw
      · refine ⟨ti, ?_, hf, fun _ => rfl⟩
        show (s.workers.set k t1)[i]? = some ti
        rw [List.getElem?_set, if_neg hik]
        exact hti
    · intro hall
      obtain ⟨_, hwrs⟩ := WorkerThread.step_flag (hth k t ht) hstep (hall k t ht)
      subst hwrs
      rfl
  | orch ext =>
    obtain ⟨hq1, hw, hfb⟩ := orchStep_paused hq h
    refine ⟨hq1, ?_, fun _ => hfb⟩
    intro i ti hti hf
    exact ⟨ti, by rw [hw]; exact hti, hf, fun _ => rfl⟩
  | key k p =>
    obtain ⟨hq1, hw, hfb⟩ := keyStep_paused hq ha h
    refine ⟨hq1, ?_, fun _ => hfb⟩
    intro i ti hti hf
    exact ⟨ti, by rw [hw]; exact hti, hf, fun _ => rfl⟩

theorem paused_exec (c : Setup) (hc : c.WF) :
    ∀ (as : List Action) (s : Sys), s.Inv c → s.Paused →
      (∀ a ∈ as, a ≠ Action.key .space true) →
      (s.exec as).Paused ∧
      (∀ (i : Nat) (t : WorkerThread), s.workers[i]? = some t →
        t.w.m_PendingUpdates = true →
        ∃ t1, (s.exec as).workers[i]? = some t1 ∧ t1.w.m_PendingUpdates = true ∧
          ∀ ch, t1.w.chIdx ch = t.w.chIdx ch) ∧
      ((∀ (j : Nat) (t : WorkerThread), s.workers[j]? = some t →
          t.w.m_PendingUpdates = true) →
        (s.exec as).fb = s.fb) := by
  intro as
  induction as with
  | nil =>
    intro s _ hq _
    exact ⟨hq, fun i t ht hf => ⟨t, ht, hf, fun _ => rfl⟩, fun _ => rfl⟩
  | cons a as ih =>
    intro s hinv hq hns
    have hns' : ∀ b ∈ as, b ≠ Action.key .space true :=
      fun b hb => hns b (List.mem_cons_of_mem a hb)
    unfold Sys.exec
    cases hst : s.step a with
    | none =>
      simp only [Option.getD_none]
      exact ih s hinv hq hns'
    | some s1 =>
      simp only [Option.getD_some]
      obtain ⟨hq1, hkeep, hfb⟩ := paused_step hinv.2.1 hq (hns a (List.mem_cons_self a as)) hst
      obtain ⟨hq2, hkeep2, hfb2⟩ := ih s1 (Inv_step c hc hinv hst) hq1 hns'
      refine ⟨hq2, ?_, ?_⟩
      · intro i t ht hf
        obtain ⟨t1, ht1, hf1, hidx1⟩ := hkeep i t ht hf
        obtain ⟨t2, ht2, hf2, hidx2⟩ := hkeep2 i t1 ht1 hf1
        exact ⟨t2, ht2, hf2, fun ch => (hidx2 ch).trans (hidx1 ch)⟩
      · intro hall
        have hall1 : ∀ (j : Nat) (t : WorkerThread), s1.workers[j]? = some t →
            t.w.m_PendingUpdates = true := by
          intro j t1 hj
          obtain ⟨_, _, _, hw⟩ := Sys.step_workers hst
          obtain ⟨t0, ht0, _⟩ := hw j t1 hj
          obtain ⟨t1', ht1', hf1, _⟩ := hkeep j t0 ht0 (hall j t0 ht0)
          rw [hj] at ht1'
          simp only [Option.some.injEq] at ht1'
          subst ht1'
          exact hf1
        rw [hfb2 hall1, hfb hall]

set_option maxRecDepth 100000 in
/-- C11 as stated fails: in the scenario, SPACE is pressed after the
resume phase of the first barrier cycle; when the next iteration of the
control thread has seen `renderPaused` and skipped the cycle, the worker,
released by that resume phase, is not parked (its flag is clear), and its
next three steps, with the pause still on, assign red byte 10 to pixel 0
of the frame buffer. -/
theorem pause_frame_buffer_changes :
    scenarioPaused.renderPaused = true ∧ scenarioPaused.orch = .waitSync ∧
    scenarioPaused.workers.map (fun t => t.w.m_PendingUpdates) = [false] ∧
    (scenarioPaused.exec [.worker 0, .worker 0, .worker 0]).renderPaused = true ∧
    (scenarioPaused.exec [.worker 0, .worker 0, .worker 0]).fb 0 ≠ scenarioPaused.fb 0 := by
  decide

/-! ### `ParseCommandLine` -/

/-- The cases of one iteration of the loop of `ParseCommandLine` on a run
that returns `true`. -/
theorem parseArgs_step (atoi : String → Int) (arg : String) (rest : List String)
    (c0 c : Config) (h : parseArgs atoi (arg :: rest) c0 = (true, c)) :
    arg ≠ "--help" ∧
    ((∃ v rest1, rest = v :: rest1 ∧ arg = "-n" ∧ 0 < atoi v ∧
        parseArgs atoi rest1 { c0 with numThreads := toU32 (atoi v) } = (true, c)) ∨
     (∃ v rest1, rest = v :: rest1 ∧ arg = "-w" ∧ 0 ≤ atoi v ∧ atoi v ≤ 4096 ∧
        parseArgs atoi rest1 { c0 with width := toU32 (atoi v) } = (true, c)) ∨
     (∃ v rest1, rest = v :: rest1 ∧ arg = "-h" ∧ 0 ≤ atoi v ∧ atoi v ≤ 4096 ∧
        parseArgs atoi rest1 { c0 with height := toU32 (atoi v) } = (true, c)) ∨
     (∃ v rest1, rest = v :: rest1 ∧ arg = "-p" ∧ 0 < atoi v ∧
        parseArgs atoi rest1 { c0 with stepSizeInPixels := toU32 (atoi v) } = (true, c)) ∨
     (arg ≠ "-n" ∧ arg ≠ "-w" ∧ arg ≠ "-h" ∧ arg ≠ "-p" ∧
        parseArgs atoi rest c0 = (true, c))) := by
  unfold parseArgs at h
  by_cases h0 : arg = "--help"
  · simp [h0] at h
  refine ⟨h0, ?_⟩
  rw [if_neg h0] at h
  by_cases h1 : arg = "-n"
  · rw [if_pos h1] at h
    cases rest with
    | nil => simp at h
    | cons v rest1 =>
      simp only at h
      by_cases hv : atoi v ≤ 0
      · simp [hv] at h
      · rw [if_neg hv] at h
        exact Or.inl ⟨v, rest1, rfl, h1, by omega, h⟩
  rw [if_neg h1] at h
  by_cases h2 : arg = "-w"
  · rw [if_pos h2] at h
    cases rest with
    | nil => simp at h
    | cons v rest1 =>
      simp only at h
      by_cases hv : atoi v < 0
      · simp [hv] at h
      · rw [if_neg hv] at h
        by_cases hv2 : atoi v > (MAX_RENDER_SIZE_X : Int)
        · simp [hv2] at h
        · rw [if_neg hv2] at h
          have : atoi v ≤ 4096 := by
            have : (MAX_RENDER_SIZE_X : Int) = 4096 := rfl
            omega
          exact Or.inr (Or.inl ⟨v, rest1, rfl, h2, by omega, this, h⟩)
  rw [if_neg h2] at h
  by_cases h3 : arg = "-h"
  · rw [if_pos h3] at h
    cases rest with
    | nil => simp at h
    | cons v rest1 =>
      simp only at h
      by_cases hv : atoi v < 0
      · simp [hv] at h
      · rw [if_neg hv] at h
        by_cases hv2 : atoi v > (MAX_RENDER_SIZE_Y : Int)
        · simp [hv2] at h
        · rw [if_neg hv2] at h
          have : atoi v ≤ 4096 := by
            have : (MAX_RENDER_SIZE_Y : Int) = 4096 := rfl
            omega
          exact Or.inr (Or.inr (Or.inl ⟨v, rest1, rfl, h3, by omega, this, h⟩))
  rw [if_neg h3] at h
  by_cases h4 : arg = "-p"
  · rw [if_pos h4] at h
    cases rest with
    | nil => simp at h
    | cons v rest1 =>
      simp only at h
      by_cases hv : atoi v ≤ 0
      · simp [hv] at h
      · rw [if_neg hv] at h
        exact Or.inr (Or.inr (Or.inr (Or.inl ⟨v, rest1, rfl, h4, by omega, h⟩)))
  rw [if_neg h4] at h
  exact Or.inr (Or.inr (Or.inr (Or.inr ⟨h1, h2, h3, h4, h⟩)))

/-- A property of the configuration that every assignment of the loop
keeps holds of the configuration a successful parse leaves. -/
theorem parseArgs_inv (atoi : String → Int) (P : Config → Prop)
    (hn : ∀ c v, P c → 0 < atoi v → P { c with numThreads := toU32 (atoi v) })
    (hw : ∀ c v, P c → 0 ≤ atoi v → atoi v ≤ 4096 → P { c with width := toU32 (atoi v) })
    (hh : ∀ c v, P c → 0 ≤ atoi v → atoi v ≤ 4096 → P { c with height := toU32 (atoi v) })
    (hp : ∀ c v, P c → 0 < atoi v → P { c with stepSizeInPixels := toU32 (atoi v) }) :
    ∀ (n : Nat) (args : List String) (c0 c : Config), args.length ≤ n → P c0 →
      parseArgs atoi args c0 = (true, c) → P c := by
  intro n
  induction n with
  | zero =>
    intro args c0 c hlen h0 h
    have : args = [] := List.length_eq_zero.mp (by omega)
    subst this
    simp only [parseArgs, Prod.mk.injEq, true_and] at h
    subst h
    exact h0
  | succ n ih =>
    intro args c0 c hlen h0 h
    cases args with
    | nil =>
      simp only [parseArgs, Prod.mk.injEq, true_and] at h
      subst h
      exact h0
    | cons arg rest =>
      simp only [List.length_cons] at hlen
      obtain ⟨_, hc⟩ := parseArgs_step atoi arg rest c0 c h
      rcases hc with ⟨v, rest1, rfl, _, hv, hrec⟩ | ⟨v, rest1, rfl, _, hv0, hv1, hrec⟩ |
        ⟨v, rest1, rfl, _, hv0, hv1, hrec⟩ | ⟨v, rest1, rfl, _, hv, hrec⟩ | ⟨_, _, _, _, hrec⟩
      · exact ih rest1 _ c (by simp only [List.length_cons] at hlen; omega) (hn c0 v h0 hv) hrec
      · exact ih rest1 _ c (by simp only [List.length_cons] at hlen; omega)
          (hw c0 v h0 hv0 hv1) hrec
      · exact ih rest1 _ c (by simp only [List.length_cons] at hlen; omega)
          (hh c0 v h0 hv0 hv1) hrec
      · exact ih rest1 _ c (by simp only [List.length_cons] at hlen; omega) (hp c0 v h0 hv) hrec
      · exact ih rest c0 c (by omega) h0 hrec

theorem toU32_of_nonneg (r : Int) (h0 : 0 ≤ r) (h1 : r < 2 ^ 32) : (toU32 r : Int) = r := by
  unfold toU32
  rw [Int.emod_eq_of_lt h0 h1]
  exact Int.toNat_of_nonneg h0

/-- Arguments read to the end with `true` can be followed by more: the
loop goes on from the configuration built so far. -/
theorem parseArgs_append (atoi : String → Int) (post : List String) :
    ∀ (n : Nat) (pre : List String) (c0 c1 : Config), pre.length ≤ n →
      parseArgs atoi pre c0 = (true, c1) →
      parseArgs atoi (pre ++ post) c0 = parseArgs atoi post c1 := by
  intro n
  induction n with
  | zero =>
    intro pre c0 c1 hlen h
    have : pre = [] := List.length_eq_zero.mp (by omega)
    subst this
    simp only [parseArgs, Prod.mk.injEq, true_and] at h
    subst h
    rfl
  | succ n ih =>
    intro pre c0 c1 hlen h
    cases pre with
    | nil =>
      simp only [parseArgs, Prod.mk.injEq, true_and] at h
      subst h
      rfl
    | cons arg rest =>
      simp only [List.length_cons] at hlen
      obtain ⟨h0, hc⟩ := parseArgs_step atoi arg rest c0 c1 h
      rcases hc with ⟨v, rest1, rfl, ha, hv, hrec⟩ | ⟨v, rest1, rfl, ha, hv0, hv1, hrec⟩ |
        ⟨v, rest1, rfl, ha, hv0, hv1, hrec⟩ | ⟨v, rest1, rfl, ha, hv, hrec⟩ |
        ⟨h1, h2, h3, h4, hrec⟩
      · have := ih rest1 _ c1 (by simp only [List.length_cons] at hlen; omega) hrec
        subst ha
        simp only [List.cons_append]
        rw [parseArgs]
        simp only [String.reduceEq, if_false, if_true]
        rw [if_neg (by omega)]
        exact this
      · have := ih rest1 _ c1 (by simp only [List.length_cons] at hlen; omega) hrec
        subst ha
        simp only [List.cons_append]
        rw [parseArgs]
        simp only [String.reduceEq, if_false, if_true]
        have hm : (MAX_RENDER_SIZE_X : Int) = 4096 := rfl
        rw [if_neg (by omega), if_neg (by omega)]
        exact this
      · have := ih rest1 _ c1 (by simp only [List.length_cons] at hlen; omega) hrec
        subst ha
        simp only [List.cons_append]
        rw [parseArgs]
        simp only [String.reduceEq, if_false, if_true]
        have hm : (MAX_RENDER_SIZE_Y : Int) = 4096 := rfl
        rw [if_neg (by omega), if_neg (by omega)]
        exact this
      · have := ih rest1 _ c1 (by simp only [List.length_cons] at hlen; omega) hrec
        subst ha
        simp only [List.cons_append]
        rw [parseArgs]
        simp only [String.reduceEq, if_false, if_true]
        rw [if_neg (by omega)]
        exact this
      · have := ih rest c0 c1 (by omega) hrec
        simp only [List.cons_append]
        rw [parseArgs.eq_def]
        simp only [if_neg h0, if_neg h1, if_neg h2, if_neg h3, if_neg h4]
        exact this

theorem parseArgs_too_large (atoi : String → Int) (opt v : String) (post : List String)
    (c1 : Config) (hopt : opt = "-w" ∨ opt = "-h") (hv : 4096 < atoi v) :
    (parseArgs atoi (opt :: v :: post) c1).1 = false := by
  have hx : (MAX_RENDER_SIZE_X : Int) = 4096 := rfl
  have hy : (MAX_RENDER_SIZE_Y : Int) = 4096 := rfl
  rcases hopt with rfl | rfl
  · rw [parseArgs]
    simp only [String.reduceEq, if_false, if_true]
    rw [if_neg (by omega), if_pos (by omega)]
  · rw [parseArgs]
    simp only [String.reduceEq, if_false, if_true]
    rw [if_neg (by omega), if_pos (by omega)]

/-- C12: whatever `atoi` returns, if `ParseCommandLine` returns true from
the default `Config` then the resulting width and height are at most 4096;
and when the arguments read so far are accepted and the next one is `-w` or
`-h` with a value that `atoi` reads as more than 4096, it returns false,
whatever follows. -/
theorem ParseCommandLine_size_cap (atoi : String → Int) :
    (∀ ppArgv c, ParseCommandLine atoi ppArgv Config.default = (true, c) →
      c.width ≤ MAX_RENDER_SIZE_X ∧ c.height ≤ MAX_RENDER_SIZE_Y) ∧
    (∀ prog pre opt v post c1, ParseCommandLine atoi (prog :: pre) Config.default = (true, c1) →
      opt = "-w" ∨ opt = "-h" → 4096 < atoi v →
      (ParseCommandLine atoi (prog :: (pre ++ opt :: v :: post)) Config.default).1 = false) := by
  constructor
  · intro ppArgv c h
    refine parseArgs_inv atoi (fun c => c.width ≤ MAX_RENDER_SIZE_X ∧ c.height ≤ MAX_RENDER_SIZE_Y)
      (fun c v hc _ => hc) ?_ ?_ (fun c v hc _ => hc) _ ppArgv.tail Config.default c
      (Nat.le_refl _) (by decide) h
    · intro c v hc h0 h1
      refine ⟨?_, hc.2⟩
      have := toU32_of_nonneg (atoi v) h0 (by omega)
      show toU32 (atoi v) ≤ 4096
      omega
    · intro c v hc h0 h1
      refine ⟨hc.1, ?_⟩
      have := toU32_of_nonneg (atoi v) h0 (by omega)
      show toU32 (atoi v) ≤ 4096
      omega
  · intro prog pre opt v post c1 h hopt hv
    unfold ParseCommandLine at h ⊢
    simp only [List.tail_cons] at h ⊢
    rw [parseArgs_append atoi _ _ pre Config.default c1 (Nat.le_refl _) h]
    exact parseArgs_too_large atoi opt v post c1 hopt hv

/-- The command lines `RI image.jpg -n 4 -w 4096` and
`RI image.jpg -n 4 -h 4097 -p 8` with the model of `atoi`. -/
theorem ParseCommandLine_size_cap_witness :
    ParseCommandLine atoiStd ["RI", "image.jpg", "-n", "4", "-w", "4096"] Config.default =
      (true, { numThreads := 4, width := 4096, height := 720, stepSizeInPixels := 512 }) ∧
    4096 < atoiStd "4097" ∧
    (ParseCommandLine atoiStd ("RI" :: (["image.jpg", "-n", "4"] ++ "-h" :: "4097" :: ["-p", "8"]))
      Config.default).1 = false :=
  ⟨by decide, by decide,
    (ParseCommandLine_size_cap atoiStd).2 "RI" ["image.jpg", "-n", "4"] "-h" "4097" ["-p", "8"]
      { numThreads := 4, width := 1280, height := 720, stepSizeInPixels := 512 }
      (by decide) (Or.inr rfl) (by decide)⟩

/-- C13 fails on the code for `-w` and `-h`: `RI image.jpg -w 0` and
`RI image.jpg -h abc` are accepted, with a width and a height of 0 (the
tests are `res < 0`), while `-n 0`, `-p abc` and an option without a value
are refused (the tests of `-n` and `-p` are `res <= 0`). -/
theorem ParseCommandLine_accepts_zero_size :
    ParseCommandLine atoiStd ["RI", "image.jpg", "-w", "0"] Config.default =
      (true, { numThreads := 0, width := 0, height := 720, stepSizeInPixels := 512 }) ∧
    ParseCommandLine atoiStd ["RI", "image.jpg", "-h", "abc"] Config.default =
      (true, { numThreads := 0, width := 1280, height := 0, stepSizeInPixels := 512 }) ∧
    (ParseCommandLine atoiStd ["RI", "image.jpg", "-n", "0"] Config.default).1 = false ∧
    (ParseCommandLine atoiStd ["RI", "image.jpg", "-p", "abc"] Config.default).1 = false ∧
    (ParseCommandLine atoiStd ["RI", "image.jpg", "-w", "-5"] Config.default).1 = false ∧
    (ParseCommandLine atoiStd ["RI", "image.jpg", "-w"] Config.default).1 = false := by
  decide

/-- With an `atoi` whose results are `int`s, a successful parse leaves a
batch size of at least 1 and a thread count that is 0 (not given) or the
positive value read. -/
theorem ParseCommandLine_stepSize_pos (atoi : String → Int) (hr : IntRange atoi)
    (ppArgv : List String) (c : Config)
    (h : ParseCommandLine atoi ppArgv Config.default = (true, c)) :
    1 ≤ c.stepSizeInPixels := by
  refine parseArgs_inv atoi (fun c => 1 ≤ c.stepSizeInPixels)
    (fun c v hc _ => hc) (fun c v hc _ _ => hc) (fun c v hc _ _ => hc) ?_ _ ppArgv.tail
    Config.default c (Nat.le_refl _) (by decide) h
  intro c v _ hv
  have h1 := (hr v).2
  have := toU32_of_nonneg (atoi v) (by omega) (by omega)
  show 1 ≤ toU32 (atoi v)
  omega

theorem lastValue_cons_ne (opt : String) (e : String × String) (toks : List (String × String))
    (h : e.1 ≠ opt) : lastValue opt (e :: toks) = lastValue opt toks := by
  rw [lastValue]
  cases lastValue opt toks with
  | none => simp [h]
  | some v => rfl

theorem lastValue_cons_eq (opt : String) (e : String × String) (toks : List (String × String))
    (h : e.1 = opt) : lastValue opt (e :: toks) = some ((lastValue opt toks).getD e.2) := by
  rw [lastValue]
  cases lastValue opt toks with
  | none => simp [h]
  | some v => rfl

theorem lastValue_mem (opt v : String) :
    ∀ toks : List (String × String), lastValue opt toks = some v → (opt, v) ∈ toks := by
  intro toks
  induction toks with
  | nil => intro h; simp [lastValue] at h
  | cons e toks ih =>
    intro h
    rw [lastValue] at h
    cases hl : lastValue opt toks with
    | some v1 =>
      rw [hl] at h
      simp only [Option.some.injEq] at h
      subst h
      exact List.mem_cons_of_mem _ (ih hl)
    | none =>
      rw [hl] at h
      simp only at h
      split at h
      · rename_i he
        simp only [Option.some.injEq] at h
        have : e = (opt, v) := Prod.ext he h
        rw [this]
        exact List.mem_cons_self _ _
      · cases h

theorem readOptions_mem (opt v : String) :
    ∀ (n : Nat) (args : List String), args.length ≤ n → (opt, v) ∈ readOptions args →
      opt ∈ args := by
  intro n
  induction n with
  | zero =>
    intro args hlen h
    have : args = [] := List.length_eq_zero.mp (by omega)
    subst this
    simp [readOptions] at h
  | succ n ih =>
    intro args hlen h
    cases args with
    | nil => simp [readOptions] at h
    | cons arg rest =>
      simp only [List.length_cons] at hlen
      rw [readOptions.eq_def] at h
      simp only at h
      split at h
      · cases rest with
        | nil => simp at h
        | cons v1 rest1 =>
          simp only [List.mem_cons, Prod.mk.injEq] at h
          rcases h with ⟨h1, _⟩ | h
          · rw [h1]; exact List.mem_cons_self _ _
          · have := ih rest1 (by simp only [List.length_cons] at hlen; omega) h
            exact List.mem_cons_of_mem _ (List.mem_cons_of_mem _ this)
      · exact List.mem_cons_of_mem _ (ih rest (by omega) h)

/-- A field of the configuration that only option `o` assigns holds, after
a successful parse, the value of the last `o` read, or what it held before
when no `o` was read. -/
theorem parseArgs_field (atoi : String → Int) (o : String) (g : Config → Nat)
    (hn : ∀ c x, g { c with numThreads := x } = if o = "-n" then x else g c)
    (hw : ∀ c x, g { c with width := x } = if o = "-w" then x else g c)
    (hh : ∀ c x, g { c with height := x } = if o = "-h" then x else g c)
    (hp : ∀ c x, g { c with stepSizeInPixels := x } = if o = "-p" then x else g c) :
    ∀ (n : Nat) (args : List String) (c0 c : Config), args.length ≤ n →
      parseArgs atoi args c0 = (true, c) →
      g c = ((lastValue o (readOptions args)).map fun v => toU32 (atoi v)).getD (g c0) := by
  intro n
  induction n with
  | zero =>
    intro args c0 c hlen h
    have : args = [] := List.length_eq_zero.mp (by omega)
    subst this
    simp only [parseArgs, Prod.mk.injEq, true_and] at h
    subst h
    simp [readOptions, lastValue]
  | succ n ih =>
    intro args c0 c hlen h
    cases args with
    | nil =>
      simp only [parseArgs, Prod.mk.injEq, true_and] at h
      subst h
      simp [readOptions, lastValue]
    | cons arg rest =>
      simp only [List.length_cons] at hlen
      have key : ∀ (a v : String) (rest1 : List String) (c1 : Config) (x : Nat),
          (a = "-n" ∨ a = "-w" ∨ a = "-h" ∨ a = "-p") → x = toU32 (atoi v) →
          rest1.length ≤ n → parseArgs atoi rest1 c1 = (true, c) →
          g c1 = (if o = a then x else g c0) →
          g c = ((lastValue o (readOptions (a :: v :: rest1))).map
            fun v => toU32 (atoi v)).getD (g c0) := by
        intro a v rest1 c1 x ha hx hl hrec hg
        have hro : readOptions (a :: v :: rest1) = (a, v) :: readOptions rest1 := by
          rw [readOptions.eq_def]
          simp only [if_pos ha]
        rw [hro, ih rest1 c1 c hl hrec, hg]
        by_cases hoa : o = a
        · rw [if_pos hoa, lastValue_cons_eq o (a, v) _ hoa.symm]
          cases lastValue o (readOptions rest1) with
          | none => simp [hx]
          | some v1 => simp
        · rw [if_neg hoa, lastValue_cons_ne o (a, v) _ (fun h => hoa h.symm)]
      obtain ⟨_, hc⟩ := parseArgs_step atoi arg rest c0 c h
      rcases hc with ⟨v, rest1, rfl, ha, _, hrec⟩ | ⟨v, rest1, rfl, ha, _, _, hrec⟩ |
        ⟨v, rest1, rfl, ha, _, _, hrec⟩ | ⟨v, rest1, rfl, ha, _, hrec⟩ |
        ⟨h1, h2, h3, h4, hrec⟩
      · subst ha
        exact key "-n" v rest1 _ _ (Or.inl rfl) rfl
          (by simp only [List.length_cons] at hlen; omega) hrec (hn c0 _)
      · subst ha
        exact key "-w" v rest1 _ _ (Or.inr (Or.inl rfl)) rfl
          (by simp only [List.length_cons] at hlen; omega) hrec (hw c0 _)
      · subst ha
        exact key "-h" v rest1 _ _ (Or.inr (Or.inr (Or.inl rfl))) rfl
          (by simp only [List.length_cons] at hlen; omega) hrec (hh c0 _)
      · subst ha
        exact key "-p" v rest1 _ _ (Or.inr (Or.inr (Or.inr rfl))) rfl
          (by simp only [List.length_cons] at hlen; omega) hrec (hp c0 _)
      · have hro : readOptions (arg :: rest) = readOptions rest := by
          rw [readOptions.eq_def]
          simp only
          rw [if_neg (by simp [h1, h2, h3, h4])]
        rw [hro]
        exact ih rest c0 c (by omega) hrec

theorem lastValue_none_of_not_mem (o : String) (args : List String) (h : o ∉ args) :
    lastValue o (readOptions args) = none := by
  cases hl : lastValue o (readOptions args) with
  | none => rfl
  | some v =>
    exact (h (readOptions_mem o v _ args (Nat.le_refl _) (lastValue_mem o v _ hl))).elim

/-- C14: for every argument list on which `ParseCommandLine` returns true
from the default `Config` (whatever `atoi` returns), each of the four
fields holds the value read for the last occurrence of its own option as
the parser reads the command line (an argument taken as the value of an
option is not an occurrence of an option), and its default (0, 1280, 720,
512) when its option does not occur; in particular a field whose option is
nowhere in the list keeps its default, and a thread count of 0 makes
`numWorkers` the hardware parallelism. An argument that is none of
`--help`, `-n`, `-w`, `-h`, `-p`, read where an option could stand, changes
nothing: the result is that of the list without it. -/
theorem ParseCommandLine_fields (atoi : String → Int) (ppArgv : List String) (c : Config)
    (h : ParseCommandLine atoi ppArgv Config.default = (true, c)) :
    (c.numThreads = ((lastValue "-n" (readOptions ppArgv.tail)).map
        fun v => toU32 (atoi v)).getD 0 ∧
      c.width = ((lastValue "-w" (readOptions ppArgv.tail)).map
        fun v => toU32 (atoi v)).getD 1280 ∧
      c.height = ((lastValue "-h" (readOptions ppArgv.tail)).map
        fun v => toU32 (atoi v)).getD 720 ∧
      c.stepSizeInPixels = ((lastValue "-p" (readOptions ppArgv.tail)).map
        fun v => toU32 (atoi v)).getD 512) ∧
    (("-n" ∉ ppArgv.tail → c.numThreads = 0 ∧ ∀ hw, numWorkers hw c = hw) ∧
      ("-w" ∉ ppArgv.tail → c.width = 1280) ∧ ("-h" ∉ ppArgv.tail → c.height = 720) ∧
      ("-p" ∉ ppArgv.tail → c.stepSizeInPixels = 512)) ∧
    (∀ prog pre a post c1, ParseCommandLine atoi (prog :: pre) Config.default = (true, c1) →
      a ≠ "--help" → a ≠ "-n" → a ≠ "-w" → a ≠ "-h" → a ≠ "-p" →
      ParseCommandLine atoi (prog :: (pre ++ a :: post)) Config.default =
        ParseCommandLine atoi (prog :: (pre ++ post)) Config.default) := by
  have hn := parseArgs_field atoi "-n" Config.numThreads (fun _ _ => by simp)
    (fun _ _ => by simp) (fun _ _ => by simp) (fun _ _ => by simp) _ ppArgv.tail
    Config.default c (Nat.le_refl _) h
  have hw := parseArgs_field atoi "-w" Config.width (fun _ _ => by simp)
    (fun _ _ => by simp) (fun _ _ => by simp) (fun _ _ => by simp) _ ppArgv.tail
    Config.default c (Nat.le_refl _) h
  have hh := parseArgs_field atoi "-h" Config.height (fun _ _ => by simp)
    (fun _ _ => by simp) (fun _ _ => by simp) (fun _ _ => by simp) _ ppArgv.tail
    Config.default c (Nat.le_refl _) h
  have hp := parseArgs_field atoi "-p" Config.stepSizeInPixels (fun _ _ => by simp)
    (fun _ _ => by simp) (fun _ _ => by simp) (fun _ _ => by simp) _ ppArgv.tail
    Config.default c (Nat.le_refl _) h
  refine ⟨⟨hn, hw, hh, hp⟩, ⟨?_, ?_, ?_, ?_⟩, ?_⟩
  · intro hno
    rw [lastValue_none_of_not_mem _ _ hno] at hn
    have h0 : c.numThreads = 0 := hn
    exact ⟨h0, fun hw => by simp [numWorkers, h0]⟩
  · intro hno
    rw [lastValue_none_of_not_mem _ _ hno] at hw
    exact hw
  · intro hno
    rw [lastValue_none_of_not_mem _ _ hno] at hh
    exact hh
  · intro hno
    rw [lastValue_none_of_not_mem _ _ hno] at hp
    exact hp
  · intro prog pre a post c1 hpre h0 h1 h2 h3 h4
    unfold ParseCommandLine at hpre ⊢
    simp only [List.tail_cons] at hpre ⊢
    rw [parseArgs_append atoi _ _ pre Config.default c1 (Nat.le_refl _) hpre,
      parseArgs_append atoi _ _ pre Config.default c1 (Nat.le_refl _) hpre]
    rw [parseArgs.eq_def]
    simp only [if_neg h0, if_neg h1, if_neg h2, if_neg h3, if_neg h4]

/-- The command line `RI image.jpg -w 800 -p 64 extra -w 640`. -/
theorem ParseCommandLine_fields_witness :
    ParseCommandLine atoiStd ["RI", "image.jpg", "-w", "800", "-p", "64", "extra", "-w", "640"]
      Config.default =
      (true, { numThreads := 0, width := 640, height := 720, stepSizeInPixels := 64 }) ∧
    (({ numThreads := 0, width := 640, height := 720, stepSizeInPixels := 64 } : Config).numThreads =
        ((lastValue "-n" (readOptions
          ["RI", "image.jpg", "-w", "800", "-p", "64", "extra", "-w", "640"].tail)).map
          fun v => toU32 (atoiStd v)).getD 0 ∧
      ({ numThreads := 0, width := 640, height := 720, stepSizeInPixels := 64 } : Config).width =
        ((lastValue "-w" (readOptions
          ["RI", "image.jpg", "-w", "800", "-p", "64", "extra", "-w", "640"].tail)).map
          fun v => toU32 (atoiStd v)).getD 1280 ∧
      ({ numThreads := 0, width := 640, height := 720, stepSizeInPixels := 64 } : Config).height =
        ((lastValue "-h" (readOptions
          ["RI", "image.jpg", "-w", "800", "-p", "64", "extra", "-w", "640"].tail)).map
          fun v => toU32 (atoiStd v)).getD 720 ∧
      ({ numThreads := 0, width := 640, height := 720, stepSizeInPixels := 64 } :
          Config).stepSizeInPixels =
        ((lastValue "-p" (readOptions
          ["RI", "image.jpg", "-w", "800", "-p", "64", "extra", "-w", "640"].tail)).map
          fun v => toU32 (atoiStd v)).getD 512) :=
  ⟨by decide,
    (ParseCommandLine_fields atoiStd
      ["RI", "image.jpg", "-w", "800", "-p", "64", "extra", "-w", "640"]
      { numThreads := 0, width := 640, height := 720, stepSizeInPixels := 64 } (by decide)).1⟩

/-! ### The workload of a worker -/

/-- Within the canvas the array of a channel before shuffling is, entry by
entry, the position `(i % W, i / W)` with the target byte of pixel `i` of
the region: the 12-bit fields and the 32-bit index arithmetic lose nothing. -/
theorem targetList_eq (mem : FrameBuffer) (base n W H : Nat) (ch : Channel) (hW : W ≤ 4096)
    (hH : H ≤ 4096) (hn : n ≤ W * H) :
    Worker.targetList mem base n W ch =
      (List.range n).map fun i =>
        ({ x := i % W, y := i / W, c := (mem (base + i)).get ch } : TargetPixelComponent) := by
  unfold Worker.targetList
  apply List.map_congr_left
  intro i hi
  have hi' : i < W * H := by
    have := List.mem_range.mp hi
    omega
  obtain ⟨h1, h2⟩ := entry_addr W H i hW hH hi'
  have hWpos : 0 < W := by
    rcases Nat.eq_zero_or_pos W with h0 | h0
    · rw [h0] at hi'; simp at hi'
    · exact h0
  have hy : i / W < H := (Nat.div_lt_iff_lt_mul hWpos).mpr (by rw [Nat.mul_comm]; exact hi')
  have hx : i % W < W := Nat.mod_lt _ hWpos
  simp only [TargetPixelComponent.init, h2]
  rw [Nat.mod_eq_of_lt (by omega : i % W < 2 ^ 12), Nat.mod_eq_of_lt (by omega : i / W < 2 ^ 12)]

theorem addr_of_position (W H i : Nat) (hW : W ≤ 4096) (hH : H ≤ 4096) (hi : i < W * H) :
    u32 (i / W * W + i % W) = i := by
  have hdm : i / W * W + i % W = i := Nat.div_add_mod' i W
  have hlt := canvas_lt W H hW hH
  rw [hdm]
  exact u32_of_lt (by omega)

/-- C15: for every worker that the partition loop of `main` initialises
(at least one worker, a canvas of at most 4096 x 4096, each `std::shuffle`
any rearrangement), with `n` its pixel count, `o` its base and `W` its
stride: each of the four lists has length `n`; the positions of each list
are a rearrangement of the same positions `(j % W, j / W)`, `j < n`; every
entry addresses, by `y * W + x` from the base, a pixel of the worker's
range; and every pixel `o + j` of the range is addressed by exactly one
entry of each list, whose byte is the target image's value of that channel
at that pixel. -/
theorem Init_workload (c : Setup) (hc : c.WF) (i : Nat) (w : Worker)
    (hw : c.initWorkers[i]? = some w) :
    ∃ o n, (partition c.width c.height c.numWorkers)[i]? = some (o, n) ∧
      w.m_PixelCount = n ∧ w.m_pFrameBuffer = o ∧ w.m_FbStride = c.width ∧
      ∀ ch, (w.chList ch).length = n ∧
        List.Perm ((w.chList ch).map fun p => (p.x, p.y))
          ((List.range n).map fun j => (j % c.width, j / c.width)) ∧
        (∀ p ∈ w.chList ch, ∃ j, j < n ∧ w.addrOf p = o + j) ∧
        ∀ j, j < n →
          (w.chList ch).filter (fun p => decide (w.addrOf p = o + j)) =
            [{ x := j % c.width, y := j / c.width, c := (c.image (o + j)).get ch }] := by
  obtain ⟨o, n, hp, rfl⟩ := initWorkers_at c i w hw
  have hwithin := partition_within c.width c.height c.numWorkers hc.1 hc.2.2.1 hc.2.2.2.1 i o n hp
  have hn : n ≤ c.width * c.height := by omega
  have hperm : ∀ ch, List.Perm
      (((Worker.fresh (c.gen i)).Init c.image o o n c.width (c.shuffle i)).chList ch)
      ((List.range n).map fun j =>
        ({ x := j % c.width, y := j / c.width, c := (c.image (o + j)).get ch } :
          TargetPixelComponent)) := by
    intro ch
    rw [Init_chList, ← targetList_eq c.image o n c.width c.height ch hc.2.2.1 hc.2.2.2.1 hn]
    exact hc.2.2.2.2 i ch _
  have haddr : ∀ (ch : Channel) (j : Nat), j < n →
      ((Worker.fresh (c.gen i)).Init c.image o o n c.width (c.shuffle i)).addrOf
        { x := j % c.width, y := j / c.width, c := (c.image (o + j)).get ch } = o + j := by
    intro ch j hj
    show o + u32 (j / c.width * c.width + j % c.width) = o + j
    rw [addr_of_position c.width c.height j hc.2.2.1 hc.2.2.2.1 (by omega)]
  refine ⟨o, n, hp, rfl, rfl, rfl, fun ch => ⟨?_, ?_, ?_, ?_⟩⟩
  · rw [(hperm ch).length_eq]
    simp
  · have := (hperm ch).map fun p : TargetPixelComponent => (p.x, p.y)
    rw [List.map_map] at this
    exact this
  · intro p hp
    obtain ⟨j, hj, rfl⟩ := List.mem_map.mp ((hperm ch).mem_iff.mp hp)
    exact ⟨j, List.mem_range.mp hj, haddr ch j (List.mem_range.mp hj)⟩
  · intro j hj
    apply List.perm_singleton.mp
    refine ((hperm ch).filter _).trans ?_
    rw [List.filter_map]
    have hf : (List.range n).filter
        ((fun p : TargetPixelComponent =>
            decide (((Worker.fresh (c.gen i)).Init c.image o o n c.width
              (c.shuffle i)).addrOf p = o + j)) ∘
          fun j => { x := j % c.width, y := j / c.width, c := (c.image (o + j)).get ch }) =
        (List.range n).filter (fun k => decide (k = j)) := by
      apply List.filter_congr
      intro k hk
      simp only [Function.comp]
      rw [haddr ch k (List.mem_range.mp hk)]
      simp
    rw [hf, filter_range_eq n j hj]
    exact List.Perm.refl _

/-- The worker of the scenario. -/
theorem Init_workload_witness :
    ∃ o n, (partition scenario.width scenario.height scenario.numWorkers)[0]? = some (o, n) ∧
      scenarioWorker.m_PixelCount = n ∧ scenarioWorker.m_pFrameBuffer = o ∧
      scenarioWorker.m_FbStride = scenario.width ∧
      ∀ ch, (scenarioWorker.chList ch).length = n ∧
        List.Perm ((scenarioWorker.chList ch).map fun p => (p.x, p.y))
          ((List.range n).map fun j => (j % scenario.width, j / scenario.width)) ∧
        (∀ p ∈ scenarioWorker.chList ch, ∃ j, j < n ∧ scenarioWorker.addrOf p = o + j) ∧
        ∀ j, j < n →
          (scenarioWorker.chList ch).filter (fun p => decide (scenarioWorker.addrOf p = o + j)) =
            [{ x := j % scenario.width, y := j / scenario.width,
               c := (scenario.image (o + j)).get ch }] :=
  Init_workload scenario scenario_WF 0 scenarioWorker rfl

/-! ### Sizes of the ranges and the coordinate fields -/

/-- C17: for every worker count `N >= 1` and canvas `W x H` (within the
maximal render size), the partition loop makes `N` `Init` calls; every
worker except the last is given exactly `W * H / N` pixels and the last
`W * H / N + W * H % N`; so any two counts differ by less than `N`, and
two workers that are not the last have the same count. -/
theorem partition_sizes (W H N : Nat) (hN : 1 ≤ N) (hW : W ≤ 4096) (hH : H ≤ 4096) :
    (∀ i, i < N → ∃ o : Nat, (partition W H N)[i]? =
      some (o, if i = N - 1 then W * H / N + W * H % N else W * H / N)) ∧
    (∀ i o cnt : Nat, (partition W H N)[i]? = some (o, cnt) →
      cnt = if i = N - 1 then W * H / N + W * H % N else W * H / N) ∧
    (∀ i j oi ci oj cj : Nat, (partition W H N)[i]? = some (oi, ci) →
      (partition W H N)[j]? = some (oj, cj) →
      ci < cj + N ∧ cj < ci + N ∧ (i ≠ N - 1 → j ≠ N - 1 → ci = cj)) := by
  refine ⟨?_, ?_, ?_⟩
  · intro i hi
    exact ⟨_, partition_at W H N hN hW hH i hi⟩
  · intro i o cnt h
    exact (partition_entry W H N hN hW hH i o cnt h).2.2
  · intro i j oi ci oj cj hi hj
    obtain ⟨_, _, hci⟩ := partition_entry W H N hN hW hH i oi ci hi
    obtain ⟨_, _, hcj⟩ := partition_entry W H N hN hW hH j oj cj hj
    have hr : W * H % N < N := Nat.mod_lt _ (by omega)
    refine ⟨?_, ?_, ?_⟩
    · rw [hci, hcj]
      split <;> split <;> omega
    · rw [hci, hcj]
      split <;> split <;> omega
    · intro h1 h2
      rw [hci, hcj, if_neg h1, if_neg h2]

/-- The partition of a 5 x 1 canvas among two workers: 2 and 3 pixels. -/
theorem partition_sizes_witness :
    (partition 5 1 2).map Prod.snd = [2, 3] ∧
    ((∀ i, i < 2 → ∃ o : Nat, (partition 5 1 2)[i]? =
      some (o, if i = 2 - 1 then 5 * 1 / 2 + 5 * 1 % 2 else 5 * 1 / 2)) ∧
    (∀ i o cnt : Nat, (partition 5 1 2)[i]? = some (o, cnt) →
      cnt = if i = 2 - 1 then 5 * 1 / 2 + 5 * 1 % 2 else 5 * 1 / 2) ∧
    (∀ i j oi ci oj cj : Nat, (partition 5 1 2)[i]? = some (oi, ci) →
      (partition 5 1 2)[j]? = some (oj, cj) →
      ci < cj + 2 ∧ cj < ci + 2 ∧ (i ≠ 2 - 1 → j ≠ 2 - 1 → ci = cj))) :=
  ⟨by decide, partition_sizes 5 1 2 (by decide) (by decide) (by decide)⟩

/-- C18: for every canvas with `1 <= W <= 4096` and `H <= 4096`, every
pixel count `n <= W * H` and every index `i < n`: `x = i % W` and
`y = i / W` are at most 4095, so the brace initialisation of a
`TargetPixelComponent` stores them untruncated in its 12-bit fields,
`y * W + x` (in 32 bits) reads back as `i`, and the entry `Init` builds for
index `i` is `(i % W, i / W)` with the byte of pixel `i` of the region. -/
theorem coordinate_encoding_lossless (mem : FrameBuffer) (base n W H i : Nat) (ch : Channel)
    (c : Byte) (hW1 : 1 ≤ W) (hW : W ≤ 4096) (hH : H ≤ 4096) (hn : n ≤ W * H) (hi : i < n) :
    i % W ≤ 4095 ∧ i / W ≤ 4095 ∧
    TargetPixelComponent.init (i % W) (i / W) c = { x := i % W, y := i / W, c := c } ∧
    u32 ((TargetPixelComponent.init (i % W) (i / W) c).y * W +
      (TargetPixelComponent.init (i % W) (i / W) c).x) = i ∧
    (Worker.targetList mem base n W ch)[i]? =
      some { x := i % W, y := i / W, c := (mem (base + i)).get ch } := by
  have hi' : i < W * H := by omega
  have hy : i / W < H := (Nat.div_lt_iff_lt_mul (by omega)).mpr (by rw [Nat.mul_comm]; exact hi')
  have hx : i % W < W := Nat.mod_lt _ (by omega)
  have hinit : TargetPixelComponent.init (i % W) (i / W) c = { x := i % W, y := i / W, c := c } := by
    simp only [TargetPixelComponent.init]
    rw [Nat.mod_eq_of_lt (by omega : i % W < 2 ^ 12), Nat.mod_eq_of_lt (by omega : i / W < 2 ^ 12)]
  refine ⟨by omega, by omega, hinit, ?_, ?_⟩
  · rw [hinit]
    exact addr_of_position W H i hW hH hi'
  · rw [targetList_eq mem base n W H ch hW hH hn]
    simp [List.getElem?_map, List.getElem?_range hi]

/-- Index 7 of a region of 12 pixels on a 4 x 3 canvas: x = 3, y = 1. -/
theorem coordinate_encoding_lossless_witness :
    7 % 4 ≤ 4095 ∧ 7 / 4 ≤ 4095 ∧
    TargetPixelComponent.init (7 % 4) (7 / 4) 9 = { x := 7 % 4, y := 7 / 4, c := 9 } ∧
    u32 ((TargetPixelComponent.init (7 % 4) (7 / 4) 9).y * 4 +
      (TargetPixelComponent.init (7 % 4) (7 / 4) 9).x) = 7 ∧
    (Worker.targetList scenarioImage 0 12 4 .red)[7]? =
      some { x := 7 % 4, y := 7 / 4, c := (scenarioImage (0 + 7)).get .red } :=
  coordinate_encoding_lossless scenarioImage 0 12 4 3 7 .red 9 (by decide) (by decide)
    (by decide) (by decide) (by decide)

/-! ### Order of the channels within a turn -/

theorem pixelIter_draws {ch : Channel} {w w1 : Worker} {wr : Write}
    (h : w.pixelIter ch = some (w1, wr)) : ∃ d, w.gen = d ++ w1.gen := by
  obtain ⟨_, _, _, _, p, _, _, hg⟩ := pixelIter_props h
  obtain ⟨pre, hgen, _⟩ := lbdRandomGuesser_some p.c w.gen w1.gen hg
  exact ⟨pre ++ [p.c.val], by rw [hgen]; simp⟩

theorem channelLoop_draws (ch : Channel) :
    ∀ (k : Nat) (w w1 : Worker) (wrs : List Write),
      Worker.channelLoop ch k w = some (w1, wrs) → ∃ d, w.gen = d ++ w1.gen := by
  intro k
  induction k with
  | zero =>
    intro w w1 wrs h
    simp only [Worker.channelLoop, Option.some.injEq, Prod.mk.injEq] at h
    obtain ⟨rfl, _⟩ := h
    exact ⟨[], rfl⟩
  | succ k ih =>
    intro w w1 wrs h
    unfold Worker.channelLoop at h
    split at h
    · cases h
    · rename_i wa wr hpi
      split at h
      · cases h
      · rename_i wb wrsb hloop
        simp only [Option.some.injEq, Prod.mk.injEq] at h
        obtain ⟨rfl, _⟩ := h
        obtain ⟨d1, h1⟩ := pixelIter_draws hpi
        obtain ⟨d2, h2⟩ := ih wa wb wrsb hloop
        exact ⟨d1 ++ d2, by rw [h1, h2, List.append_assoc]⟩

theorem channelBatch_draws (ch : Channel) (b : Nat) (w w1 : Worker) (wrs : List Write)
    (h : w.channelBatch ch b = some (w1, wrs)) : ∃ d, w.gen = d ++ w1.gen := by
  unfold Worker.channelBatch at h
  split at h
  · exact channelLoop_draws ch _ w w1 wrs h
  · simp only [Option.some.injEq, Prod.mk.injEq] at h
    obtain ⟨rfl, _⟩ := h
    exact ⟨[], rfl⟩

theorem channelBatch_exhausted (ch : Channel) (b : Nat) (w : Worker)
    (h : w.chIdx ch = w.m_PixelCount) : w.channelBatch ch b = some (w, []) := by
  unfold Worker.channelBatch
  rw [if_neg (by omega)]

theorem segment_ch (w : Worker) (ch : Channel) (k : Nat) : ∀ x ∈ w.segment ch k, x.ch = ch := by
  intro x hx
  unfold Worker.segment at hx
  obtain ⟨p, _, rfl⟩ := List.mem_map.mp hx
  rfl

/-- C16: a turn returns when the script feeds `4 * pixelIterSize` guesses,
and a turn that returns is the red block, then the green, the blue and
the alpha one: its assignments are the red ones, then the green, the blue
and the alpha ones, and the draws it consumed from the script split, in
this order, into those of the red, green, blue and alpha guesses. The
block of a channel whose cursor equals `m_PixelCount` returns the worker as
it is: no assignment, no draw, no cursor changed; and in a turn such a
channel has no assignment and keeps its cursor while every other cursor
advances by its `min(pixelIterSize, m_PixelCount - cursor)`. -/
theorem turn_channel_order (b : Nat) (w : Worker) (hw : w.WF) :
    (Feeds (4 * b) w.gen → ∃ w1 wrs, w.turn b = some (w1, wrs)) ∧
    (∀ w1 wrs, w.turn b = some (w1, wrs) →
      ∃ (wr wg wb wa : Worker) (r g bl a : List Write) (dr dg db da : List Nat),
        w.channelBatch .red b = some (wr, r) ∧ wr.channelBatch .green b = some (wg, g) ∧
        wg.channelBatch .blue b = some (wb, bl) ∧ wb.channelBatch .alpha b = some (wa, a) ∧
        wrs = r ++ g ++ bl ++ a ∧
        (∀ x ∈ r, x.ch = .red) ∧ (∀ x ∈ g, x.ch = .green) ∧ (∀ x ∈ bl, x.ch = .blue) ∧
        (∀ x ∈ a, x.ch = .alpha) ∧
        w.gen = dr ++ wr.gen ∧ wr.gen = dg ++ wg.gen ∧ wg.gen = db ++ wb.gen ∧
        wb.gen = da ++ wa.gen ∧ w1.gen = wa.gen ∧ w.gen = dr ++ dg ++ db ++ da ++ w1.gen) ∧
    (∀ (ch : Channel) (w0 : Worker), w0.chIdx ch = w0.m_PixelCount →
      w0.channelBatch ch b = some (w0, [])) ∧
    (∀ ch w1 wrs, w.turn b = some (w1, wrs) → w.chIdx ch = w.m_PixelCount →
      w1.chIdx ch = w.chIdx ch ∧ (∀ x ∈ wrs, x.ch ≠ ch) ∧
      ∀ ch1, w1.chIdx ch1 = w.chIdx ch1 + min b (w.m_PixelCount - w.chIdx ch1)) := by
  refine ⟨?_, ?_, fun ch w0 h => channelBatch_exhausted ch b w0 h, ?_⟩
  · intro hf
    have hle : w.batchLen .red b + w.batchLen .green b + w.batchLen .blue b +
        w.batchLen .alpha b + 0 ≤ 4 * b := by
      have h1 : w.batchLen .red b ≤ b := Nat.min_le_right _ _
      have h2 : w.batchLen .green b ≤ b := Nat.min_le_right _ _
      have h3 : w.batchLen .blue b ≤ b := Nat.min_le_right _ _
      have h4 : w.batchLen .alpha b ≤ b := Nat.min_le_right _ _
      omega
    obtain ⟨w1, wrs, h, _⟩ := turn_total b 0 w hw (Feeds.mono _ _ _ hle hf)
    exact ⟨w1, wrs, h⟩
  · intro w1 wrs h
    unfold Worker.turn at h
    split at h
    · cases h
    · rename_i wr r hr
      split at h
      · cases h
      · rename_i wg g hg
        split at h
        · cases h
        · rename_i wb bl hb
          split at h
          · cases h
          · rename_i wa a ha
            simp only [Option.some.injEq, Prod.mk.injEq] at h
            obtain ⟨rfl, rfl⟩ := h
            obtain ⟨_, _, _, _, rseg, rwf⟩ := channelBatch_spec .red b w wr r hw hr
            obtain ⟨_, _, _, _, gseg, gwf⟩ := channelBatch_spec .green b wr wg g rwf hg
            obtain ⟨_, _, _, _, bseg, bwf⟩ := channelBatch_spec .blue b wg wb bl gwf hb
            obtain ⟨_, _, _, _, aseg, _⟩ := channelBatch_spec .alpha b wb wa a bwf ha
            obtain ⟨dr, hdr⟩ := channelBatch_draws .red b w wr r hr
            obtain ⟨dg, hdg⟩ := channelBatch_draws .green b wr wg g hg
            obtain ⟨db, hdb⟩ := channelBatch_draws .blue b wg wb bl hb
            obtain ⟨da, hda⟩ := channelBatch_draws .alpha b wb wa a ha
            refine ⟨wr, wg, wb, wa, r, g, bl, a, dr, dg, db, da, hr, hg, hb, ha, rfl,
              ?_, ?_, ?_, ?_, hdr, hdg, hdb, hda, rfl, ?_⟩
            · rw [rseg]; exact segment_ch _ _ _
            · rw [gseg]; exact segment_ch _ _ _
            · rw [bseg]; exact segment_ch _ _ _
            · rw [aseg]; exact segment_ch _ _ _
            · show w.gen = dr ++ dg ++ db ++ da ++ wa.gen
              rw [hdr, hdg, hdb, hda]
              simp only [List.append_assoc]
  · intro ch w1 wrs h hex
    obtain ⟨hi, _⟩ := turn_spec b w w1 wrs hw h
    have hfil := turn_filter b w w1 wrs hw h ch
    have h0 : w.batchLen ch b = 0 := by
      unfold Worker.batchLen
      omega
    refine ⟨by rw [hi ch, h0]; rfl, ?_, ?_⟩
    · rw [h0] at hfil
      have hnil : wrs.filter (fun wr => decide (wr.ch = ch)) = [] := by
        rw [hfil]
        simp [Worker.segment]
      intro x hx
      have := List.filter_eq_nil_iff.mp hnil x hx
      simpa using this
    · intro ch1
      rw [hi ch1]
      unfold Worker.batchLen
      rw [Nat.min_comm]

theorem cycleWorker_WF : cycleWorker.WF :=
  Init_WF (cycles 8) scenarioImage 0 0 2 2 (fun _ => List.reverse) (by decide)
    (fun _ l => List.reverse_perm l)

/-- The first turn of the worker of the scenario on a script of full
cycles. -/
theorem turn_channel_order_witness :
    Feeds (4 * 1) cycleWorker.gen ∧
    (Feeds (4 * 1) cycleWorker.gen → ∃ w1 wrs, cycleWorker.turn 1 = some (w1, wrs)) ∧
    (∀ w1 wrs, cycleWorker.turn 1 = some (w1, wrs) →
      ∃ (wr wg wb wa : Worker) (r g bl a : List Write) (dr dg db da : List Nat),
        cycleWorker.channelBatch .red 1 = some (wr, r) ∧
        wr.channelBatch .green 1 = some (wg, g) ∧
        wg.channelBatch .blue 1 = some (wb, bl) ∧ wb.channelBatch .alpha 1 = some (wa, a) ∧
        wrs = r ++ g ++ bl ++ a ∧
        (∀ x ∈ r, x.ch = .red) ∧ (∀ x ∈ g, x.ch = .green) ∧ (∀ x ∈ bl, x.ch = .blue) ∧
        (∀ x ∈ a, x.ch = .alpha) ∧
        cycleWorker.gen = dr ++ wr.gen ∧ wr.gen = dg ++ wg.gen ∧ wg.gen = db ++ wb.gen ∧
        wb.gen = da ++ wa.gen ∧ w1.gen = wa.gen ∧
        cycleWorker.gen = dr ++ dg ++ db ++ da ++ w1.gen) ∧
    (∀ (ch : Channel) (w0 : Worker), w0.chIdx ch = w0.m_PixelCount →
      w0.channelBatch ch 1 = some (w0, [])) ∧
    (∀ ch w1 wrs, cycleWorker.turn 1 = some (w1, wrs) →
      cycleWorker.chIdx ch = cycleWorker.m_PixelCount →
      w1.chIdx ch = cycleWorker.chIdx ch ∧ (∀ x ∈ wrs, x.ch ≠ ch) ∧
      ∀ ch1, w1.chIdx ch1 =
        cycleWorker.chIdx ch1 + min 1 (cycleWorker.m_PixelCount - cycleWorker.chIdx ch1)) :=
  ⟨Feeds.mono 4 8 _ (by decide) (feeds_cycles 8 []), turn_channel_order 1 cycleWorker cycleWorker_WF⟩

/-! ### One turn in lock step -/

/-- One turn of a worker whose cursors are all `m`: they are all
`min(m + b, m_PixelCount)` afterwards. -/
theorem turn_lockstep (b m : Nat) (w wt : Worker) (wrs : List Write) (hw : w.WF)
    (hm : ∀ ch, w.chIdx ch = m)
    (h : Worker.turn b { w with m_PendingUpdates := false } = some (wt, wrs)) :
    wt.WF ∧ wt.m_PixelCount = w.m_PixelCount ∧
      ∀ ch, wt.chIdx ch = min (m + b) w.m_PixelCount := by
  have hw0 := WF_setFlag w false hw
  have hs0 := static_setFlag w false
  obtain ⟨hi, hs, _, _, hwt⟩ := turn_spec b _ wt wrs hw0 h
  refine ⟨hwt, (hs0.trans hs).1, fun ch => ?_⟩
  rw [hi ch, chIdx_setFlag, batchLen_congr hs0 ch b (chIdx_setFlag w false ch)]
  unfold Worker.batchLen
  have := hw.2.2 ch
  rw [hm ch] at this ⊢
  omega

theorem isAnyWorkLeft_lockstep (w : Worker) (m : Nat) (hm : ∀ ch, w.chIdx ch = m) :
    w.isAnyWorkLeft = true ↔ m < w.m_PixelCount := by
  constructor
  · intro h
    obtain ⟨ch, hch⟩ := isAnyWorkLeft_true w h
    rw [hm ch] at hch
    exact hch
  · intro h
    by_contra hno
    have hf : w.isAnyWorkLeft = false := by simpa using hno
    have := isAnyWorkLeft_false w hf .red
    rw [hm .red] at this
    omega

theorem turnsNeeded_pos (r b : Nat) : 1 ≤ turnsNeeded r b := by
  unfold turnsNeeded
  omega

theorem turn_zero (w : Worker) :
    w.turn 0 = some ({ w with m_PendingUpdates := true }, []) := by
  have hb : ∀ (ch : Channel) (w0 : Worker), w0.channelBatch ch 0 = some (w0, []) := by
    intro ch w0
    unfold Worker.channelBatch
    split
    · rw [Nat.min_zero]
      rfl
    · rfl
  simp [Worker.turn, hb]

/-! ### What a worker does along a schedule -/

theorem exec_snoc (s : Sys) (as : List Action) (a : Action) :
    s.exec (as ++ [a]) = ((s.exec as).step a).getD (s.exec as) := by
  rw [exec_append]
  rfl

theorem writesBy_append (i : Nat) :
    ∀ (as : List Action) (s : Sys) (bs : List Action),
      Sys.writesBy i s (as ++ bs) = Sys.writesBy i s as ++ Sys.writesBy i (s.exec as) bs := by
  intro as
  induction as with
  | nil => intro s bs; rfl
  | cons a as ih =>
    intro s bs
    show s.writesAt i a ++ Sys.writesBy i ((s.step a).getD s) (as ++ bs) =
      (s.writesAt i a ++ Sys.writesBy i ((s.step a).getD s) as) ++
        Sys.writesBy i (((s.step a).getD s).exec as) bs
    rw [ih, List.append_assoc]

theorem writesBy_snoc (i : Nat) (s : Sys) (as : List Action) (a : Action) :
    Sys.writesBy i s (as ++ [a]) = Sys.writesBy i s as ++ (s.exec as).writesAt i a := by
  rw [writesBy_append]
  simp [Sys.writesBy]

theorem turnsDone_append (i : Nat) :
    ∀ (as : List Action) (s : Sys) (bs : List Action),
      Sys.turnsDone i s (as ++ bs) = Sys.turnsDone i s as + Sys.turnsDone i (s.exec as) bs := by
  intro as
  induction as with
  | nil => intro s bs; simp [Sys.turnsDone, Sys.exec]
  | cons a as ih =>
    intro s bs
    show s.postsAt i a + Sys.turnsDone i ((s.step a).getD s) (as ++ bs) =
      (s.postsAt i a + Sys.turnsDone i ((s.step a).getD s) as) +
        Sys.turnsDone i (((s.step a).getD s).exec as) bs
    rw [ih, Nat.add_assoc]

theorem turnsDone_snoc (i : Nat) (s : Sys) (as : List Action) (a : Action) :
    Sys.turnsDone i s (as ++ [a]) = Sys.turnsDone i s as + (s.exec as).postsAt i a := by
  rw [turnsDone_append]
  simp [Sys.turnsDone]

/-- An action that is not possible is no step of any worker. -/
theorem step_none_observed {a : Action} {s : Sys} (h : s.step a = none) (i : Nat) :
    s.writesAt i a = [] ∧ s.postsAt i a = 0 := by
  cases a with
  | worker j =>
    by_cases hji : j = i
    · subst hji
      unfold Sys.writesAt Sys.postsAt
      simp only [if_true]
      cases ht : s.workers[j]? with
      | none => exact ⟨rfl, rfl⟩
      | some t =>
        have hs : t.step s.stepSizeInPixels = none := by
          cases hst : t.step s.stepSizeInPixels with
          | none => rfl
          | some r =>
            obtain ⟨t1, wrs, inc⟩ := r
            simp [Sys.step, Sys.workerStep, ht, hst] at h
        refine ⟨by simp only [hs], ?_⟩
        by_cases hpc : t.pc = .postUpdate
        · simp [WorkerThread.step, hpc] at hs
        · simp only [if_neg hpc]
    · unfold Sys.writesAt Sys.postsAt
      simp only [if_neg hji]
      exact ⟨trivial, trivial⟩
  | orch ext => exact ⟨rfl, rfl⟩
  | key k p => exact ⟨rfl, rfl⟩

/-- What a step of the process does to worker thread `i`: a step of its
own when the action is `worker i`, and otherwise nothing, or the clearing
of its flag by the resume phase. -/
theorem Sys.step_thread {a : Action} {s s1 : Sys} (h : s.step a = some s1) (i : Nat)
    (t : WorkerThread) (ht : s.workers[i]? = some t) :
    ∃ t1, s1.workers[i]? = some t1 ∧
      ((a = .worker i ∧ ∃ wrs inc, t.step s.stepSizeInPixels = some (t1, wrs, inc) ∧
          s.writesAt i a = wrs ∧ s.postsAt i a = (if t.pc = .postUpdate then 1 else 0)) ∨
       (a ≠ .worker i ∧ s.writesAt i a = [] ∧ s.postsAt i a = 0 ∧
          (t1 = t ∨ ((∃ ext, a = .orch ext) ∧ s.orch = .resume i ∧
            t1 = { t with w := { t.w with m_PendingUpdates := false } })))) := by
  obtain ⟨hlen, _, _, hw⟩ := Sys.step_workers h
  have hi : i < s1.workers.length := by
    rw [hlen]
    exact getElem?_lt_length ht
  have ht1 := List.getElem?_eq_getElem hi
  refine ⟨_, ht1, ?_⟩
  obtain ⟨t0, ht0, hcase⟩ := hw i _ ht1
  rw [ht] at ht0
  simp only [Option.some.injEq] at ht0
  subst ht0
  by_cases ha : a = .worker i
  · left
    subst ha
    obtain ⟨t', t1', wrs, inc, ht', hstep, hs1⟩ := Sys.workerStep_spec h
    rw [ht] at ht'
    simp only [Option.some.injEq] at ht'
    subst ht'
    have hget : s1.workers[i]? = some t1' := by
      rw [hs1]
      simp [List.getElem?_set, getElem?_lt_length ht]
    rw [ht1] at hget
    simp only [Option.some.injEq] at hget
    refine ⟨rfl, wrs, inc, by rw [hget]; exact hstep, ?_, ?_⟩
    · simp [Sys.writesAt, ht, hstep]
    · simp [Sys.postsAt, ht]
  · right
    have hobs : s.writesAt i a = [] ∧ s.postsAt i a = 0 := by
      cases a with
      | worker j =>
        have hji : j ≠ i := fun hji => ha (by rw [hji])
        unfold Sys.writesAt Sys.postsAt
        simp only [if_neg hji]
        exact ⟨trivial, trivial⟩
      | orch ext => exact ⟨rfl, rfl⟩
      | key k p => exact ⟨rfl, rfl⟩
    refine ⟨ha, hobs.1, hobs.2, ?_⟩
    rcases hcase with heq | ⟨_, _, habs, _⟩ | ⟨hext, hpc, heq⟩
    · exact Or.inl heq
    · exact (ha habs).elim
    · exact Or.inr ⟨hext, hpc, heq⟩

theorem Worker.SameStatic.symm {w w1 : Worker} (h : w.SameStatic w1) : w1.SameStatic w :=
  ⟨h.1.symm, h.2.1.symm, h.2.2.1.symm, fun ch => (h.2.2.2 ch).symm⟩

/-- The invariant holds along every schedule run from a state where it holds. -/
theorem Inv_exec (c : Setup) (hc : c.WF) (s : Sys) (hs : s.Inv c) (as : List Action) :
    (s.exec as).Inv c :=
  exec_induct (fun s => s.Inv c) (fun _ _ _ hinv h => Inv_step c hc hinv h) as s hs

theorem segment_one (w : Worker) (ch : Channel) (p : TargetPixelComponent)
    (hp : (w.chList ch)[w.chIdx ch]? = some p) : w.segment ch 1 = [w.writeOf ch p] := by
  unfold Worker.segment
  have hlt := getElem?_lt_length hp
  rw [List.take_one, List.head?_drop, hp]
  rfl

theorem segment_zero (w : Worker) (ch : Channel) : w.segment ch 0 = [] := by
  simp [Worker.segment]

theorem segment_length_le (w : Worker) (ch : Channel) (k : Nat) :
    (w.segment ch k).length ≤ k := by
  unfold Worker.segment
  rw [List.length_map]
  exact List.length_take_le _ _

theorem thread_exec (c : Setup) (hc : c.WF) (s : Sys) (hs : s.Inv c) (as : List Action)
    (i : Nat) (t : WorkerThread) (ht : s.workers[i]? = some t) :
    ∃ t1, (s.exec as).workers[i]? = some t1 := by
  have h1 := (Inv_exec c hc s hs as).1.2.2.1
  have hi : i < (s.exec as).workers.length := by
    rw [h1, ← hs.1.2.2.1]
    exact getElem?_lt_length ht
  exact ⟨_, List.getElem?_eq_getElem hi⟩

/-- The assignments worker thread `i` makes to channel `ch` along a
schedule are those of the entries of its list between the cursor before and
the cursor after, in list order; no cursor goes back. -/
theorem writesBy_segment (c : Setup) (hc : c.WF) (i : Nat) (s : Sys) (hs : s.Inv c)
    (t : WorkerThread) (ht : s.workers[i]? = some t) :
    ∀ (as : List Action) (t1 : WorkerThread), (s.exec as).workers[i]? = some t1 →
      t.w.SameStatic t1.w ∧ ∀ ch, t.w.chIdx ch ≤ t1.w.chIdx ch ∧
        (Sys.writesBy i s as).filter (fun wr => decide (wr.ch = ch)) =
          t.w.segment ch (t1.w.chIdx ch - t.w.chIdx ch) := by
  intro as
  induction as using List.reverseRecOn with
  | nil =>
    intro t1 ht1
    have h : s.workers[i]? = some t1 := ht1
    rw [ht] at h
    simp only [Option.some.injEq] at h
    subst h
    refine ⟨Worker.SameStatic.refl _, fun ch => ⟨Nat.le_refl _, ?_⟩⟩
    rw [Nat.sub_self, segment_zero]
    rfl
  | append_singleton as a ih =>
    intro t1 ht1
    rw [exec_snoc] at ht1
    rw [writesBy_snoc]
    have hinv := Inv_exec c hc s hs as
    cases hst : (s.exec as).step a with
    | none =>
      rw [hst] at ht1
      simp only [Option.getD_none] at ht1
      obtain ⟨hss, hi⟩ := ih t1 ht1
      rw [(step_none_observed hst i).1, List.append_nil]
      exact ⟨hss, hi⟩
    | some s1 =>
      rw [hst] at ht1
      simp only [Option.getD_some] at ht1
      obtain ⟨t0, ht0⟩ := thread_exec c hc s hs as i t ht
      obtain ⟨hss, hi⟩ := ih t0 ht0
      obtain ⟨t1', ht1', hcase⟩ := Sys.step_thread hst i t0 ht0
      rw [ht1] at ht1'
      simp only [Option.some.injEq] at ht1'
      subst ht1'
      rcases hcase with ⟨_, wrs, inc, hstep, hwa, _⟩ | ⟨_, hwa, _, heq | ⟨_, _, heq⟩⟩
      · have hst1 := WorkerThread.step_static hstep
        refine ⟨hss.trans hst1, fun ch => ?_⟩
        rw [hwa]
        rcases WorkerThread.step_writes hstep with ⟨hwrs, hidx⟩ | ⟨chw, p, hp, hwrs, hi1, ho, _⟩
        · rw [hwrs, List.append_nil, hidx ch]
          exact hi ch
        · have hwf := (hinv.2.1 i t0 ht0).1
          have hlt : t0.w.chIdx chw < t0.w.m_PixelCount := by
            rw [← hwf.2.1 chw]
            exact getElem?_lt_length hp
          have hlt2 : t0.w.chIdx chw + 1 < 2 ^ 32 := by
            have := hwf.1
            omega
          rw [u32_of_lt hlt2] at hi1
          rw [hwrs, List.filter_append]
          by_cases hch : ch = chw
          · subst hch
            have hf : [t0.w.writeOf ch p].filter (fun wr => decide (wr.ch = ch)) =
                [t0.w.writeOf ch p] := by
              simp [Worker.writeOf]
            rw [hf, (hi ch).2, ← segment_one t0.w ch p hp,
              segment_add hss ch _ 1 (by have := (hi ch).1; omega), hi1]
            refine ⟨by have := (hi ch).1; omega, ?_⟩
            congr 1
            have := (hi ch).1
            omega
          · have hf : [t0.w.writeOf chw p].filter (fun wr => decide (wr.ch = ch)) = [] := by
              simp only [List.filter_eq_nil_iff, List.mem_singleton, decide_eq_true_eq]
              intro wr hwr
              rw [hwr]
              exact fun h => hch h.symm
            rw [hf, List.append_nil, ho ch hch]
            exact hi ch
      · rw [hwa, List.append_nil, heq]
        exact ⟨hss, hi⟩
      · rw [hwa, List.append_nil, heq]
        refine ⟨hss.trans (static_setFlag t0.w false), fun ch => ?_⟩
        rw [chIdx_setFlag]
        exact hi ch

theorem turnsNeeded_of_lt (n b k : Nat) (hb : 1 ≤ b) (h : k * b < n) : k < turnsNeeded n b := by
  unfold turnsNeeded
  have h1 : k + 1 ≤ (n + b - 1) / b := by
    apply (Nat.le_div_iff_mul_le (by omega)).mpr
    rw [Nat.add_mul]
    omega
  omega

theorem turnsNeeded_of_ge (n b k : Nat) (hb : 1 ≤ b) (h : n ≤ k * b) (hk : 1 ≤ k) :
    turnsNeeded n b ≤ k := by
  unfold turnsNeeded
  have h1 : (n + b - 1) / b < k + 1 := by
    apply (Nat.div_lt_iff_lt_mul (by omega)).mpr
    rw [Nat.add_mul]
    omega
  omega

theorem turnsNeeded_mul (n b : Nat) (hb : 1 ≤ b) : n ≤ turnsNeeded n b * b := by
  have h1 : (n + b - 1) / b ≤ turnsNeeded n b := by
    unfold turnsNeeded
    omega
  have h2 := Nat.mul_le_mul_right b h1
  have h3 := Nat.div_add_mod (n + b - 1) b
  have h4 := Nat.mod_lt (n + b - 1) (by omega : b > 0)
  rw [Nat.mul_comm] at h3
  omega

theorem turnsNeeded_zero (b : Nat) : turnsNeeded 0 b = 1 := by
  unfold turnsNeeded
  rcases Nat.eq_zero_or_pos b with h0 | h0
  · rw [h0]
    rfl
  · have : (0 + b - 1) / b = 0 := Nat.div_eq_of_lt (by omega)
    rw [this]
    rfl

theorem lockstep_clearFlag (b k : Nat) (t : WorkerThread) (h : t.Lockstep b k) :
    ({ t with w := { t.w with m_PendingUpdates := false } } : WorkerThread).Lockstep b k := by
  unfold WorkerThread.Lockstep at h ⊢
  have hidx : ({ t.w with m_PendingUpdates := false } : Worker).chIdx = t.w.chIdx :=
    funext (chIdx_setFlag t.w false)
  show lockstepAt b k t.w.m_PixelCount ({ t.w with m_PendingUpdates := false } : Worker).chIdx t.pc
  rw [hidx]
  exact h

/-- A step of a worker thread keeps the closed form; the step that posts
the flag completes a turn. -/
theorem lockstep_step (b : Nat) (hb : 1 ≤ b) {t t1 : WorkerThread} {wrs : List Write}
    {inc k : Nat} (hinv : t.Inv) (hl : t.Lockstep b k) (h : t.step b = some (t1, wrs, inc)) :
    t1.Lockstep b (k + (if t.pc = .postUpdate then 1 else 0)) := by
  unfold WorkerThread.Lockstep at hl ⊢
  generalize hk' : k + (if t.pc = .postUpdate then 1 else 0) = k'
  rcases WorkerThread.step_cases h with
    ⟨hw, _, _, hc⟩ | ⟨ch, l, wr, hpc, hpi, hpc1, _, _⟩ | ⟨hpc, hw, hpc1, _, _⟩ |
    ⟨hpc, hw, hpc1, _, _⟩
  · rw [hw]
    rcases hc with ⟨hpc, _, hpc1⟩ | ⟨c, hpc, hlt, hpc1⟩ | ⟨c, hpc, hge, hpc1⟩ |
      ⟨c, hpc, hpc1⟩ | ⟨hpc, hany, hpc1⟩ | ⟨hpc, hany, hpc1⟩
    · rw [hpc] at hl
      have hkk : k' = k := by rw [← hk', hpc]; simp
      rw [hkk, hpc1]
      simp only [lockstepAt] at hl ⊢
      refine ⟨hl.1, fun ch => ?_⟩
      rw [hl.2 ch]
      simp [Channel.rank]
    · rw [hpc] at hl
      have hkk : k' = k := by rw [← hk', hpc]; simp
      rw [hkk, hpc1]
      simp only [lockstepAt] at hl ⊢
      refine ⟨hl.1, fun ch => ?_⟩
      have h1 := hl.2 ch
      have h2 := hl.2 c
      simp only [Nat.lt_irrefl, if_false] at h2
      by_cases hr : ch.rank < c.rank
      · rw [if_pos hr] at h1 ⊢
        exact h1
      · rw [if_neg hr] at h1 ⊢
        by_cases hcc : ch = c
        · subst hcc
          rw [if_pos rfl]
          omega
        · rw [if_neg hcc]
          exact h1
    · rw [hpc] at hl
      have h2 := hl.2 c
      simp only [lockstepAt, Nat.lt_irrefl, if_false] at h2
      have hall : ∀ ch, t.w.chIdx ch = t.w.m_PixelCount ∧
          min (k * b) t.w.m_PixelCount = t.w.m_PixelCount ∧
          min (k * b + b) t.w.m_PixelCount = t.w.m_PixelCount := by
        intro ch
        have h1 := hl.2 ch
        simp only [lockstepAt] at h1
        split at h1 <;> omega
      have hkk : k' = k := by rw [← hk', hpc]; simp
      rw [hkk, hpc1]
      cases c <;> simp only [WorkerPc.afterChannel, lockstepAt] <;>
        refine ⟨hl.1, fun ch => ?_⟩ <;> have := hall ch <;>
        first
          | omega
          | (split <;> omega)
    · rw [hpc] at hl
      have hkk : k' = k := by rw [← hk', hpc]; simp
      rw [hkk, hpc1]
      simp only [lockstepAt] at hl
      cases c <;> simp only [WorkerPc.afterChannel, lockstepAt] <;>
        refine ⟨hl.1, fun ch => ?_⟩ <;> have h1 := hl.2 ch <;>
        cases ch <;> simp [Channel.rank] at h1 ⊢ <;> omega
    · rw [hpc] at hl
      have hkk : k' = k := by rw [← hk', hpc]; simp
      rw [hkk, hpc1]
      simp only [lockstepAt] at hl ⊢
      refine ⟨?_, hl.2.2⟩
      obtain ⟨ch, hch⟩ := isAnyWorkLeft_true t.w hany
      rw [hl.2.2 ch] at hch
      exact turnsNeeded_of_lt _ b k hb (by omega)
    · rw [hpc] at hl
      have hkk : k' = k := by rw [← hk', hpc]; simp
      rw [hkk, hpc1]
      simp only [lockstepAt] at hl ⊢
      refine ⟨?_, hl.2.2⟩
      have h1 := isAnyWorkLeft_false t.w hany .red
      rw [hl.2.2 .red] at h1
      have := turnsNeeded_of_ge t.w.m_PixelCount b k hb (by omega) hl.1
      omega
  · obtain ⟨hi, ho, hs, _⟩ := pixelIter_props hpi
    have hk := hinv.2.1 ch (l + 1) hpc
    have hlt : t.w.chIdx ch + 1 < 2 ^ 32 := by have := hinv.1.1; omega
    rw [u32_of_lt hlt] at hi
    rw [hpc] at hl
    have hkk : k' = k := by rw [← hk', hpc]; simp
    rw [hkk, hpc1, hs.1]
    simp only [lockstepAt] at hl ⊢
    refine ⟨hl.1, fun ch1 => ?_⟩
    have h1 := hl.2 ch1
    by_cases hr : ch1.rank < ch.rank
    · have hne : ch1 ≠ ch := fun he => by rw [he] at hr; omega
      rw [if_pos hr] at h1 ⊢
      rw [ho ch1 hne]
      exact h1
    · rw [if_neg hr] at h1 ⊢
      by_cases hcc : ch1 = ch
      · subst hcc
        rw [if_pos rfl] at h1 ⊢
        rw [hi]
        omega
      · rw [if_neg hcc] at h1 ⊢
        rw [ho ch1 hcc]
        exact h1
  · rw [hpc] at hl
    have hkk : k' = k + 1 := by rw [← hk', hpc]; simp
    rw [hkk, hpc1, hw]
    simp only [lockstepAt] at hl ⊢
    refine ⟨by omega, by omega, fun ch => ?_⟩
    rw [chIdx_setFlag, hl.2 ch, Nat.add_mul, Nat.one_mul]
  · rw [hpc] at hl
    have hkk : k' = k := by rw [← hk', hpc]; simp
    rw [hkk, hpc1, hw]
    simp only [lockstepAt] at hl ⊢
    exact hl

/-- The closed form holds along every schedule, with the number of turns
the worker has completed. -/
theorem lockstep_exec (c : Setup) (hc : c.WF) (hb : 1 ≤ c.stepSizeInPixels) (i : Nat) :
    ∀ (as : List Action) (t : WorkerThread), (c.start.exec as).workers[i]? = some t →
      t.Lockstep c.stepSizeInPixels (Sys.turnsDone i c.start as) := by
  intro as
  induction as using List.reverseRecOn with
  | nil =>
    intro t ht
    obtain ⟨hpc, hw⟩ := start_workers_at c i t ht
    unfold WorkerThread.Lockstep
    rw [hpc]
    refine ⟨turnsNeeded_pos _ _, fun ch => ?_⟩
    rw [initWorkers_chIdx c i t.w hw ch]
    show 0 = min (0 * c.stepSizeInPixels) t.w.m_PixelCount
    rw [Nat.zero_mul, Nat.zero_min]
  | append_singleton as a ih =>
    intro t1 ht1
    rw [exec_snoc] at ht1
    rw [turnsDone_snoc]
    have hinv := Inv_exec c hc c.start (Inv_start c hc) as
    cases hst : (c.start.exec as).step a with
    | none =>
      rw [hst] at ht1
      simp only [Option.getD_none] at ht1
      rw [(step_none_observed hst i).2, Nat.add_zero]
      exact ih t1 ht1
    | some s1 =>
      rw [hst] at ht1
      simp only [Option.getD_some] at ht1
      obtain ⟨_, _, _, hw⟩ := Sys.step_workers hst
      obtain ⟨t0, ht0, _⟩ := hw i t1 ht1
      obtain ⟨t1', ht1', hcase⟩ := Sys.step_thread hst i t0 ht0
      rw [ht1] at ht1'
      simp only [Option.some.injEq] at ht1'
      subst ht1'
      have hl := ih t0 ht0
      rcases hcase with ⟨_, wrs, inc, hstep, _, hpost⟩ | ⟨_, _, hpost, heq | ⟨_, _, heq⟩⟩
      · rw [hpost]
        rw [hinv.1.2.1] at hstep
        exact lockstep_step _ hb (hinv.2.1 i t0 ht0) hl hstep
      · rw [hpost, Nat.add_zero, heq]
        exact hl
      · rw [hpost, Nat.add_zero, heq]
        exact lockstep_clearFlag _ _ t0 hl

/-- With a batch size of 0 no cursor ever leaves 0, and no inner loop has
an iteration to make. -/
theorem zero_step_exec (c : Setup) (h0 : c.stepSizeInPixels = 0) (as : List Action) :
    ∀ (j : Nat) (t : WorkerThread), (c.start.exec as).workers[j]? = some t →
      (∀ ch, t.w.chIdx ch = 0) ∧ ∀ ch l, t.pc = .channelBody ch l → l = 0 := by
  have key := exec_induct
    (fun s => s.stepSizeInPixels = 0 ∧ ∀ (j : Nat) (t : WorkerThread), s.workers[j]? = some t →
      (∀ ch, t.w.chIdx ch = 0) ∧ ∀ ch l, t.pc = .channelBody ch l → l = 0)
    (by
      intro s a s1 hP hst
      obtain ⟨hb0, hth⟩ := hP
      obtain ⟨_, _, hb, hw⟩ := Sys.step_workers hst
      refine ⟨hb.trans hb0, fun j t1 hj => ?_⟩
      obtain ⟨t, ht, hcase⟩ := hw j t1 hj
      obtain ⟨hidx, hbody⟩ := hth j t ht
      rcases hcase with rfl | ⟨wrs, inc, _, hstep⟩ | ⟨_, _, rfl⟩
      · exact ⟨hidx, hbody⟩
      · rw [hb0] at hstep
        rcases WorkerThread.step_cases hstep with
          ⟨hw1, _, _, hcs⟩ | ⟨ch, l, wr, hpc, _⟩ | ⟨_, hw1, hpc1, _⟩ | ⟨_, hw1, hpc1, _⟩
        · refine ⟨fun ch => by rw [hw1]; exact hidx ch, fun ch l hl => ?_⟩
          rcases hcs with ⟨_, _, hpc1⟩ | ⟨c1, _, _, hpc1⟩ | ⟨c1, _, _, hpc1⟩ |
            ⟨c1, _, hpc1⟩ | ⟨_, _, hpc1⟩ | ⟨_, _, hpc1⟩
          · rw [hpc1] at hl; cases hl
          · rw [hpc1] at hl
            injection hl with _ h2
            rw [← h2]
            exact Nat.min_eq_right (Nat.zero_le _)
          · rw [hpc1] at hl; exact ((afterChannel_ne c1).1 ch l hl).elim
          · rw [hpc1] at hl; exact ((afterChannel_ne c1).1 ch l hl).elim
          · rw [hpc1] at hl; cases hl
          · rw [hpc1] at hl; cases hl
        · have := hbody ch (l + 1) hpc
          omega
        · refine ⟨fun ch => by rw [hw1, chIdx_setFlag]; exact hidx ch, fun ch l hl => ?_⟩
          rw [hpc1] at hl; cases hl
        · refine ⟨fun ch => by rw [hw1]; exact hidx ch, fun ch l hl => ?_⟩
          rw [hpc1] at hl; cases hl
      · exact ⟨fun ch => by rw [chIdx_setFlag]; exact hidx ch, hbody⟩)
    as c.start
    (by
      refine ⟨h0, fun j t ht => ?_⟩
      obtain ⟨hpc, hw⟩ := start_workers_at c j t ht
      exact ⟨fun ch => initWorkers_chIdx c j t.w hw ch,
        fun ch l hl => by rw [hpc] at hl; cases hl⟩)
  exact key.2

/-- C19: for every setup `main` can reach line 404 with, every schedule of
the process from the start of the threads and every worker `i`, with `n`
its pixel count, `b` the batch size and `k` the number of turns it has
completed (executions of line 176). With `b >= 1`: (1) whenever the worker
stands between two turns (at the wait, at the loop test, or past the loop)
all four cursors equal `min(k * b, n)`; (2) inside a turn every cursor lies
between `min(k * b, n)` and `min((k + 1) * b, n)`; (3) it never completes
more than `max(1, ceil(n / b))` turns; (4) when it has left the loop it has
completed exactly that many; (5) when it has completed that many it is at
the loop test with no work left, or past the loop. The closed form is 1
for `n = 0`. With `b = 0` every cursor stays 0 whatever is scheduled, and a
worker with a pixel never leaves its loop. `ParseCommandLine` only lets a
batch size of at least 1 through. -/
theorem lockstep_closed_form (c : Setup) (hc : c.WF) (as : List Action) (i : Nat)
    (t : WorkerThread) (ht : (c.start.exec as).workers[i]? = some t) :
    (1 ≤ c.stepSizeInPixels →
      ((t.pc = .awaitingTurn ∨ t.pc = .loopTest ∨ t.pc = .leaving ∨ t.pc = .finished) →
        ∀ ch, t.w.chIdx ch =
          min (Sys.turnsDone i c.start as * c.stepSizeInPixels) t.w.m_PixelCount) ∧
      (∀ ch,
        min (Sys.turnsDone i c.start as * c.stepSizeInPixels) t.w.m_PixelCount ≤ t.w.chIdx ch ∧
        t.w.chIdx ch ≤
          min ((Sys.turnsDone i c.start as + 1) * c.stepSizeInPixels) t.w.m_PixelCount) ∧
      Sys.turnsDone i c.start as ≤ turnsNeeded t.w.m_PixelCount c.stepSizeInPixels ∧
      ((t.pc = .leaving ∨ t.pc = .finished) →
        Sys.turnsDone i c.start as = turnsNeeded t.w.m_PixelCount c.stepSizeInPixels) ∧
      (Sys.turnsDone i c.start as = turnsNeeded t.w.m_PixelCount c.stepSizeInPixels →
        (t.pc = .loopTest ∨ t.pc = .leaving ∨ t.pc = .finished) ∧
          t.w.isAnyWorkLeft = false)) ∧
    (∀ b, turnsNeeded 0 b = 1) ∧
    (c.stepSizeInPixels = 0 →
      (∀ ch, t.w.chIdx ch = 0) ∧
        (0 < t.w.m_PixelCount → t.pc ≠ .leaving ∧ t.pc ≠ .finished)) ∧
    (∀ (atoi : String → Int) (ppArgv : List String) (cfg : Config), IntRange atoi →
      ParseCommandLine atoi ppArgv Config.default = (true, cfg) →
      1 ≤ cfg.stepSizeInPixels) := by
  have hinv := Inv_exec c hc c.start (Inv_start c hc) as
  refine ⟨?_, turnsNeeded_zero, ?_, fun atoi ppArgv cfg hr h =>
    ParseCommandLine_stepSize_pos atoi hr ppArgv cfg h⟩
  · intro hb
    have hl := lockstep_exec c hc hb i as t ht
    have hT := turnsNeeded_mul t.w.m_PixelCount c.stepSizeInPixels hb
    have hmul : (Sys.turnsDone i c.start as + 1) * c.stepSizeInPixels =
        Sys.turnsDone i c.start as * c.stepSizeInPixels + c.stepSizeInPixels := by
      rw [Nat.add_mul, Nat.one_mul]
    unfold WorkerThread.Lockstep at hl
    rw [hmul]
    clear hmul
    cases hpc : t.pc with
    | awaitingTurn =>
      rw [hpc] at hl
      simp only [lockstepAt] at hl
      refine ⟨fun _ => hl.2, fun ch => by rw [hl.2 ch]; omega, by omega, ?_, ?_⟩
      · intro h; rcases h with h | h <;> cases h
      · intro h; omega
    | channelHead c1 =>
      rw [hpc] at hl
      simp only [lockstepAt] at hl
      refine ⟨?_, fun ch => ?_, by omega, ?_, ?_⟩
      · intro h; rcases h with h | h | h | h <;> cases h
      · have := hl.2 ch
        split at this <;> omega
      · intro h; rcases h with h | h <;> cases h
      · intro h; omega
    | channelBody c1 l =>
      rw [hpc] at hl
      simp only [lockstepAt] at hl
      refine ⟨?_, fun ch => ?_, by omega, ?_, ?_⟩
      · intro h; rcases h with h | h | h | h <;> cases h
      · have := hl.2 ch
        split at this
        · omega
        · split at this <;> omega
      · intro h; rcases h with h | h <;> cases h
      · intro h; omega
    | postUpdate =>
      rw [hpc] at hl
      simp only [lockstepAt] at hl
      refine ⟨?_, fun ch => by rw [hl.2 ch]; omega, by omega, ?_, ?_⟩
      · intro h; rcases h with h | h | h | h <;> cases h
      · intro h; rcases h with h | h <;> cases h
      · intro h; omega
    | loopTest =>
      rw [hpc] at hl
      simp only [lockstepAt] at hl
      refine ⟨fun _ => hl.2.2, fun ch => by rw [hl.2.2 ch]; omega, hl.2.1, ?_, ?_⟩
      · intro h; rcases h with h | h <;> cases h
      · intro h
        refine ⟨Or.inl rfl, ?_⟩
        have hiff := isAnyWorkLeft_lockstep t.w _ hl.2.2
        cases hany : t.w.isAnyWorkLeft with
        | false => rfl
        | true =>
          have := hiff.mp hany
          rw [h] at this
          omega
    | leaving =>
      rw [hpc] at hl
      simp only [lockstepAt] at hl
      refine ⟨fun _ => hl.2, fun ch => by rw [hl.2 ch]; omega, by omega, fun _ => hl.1, ?_⟩
      intro _
      refine ⟨Or.inr (Or.inl rfl), ?_⟩
      have hiff := isAnyWorkLeft_lockstep t.w _ hl.2
      cases hany : t.w.isAnyWorkLeft with
      | false => rfl
      | true =>
        have := hiff.mp hany
        rw [hl.1] at this
        omega
    | finished =>
      rw [hpc] at hl
      simp only [lockstepAt] at hl
      refine ⟨fun _ => hl.2, fun ch => by rw [hl.2 ch]; omega, by omega, fun _ => hl.1, ?_⟩
      intro _
      refine ⟨Or.inr (Or.inr rfl), ?_⟩
      have hiff := isAnyWorkLeft_lockstep t.w _ hl.2
      cases hany : t.w.isAnyWorkLeft with
      | false => rfl
      | true =>
        have := hiff.mp hany
        rw [hl.1] at this
        omega
  · intro h0
    obtain ⟨hidx, _⟩ := zero_step_exec c h0 as i t ht
    refine ⟨hidx, fun hn => ?_⟩
    have hfin := (hinv.2.1 i t ht).2.2.1
    constructor
    · intro hpc
      have := hfin (Or.inl hpc) .red
      rw [hidx .red] at this
      omega
    · intro hpc
      have := hfin (Or.inr hpc) .red
      rw [hidx .red] at this
      omega

/-! ### What a released worker can still do -/

/-- A step of a worker thread does not raise, for any channel, the cursor
plus what the thread can still consume before it has to wait again. -/
theorem budget_step {b : Nat} {t t1 : WorkerThread} {wrs : List Write} {inc : Nat}
    (hinv : t.Inv) (h : t.step b = some (t1, wrs, inc)) (ch : Channel) :
    t1.w.chIdx ch + t1.budget b ch ≤ t.w.chIdx ch + t.budget b ch := by
  unfold WorkerThread.budget
  rcases WorkerThread.step_cases h with
    ⟨hw, _, _, hc⟩ | ⟨c, l, wr, hpc, hpi, hpc1, _, _⟩ | ⟨hpc, hw, hpc1, _, _⟩ |
    ⟨hpc, hw, hpc1, _, _⟩
  · rw [hw]
    rcases hc with ⟨hpc, hf, hpc1⟩ | ⟨c, hpc, hlt, hpc1⟩ | ⟨c, hpc, hge, hpc1⟩ |
      ⟨c, hpc, hpc1⟩ | ⟨hpc, hany, hpc1⟩ | ⟨hpc, hany, hpc1⟩
    · rw [hpc, hpc1, hf]
      simp [budgetAt, Channel.rank]
    · rw [hpc, hpc1]
      simp only [budgetAt]
      by_cases hr : ch.rank < c.rank
      · simp only [if_pos hr]
        exact Nat.le_refl _
      · simp only [if_neg hr]
        by_cases hcc : ch = c
        · subst hcc
          simp only [if_true]
          exact Nat.le_refl _
        · simp only [if_neg hcc]
          exact Nat.le_refl _
    · rw [hpc, hpc1]
      cases c <;> cases ch <;> simp [budgetAt, Channel.rank, WorkerPc.afterChannel]
    · rw [hpc, hpc1]
      cases c <;> cases ch <;> simp [budgetAt, Channel.rank, WorkerPc.afterChannel]
    · rw [hpc, hpc1]
      simp only [budgetAt]
      exact Nat.le_refl _
    · rw [hpc, hpc1]
      simp only [budgetAt]
      omega
  · obtain ⟨hi, ho, hs, _⟩ := pixelIter_props hpi
    have hk := hinv.2.1 c (l + 1) hpc
    have hlt : t.w.chIdx c + 1 < 2 ^ 32 := by have := hinv.1.1; omega
    rw [u32_of_lt hlt] at hi
    rw [hpc, hpc1, hs.1]
    simp only [budgetAt]
    by_cases hr : ch.rank < c.rank
    · have hne : ch ≠ c := fun he => by rw [he] at hr; omega
      simp only [if_pos hr]
      rw [ho ch hne]
    · simp only [if_neg hr]
      by_cases hcc : ch = c
      · subst hcc
        simp only [if_true]
        rw [hi]
        omega
      · simp only [if_neg hcc]
        rw [ho ch hcc]
  · rw [hpc, hpc1, hw]
    simp only [budgetAt, if_true, chIdx_setFlag]
    exact Nat.le_refl _
  · rw [hpc, hpc1, hw]
    simp only [budgetAt]
    exact Nat.le_refl _

theorem budget_le (b : Nat) (t : WorkerThread) (ch : Channel)
    (hbody : ∀ c l, t.pc = .channelBody c l → l ≤ b) : t.budget b ch ≤ b := by
  unfold WorkerThread.budget
  cases hpc : t.pc with
  | awaitingTurn => simp only [budgetAt]; split <;> omega
  | channelHead c => simp only [budgetAt]; split <;> omega
  | channelBody c l =>
    have := hbody c l hpc
    simp only [budgetAt]
    split
    · omega
    · split <;> omega
  | postUpdate => simp only [budgetAt]; omega
  | loopTest => simp only [budgetAt]; split <;> omega
  | leaving => simp only [budgetAt]; omega
  | finished => simp only [budgetAt]; omega

theorem budget_flag (b : Nat) (t : WorkerThread) (ch : Channel) (hinv : t.Inv)
    (hf : t.w.m_PendingUpdates = true) : t.budget b ch = 0 := by
  unfold WorkerThread.budget
  rcases hinv.2.2.2 hf with h | h | h | h <;> rw [h] <;> simp [budgetAt, hf]

/-- In every reachable state an inner loop in progress has at most
`pixelIterSize` iterations to go. -/
theorem BodyBound_reachable (c : Setup) (s : Sys) (hr : c.Reachable s) : s.BodyBound := by
  obtain ⟨as, rfl⟩ := hr
  apply exec_induct (fun s => s.BodyBound) ?_ as c.start
  · intro j t ht ch k hk
    rw [(start_workers_at c j t ht).1] at hk
    cases hk
  · intro s a s1 hP hst j t1 hj ch k hk
    obtain ⟨_, _, hb, hw⟩ := Sys.step_workers hst
    obtain ⟨t, ht, hcase⟩ := hw j t1 hj
    rw [hb]
    rcases hcase with rfl | ⟨wrs, inc, _, hstep⟩ | ⟨_, _, rfl⟩
    · exact hP j _ ht ch k hk
    · rcases WorkerThread.step_cases hstep with
        ⟨_, _, _, hcs⟩ | ⟨c1, l, wr, hpc, _, hpc1, _⟩ | ⟨_, _, hpc1, _⟩ | ⟨_, _, hpc1, _⟩
      · rcases hcs with ⟨_, _, hpc1⟩ | ⟨c1, _, _, hpc1⟩ | ⟨c1, _, _, hpc1⟩ |
          ⟨c1, _, hpc1⟩ | ⟨_, _, hpc1⟩ | ⟨_, _, hpc1⟩
        · rw [hpc1] at hk; cases hk
        · rw [hpc1] at hk
          injection hk with _ h2
          rw [← h2]
          exact Nat.min_le_right _ _
        · rw [hpc1] at hk; exact ((afterChannel_ne c1).1 ch k hk).elim
        · rw [hpc1] at hk; exact ((afterChannel_ne c1).1 ch k hk).elim
        · rw [hpc1] at hk; cases hk
        · rw [hpc1] at hk; cases hk
      · rw [hpc1] at hk
        injection hk with h1 h2
        have := hP j t ht c1 (l + 1) hpc
        omega
      · rw [hpc1] at hk; cases hk
      · rw [hpc1] at hk; cases hk
    · exact hP j t ht ch k hk

/-- While the barrier cycle is skipped and the pause is not lifted, no
worker's cursor plus budget rises. -/
theorem paused_budget (c : Setup) (hc : c.WF) :
    ∀ (as : List Action) (s : Sys), s.Inv c → s.Paused →
      (∀ a ∈ as, a ≠ Action.key .space true) →
      ∀ (i : Nat) (t : WorkerThread), s.workers[i]? = some t →
        ∃ t1, (s.exec as).workers[i]? = some t1 ∧
          ∀ ch, t1.w.chIdx ch + t1.budget c.stepSizeInPixels ch ≤
            t.w.chIdx ch + t.budget c.stepSizeInPixels ch := by
  intro as
  induction as with
  | nil =>
    intro s _ _ _ i t ht
    exact ⟨t, ht, fun _ => Nat.le_refl _⟩
  | cons a as ih =>
    intro s hinv hq hns i t ht
    have hns' : ∀ b ∈ as, b ≠ Action.key .space true :=
      fun b hb => hns b (List.mem_cons_of_mem a hb)
    unfold Sys.exec
    cases hst : s.step a with
    | none =>
      simp only [Option.getD_none]
      exact ih s hinv hq hns' i t ht
    | some s1 =>
      simp only [Option.getD_some]
      obtain ⟨hq1, _, _⟩ := paused_step hinv.2.1 hq (hns a (List.mem_cons_self a as)) hst
      obtain ⟨t1, ht1, hcase⟩ := Sys.step_thread hst i t ht
      obtain ⟨t2, ht2, hle⟩ := ih s1 (Inv_step c hc hinv hst) hq1 hns' i t1 ht1
      refine ⟨t2, ht2, fun ch => Nat.le_trans (hle ch) ?_⟩
      rcases hcase with ⟨_, wrs, inc, hstep, _, _⟩ | ⟨_, _, _, heq | ⟨_, hpc, _⟩⟩
      · rw [hinv.1.2.1] at hstep
        exact budget_step (hinv.2.1 i t ht) hstep ch
      · rw [heq]
      · rcases hq.2 with h | h | h <;> rw [h] at hpc <;> cases hpc

theorem writes_nil_of_filter (l : List Write)
    (h : ∀ ch, l.filter (fun wr => decide (wr.ch = ch)) = []) : l = [] := by
  cases l with
  | nil => rfl
  | cons wr l =>
    have := h wr.ch
    simp at this

theorem parkSetup_WF : parkSetup.WF :=
  ⟨by decide, by decide, by decide, by decide, fun _ _ l => List.Perm.refl l⟩

/-- C11, amended: in every reachable state in which the control thread
skips the barrier cycle (`renderPaused` set, the thread at the head of its
loop or at `mfb_wait_sync`), and along every schedule from there that does
not lift the pause: the cycle stays skipped, so no flag is cleared. Every
worker, over the whole schedule, advances each cursor by at most
`pixelIterSize` and makes at most `pixelIterSize` assignments per channel:
what is left of the turn it was released for. A worker whose flag is set
stays outside the converging part of a turn (at the loop test that follows
the posting of the flag, waiting at line 114, or past its loop) with its
flag set and its cursors unchanged, and makes no assignment at all. Once
every worker's flag is set the frame buffer's bytes do not change. -/
theorem pause_parks_workers (c : Setup) (hc : c.WF) (s : Sys) (hr : c.Reachable s)
    (hp : s.renderPaused = true) (ho : s.orch = .loopTop ∨ s.orch = .waitSync)
    (as : List Action) (hns : ∀ a ∈ as, a ≠ Action.key .space true) :
    (s.exec as).renderPaused = true ∧
    ((s.exec as).orch = .loopTop ∨ (s.exec as).orch = .waitSync ∨
      (s.exec as).orch = .exited) ∧
    (∀ (i : Nat) (t : WorkerThread), s.workers[i]? = some t →
      ∃ t1, (s.exec as).workers[i]? = some t1 ∧
        (∀ ch, t.w.chIdx ch ≤ t1.w.chIdx ch ∧
          t1.w.chIdx ch ≤ t.w.chIdx ch + s.stepSizeInPixels ∧
          ((Sys.writesBy i s as).filter (fun wr => decide (wr.ch = ch))).length ≤
            s.stepSizeInPixels) ∧
        (t.w.m_PendingUpdates = true →
          t1.w.m_PendingUpdates = true ∧ (∀ ch, t1.w.chIdx ch = t.w.chIdx ch) ∧
          Sys.writesBy i s as = [] ∧
          (t1.pc = .awaitingTurn ∨ t1.pc = .loopTest ∨ t1.pc = .leaving ∨
            t1.pc = .finished))) ∧
    ((∀ t ∈ s.workers, t.w.m_PendingUpdates = true) → (s.exec as).fb = s.fb) := by
  have hq : s.Paused := ⟨hp, by rcases ho with h | h; exact Or.inl h; exact Or.inr (Or.inl h)⟩
  have hinv := Inv_reachable c hc s hr
  have hinv1 := Inv_exec c hc s hinv as
  have hbb := BodyBound_reachable c s hr
  obtain ⟨hq1, hkeep, hfb⟩ := paused_exec c hc as s hinv hq hns
  refine ⟨hq1.1, hq1.2, ?_, fun hall => hfb (fun j t hj => hall t (List.getElem?_mem hj))⟩
  intro i t ht
  obtain ⟨t1, ht1, hle⟩ := paused_budget c hc as s hinv hq hns i t ht
  obtain ⟨_, hseg⟩ := writesBy_segment c hc i s hinv t ht as t1 ht1
  have hstep : s.stepSizeInPixels = c.stepSizeInPixels := hinv.1.2.1
  have hadv : ∀ ch, t1.w.chIdx ch ≤ t.w.chIdx ch + s.stepSizeInPixels := by
    intro ch
    have h1 := hle ch
    have h2 := budget_le c.stepSizeInPixels t ch
      (fun c1 l hpc => by rw [← hstep]; exact hbb i t ht c1 l hpc)
    rw [hstep]
    omega
  refine ⟨t1, ht1, fun ch => ⟨(hseg ch).1, hadv ch, ?_⟩, ?_⟩
  · rw [(hseg ch).2]
    have h1 := segment_length_le t.w ch (t1.w.chIdx ch - t.w.chIdx ch)
    have h2 := hadv ch
    omega
  · intro hf
    have hsame : ∀ ch, t1.w.chIdx ch = t.w.chIdx ch := by
      intro ch
      have h1 := hle ch
      have h2 := budget_flag c.stepSizeInPixels t ch (hinv.2.1 i t ht) hf
      have h3 := (hseg ch).1
      omega
    obtain ⟨t1', ht1', hf1, _⟩ := hkeep i t ht hf
    rw [ht1] at ht1'
    simp only [Option.some.injEq] at ht1'
    subst ht1'
    refine ⟨hf1, hsame, ?_, (hinv1.2.1 i t1 ht1).2.2.2 hf1⟩
    apply writes_nil_of_filter
    intro ch
    rw [(hseg ch).2, hsame ch, Nat.sub_self, segment_zero]

set_option maxRecDepth 100000 in
/-- Two paused states of `parkSetup`. In `parkParked` the worker waits in
`AwaitingTurn` with its flag set and a pixel left, and `pausedSchedule`
changes nothing. In `parkObserved` the worker has been released, and along
`releasedSchedule` it makes the four assignments of its second turn, one
per channel, and parks. -/
theorem pause_parks_workers_witness :
    (parkParked.workers.map fun t => (t.pc, t.w.m_PendingUpdates, t.w.m_RedChIdx,
      t.w.m_PixelCount)) = [(.awaitingTurn, true, 2, 3)] ∧
    (parkObserved.workers.map fun t => (t.pc, t.w.m_PendingUpdates, t.w.m_RedChIdx,
      t.w.m_PixelCount)) = [(.awaitingTurn, false, 1, 3)] ∧
    Sys.writesBy 0 parkObserved releasedSchedule =
      [{ addr := 1, ch := .red, val := 1 }, { addr := 1, ch := .green, val := 2 },
       { addr := 1, ch := .blue, val := 3 }, { addr := 1, ch := .alpha, val := 4 }] ∧
    ((parkParked.exec pausedSchedule).renderPaused = true ∧
    ((parkParked.exec pausedSchedule).orch = .loopTop ∨
      (parkParked.exec pausedSchedule).orch = .waitSync ∨
      (parkParked.exec pausedSchedule).orch = .exited) ∧
    (∀ (i : Nat) (t : WorkerThread), parkParked.workers[i]? = some t →
      ∃ t1, (parkParked.exec pausedSchedule).workers[i]? = some t1 ∧
        (∀ ch, t.w.chIdx ch ≤ t1.w.chIdx ch ∧
          t1.w.chIdx ch ≤ t.w.chIdx ch + parkParked.stepSizeInPixels ∧
          ((Sys.writesBy i parkParked pausedSchedule).filter
            (fun wr => decide (wr.ch = ch))).length ≤ parkParked.stepSizeInPixels) ∧
        (t.w.m_PendingUpdates = true →
          t1.w.m_PendingUpdates = true ∧ (∀ ch, t1.w.chIdx ch = t.w.chIdx ch) ∧
          Sys.writesBy i parkParked pausedSchedule = [] ∧
          (t1.pc = .awaitingTurn ∨ t1.pc = .loopTest ∨ t1.pc = .leaving ∨
            t1.pc = .finished))) ∧
    ((∀ t ∈ parkParked.workers, t.w.m_PendingUpdates = true) →
      (parkParked.exec pausedSchedule).fb = parkParked.fb)) ∧
    ((parkObserved.exec releasedSchedule).renderPaused = true ∧
    ((parkObserved.exec releasedSchedule).orch = .loopTop ∨
      (parkObserved.exec releasedSchedule).orch = .waitSync ∨
      (parkObserved.exec releasedSchedule).orch = .exited) ∧
    (∀ (i : Nat) (t : WorkerThread), parkObserved.workers[i]? = some t →
      ∃ t1, (parkObserved.exec releasedSchedule).workers[i]? = some t1 ∧
        (∀ ch, t.w.chIdx ch ≤ t1.w.chIdx ch ∧
          t1.w.chIdx ch ≤ t.w.chIdx ch + parkObserved.stepSizeInPixels ∧
          ((Sys.writesBy i parkObserved releasedSchedule).filter
            (fun wr => decide (wr.ch = ch))).length ≤ parkObserved.stepSizeInPixels) ∧
        (t.w.m_PendingUpdates = true →
          t1.w.m_PendingUpdates = true ∧ (∀ ch, t1.w.chIdx ch = t.w.chIdx ch) ∧
          Sys.writesBy i parkObserved releasedSchedule = [] ∧
          (t1.pc = .awaitingTurn ∨ t1.pc = .loopTest ∨ t1.pc = .leaving ∨
            t1.pc = .finished))) ∧
    ((∀ t ∈ parkObserved.workers, t.w.m_PendingUpdates = true) →
      (parkObserved.exec releasedSchedule).fb = parkObserved.fb)) :=
  ⟨by decide, by decide, by decide,
    pause_parks_workers parkSetup parkSetup_WF parkParked ⟨scenarioToParked, rfl⟩ rfl
      (Or.inr rfl) pausedSchedule (by decide),
    pause_parks_workers parkSetup parkSetup_WF parkObserved ⟨scenarioToPaused, rfl⟩ rfl
      (Or.inr rfl) releasedSchedule (by decide)⟩

theorem zeroStepSetup_WF : zeroStepSetup.WF :=
  ⟨by decide, by decide, by decide, by decide, fun _ _ l => List.reverse_perm l⟩

set_option maxRecDepth 100000 in
/-- Three runs. The scenario (2 pixels, batch size 1) after its schedule:
the worker has completed 2 = max(1, ceil(2 / 1)) turns and returned. The
setup of `RI image -n 4 -w 3 -h 1 -p 1` after `stuckSchedule`: worker 3
(3 pixels) has completed 2 of its 3 turns and waits, its cursors at 2. The
scenario with batch size 0: after two turns every cursor is 0. -/
theorem lockstep_closed_form_witness :
    (scenario.stepSizeInPixels = 1 ∧ Sys.turnsDone 0 scenario.start scenarioSchedule = 2 ∧
      turnsNeeded 2 1 = 2) ∧
    (stuckSetup.stepSizeInPixels = 1 ∧ Sys.turnsDone 3 stuckSetup.start stuckSchedule = 2 ∧
      turnsNeeded 3 1 = 3) ∧
    (zeroStepSetup.stepSizeInPixels = 0 ∧
      Sys.turnsDone 0 zeroStepSetup.start zeroStepSchedule = 2) ∧
    (∃ t, (scenario.start.exec scenarioSchedule).workers[0]? = some t ∧ t.pc = .finished ∧
      t.w.m_PixelCount = 2 ∧
      (1 ≤ scenario.stepSizeInPixels →
        ((t.pc = .awaitingTurn ∨ t.pc = .loopTest ∨ t.pc = .leaving ∨ t.pc = .finished) →
          ∀ ch, t.w.chIdx ch =
            min (Sys.turnsDone 0 scenario.start scenarioSchedule * scenario.stepSizeInPixels)
              t.w.m_PixelCount) ∧
        (∀ ch,
          min (Sys.turnsDone 0 scenario.start scenarioSchedule * scenario.stepSizeInPixels)
              t.w.m_PixelCount ≤ t.w.chIdx ch ∧
          t.w.chIdx ch ≤
            min ((Sys.turnsDone 0 scenario.start scenarioSchedule + 1) * scenario.stepSizeInPixels)
              t.w.m_PixelCount) ∧
        Sys.turnsDone 0 scenario.start scenarioSchedule ≤
          turnsNeeded t.w.m_PixelCount scenario.stepSizeInPixels ∧
        ((t.pc = .leaving ∨ t.pc = .finished) →
          Sys.turnsDone 0 scenario.start scenarioSchedule =
            turnsNeeded t.w.m_PixelCount scenario.stepSizeInPixels) ∧
        (Sys.turnsDone 0 scenario.start scenarioSchedule =
            turnsNeeded t.w.m_PixelCount scenario.stepSizeInPixels →
          (t.pc = .loopTest ∨ t.pc = .leaving ∨ t.pc = .finished) ∧
            t.w.isAnyWorkLeft = false)) ∧
      (∀ b, turnsNeeded 0 b = 1) ∧
      (scenario.stepSizeInPixels = 0 →
        (∀ ch, t.w.chIdx ch = 0) ∧
          (0 < t.w.m_PixelCount → t.pc ≠ .leaving ∧ t.pc ≠ .finished)) ∧
      (∀ (atoi : String → Int) (ppArgv : List String) (cfg : Config), IntRange atoi →
        ParseCommandLine atoi ppArgv Config.default = (true, cfg) →
        1 ≤ cfg.stepSizeInPixels)) ∧
    (∃ t, (stuckSetup.start.exec stuckSchedule).workers[3]? = some t ∧ t.pc = .awaitingTurn ∧
      t.w.m_PixelCount = 3 ∧
      (1 ≤ stuckSetup.stepSizeInPixels →
        ((t.pc = .awaitingTurn ∨ t.pc = .loopTest ∨ t.pc = .leaving ∨ t.pc = .finished) →
          ∀ ch, t.w.chIdx ch =
            min (Sys.turnsDone 3 stuckSetup.start stuckSchedule * stuckSetup.stepSizeInPixels)
              t.w.m_PixelCount) ∧
        (∀ ch,
          min (Sys.turnsDone 3 stuckSetup.start stuckSchedule * stuckSetup.stepSizeInPixels)
              t.w.m_PixelCount ≤ t.w.chIdx ch ∧
          t.w.chIdx ch ≤
            min ((Sys.turnsDone 3 stuckSetup.start stuckSchedule + 1) * stuckSetup.stepSizeInPixels)
              t.w.m_PixelCount) ∧
        Sys.turnsDone 3 stuckSetup.start stuckSchedule ≤
          turnsNeeded t.w.m_PixelCount stuckSetup.stepSizeInPixels ∧
        ((t.pc = .leaving ∨ t.pc = .finished) →
          Sys.turnsDone 3 stuckSetup.start stuckSchedule =
            turnsNeeded t.w.m_PixelCount stuckSetup.stepSizeInPixels) ∧
        (Sys.turnsDone 3 stuckSetup.start stuckSchedule =
            turnsNeeded t.w.m_PixelCount stuckSetup.stepSizeInPixels →
          (t.pc = .loopTest ∨ t.pc = .leaving ∨ t.pc = .finished) ∧
            t.w.isAnyWorkLeft = false)) ∧
      (∀ b, turnsNeeded 0 b = 1) ∧
      (stuckSetup.stepSizeInPixels = 0 →
        (∀ ch, t.w.chIdx ch = 0) ∧
          (0 < t.w.m_PixelCount → t.pc ≠ .leaving ∧ t.pc ≠ .finished)) ∧
      (∀ (atoi : String → Int) (ppArgv : List String) (cfg : Config), IntRange atoi →
        ParseCommandLine atoi ppArgv Config.default = (true, cfg) →
        1 ≤ cfg.stepSizeInPixels)) ∧
    (∃ t, (zeroStepSetup.start.exec zeroStepSchedule).workers[0]? = some t ∧ t.pc = .awaitingTurn ∧
      t.w.m_PixelCount = 2 ∧
      (1 ≤ zeroStepSetup.stepSizeInPixels →
        ((t.pc = .awaitingTurn ∨ t.pc = .loopTest ∨ t.pc = .leaving ∨ t.pc = .finished) →
          ∀ ch, t.w.chIdx ch =
            min (Sys.turnsDone 0 zeroStepSetup.start zeroStepSchedule * zeroStepSetup.stepSizeInPixels)
              t.w.m_PixelCount) ∧
        (∀ ch,
          min (Sys.turnsDone 0 zeroStepSetup.start zeroStepSchedule * zeroStepSetup.stepSizeInPixels)
              t.w.m_PixelCount ≤ t.w.chIdx ch ∧
          t.w.chIdx ch ≤
            min ((Sys.turnsDone 0 zeroStepSetup.start zeroStepSchedule + 1) * zeroStepSetup.stepSizeInPixels)
              t.w.m_PixelCount) ∧
        Sys.turnsDone 0 zeroStepSetup.start zeroStepSchedule ≤
          turnsNeeded t.w.m_PixelCount zeroStepSetup.stepSizeInPixels ∧
        ((t.pc = .leaving ∨ t.pc = .finished) →
          Sys.turnsDone 0 zeroStepSetup.start zeroStepSchedule =
            turnsNeeded t.w.m_PixelCount zeroStepSetup.stepSizeInPixels) ∧
        (Sys.turnsDone 0 zeroStepSetup.start zeroStepSchedule =
            turnsNeeded t.w.m_PixelCount zeroStepSetup.stepSizeInPixels →
          (t.pc = .loopTest ∨ t.pc = .leaving ∨ t.pc = .finished) ∧
            t.w.isAnyWorkLeft = false)) ∧
      (∀ b, turnsNeeded 0 b = 1) ∧
      (zeroStepSetup.stepSizeInPixels = 0 →
        (∀ ch, t.w.chIdx ch = 0) ∧
          (0 < t.w.m_PixelCount → t.pc ≠ .leaving ∧ t.pc ≠ .finished)) ∧
      (∀ (atoi : String → Int) (ppArgv : List String) (cfg : Config), IntRange atoi →
        ParseCommandLine atoi ppArgv Config.default = (true, cfg) →
        1 ≤ cfg.stepSizeInPixels)) :=
  ⟨by decide, by decide, by decide,
    ⟨_, rfl, rfl, rfl, lockstep_closed_form scenario scenario_WF scenarioSchedule 0 _ rfl⟩,
    ⟨_, rfl, rfl, rfl, lockstep_closed_form stuckSetup stuckSetup_WF stuckSchedule 3 _ rfl⟩,
    ⟨_, rfl, rfl, rfl,
      lockstep_closed_form zeroStepSetup zeroStepSetup_WF zeroStepSchedule 0 _ rfl⟩⟩

end RI
